import Mathlib

/-!
# Reaktor: the interior-point Newton solver

A shallow embedding of `OptimumSolverIpnewton::Impl::solve`
(`Reaktor/Optimization/OptimumSolverIpnewton.cpp`) and of the records it works on.

Conventions of the embedding.

* `double` is modelled by `ℚ` (exact arithmetic); `unsigned` counters by `Nat`.
* An Eigen vector is the list of its coefficients, an Eigen matrix the list of its
  columns (Eigen stores matrices column by column).  Coefficient-wise operations on two
  vectors pair the coefficients up; Eigen requires the operands to have the same size.
* The closures of `solve` capture the locals by reference; here they are functions on a
  record `Run` holding everything they can touch.
* A C++ exception is the `Except.error` outcome, carrying the `Run` reached when it was
  raised.
* `Run.calls` is a ghost log of the calls made on the problem and on the KKT solver, and
  `Impl.outputter` is the log of the calls received by the output sink.
-/

namespace Reaktor

/-! ## Vectors and matrices -/

/-- The type `Vector` of the library: a dense column vector of `double`. -/
abbrev Vector := List ℚ

/-- The type `Matrix` of the library, stored as the list of its columns. -/
abbrev Matrix := List (List ℚ)

/-- The vector `zeros(n)`. -/
def zeros (n : Nat) : Vector := List.replicate n 0

/-- The vector `ones(n)`. -/
def ones (n : Nat) : Vector := List.replicate n 1

/-- Product `a * v` of a scalar and a vector. -/
def smul (a : ℚ) (v : Vector) : Vector := v.map (fun c => a * c)

/-- Sum `u + v`. -/
def vadd (u v : Vector) : Vector := List.zipWith (fun a b => a + b) u v

/-- Difference `u - v`. -/
def vsub (u v : Vector) : Vector := List.zipWith (fun a b => a - b) u v

/-- Opposite `-v`. -/
def vneg (v : Vector) : Vector := v.map (fun c => -c)

/-- Coefficient-wise product `u % v`. -/
def emul (u v : Vector) : Vector := List.zipWith (fun a b => a * b) u v

/-- Coefficient-wise quotient `u / v`. -/
def ediv (u v : Vector) : Vector := List.zipWith (fun a b => a / b) u v

/-- Coefficient-wise quotient `a / v` of a scalar by a vector. -/
def sdiv (a : ℚ) (v : Vector) : Vector := v.map (fun c => a / c)

/-- Coefficient-wise difference `a - v` of a scalar and a vector. -/
def ssub (a : ℚ) (v : Vector) : Vector := v.map (fun c => a - c)

/-- Coefficient-wise difference `v - a` of a vector and a scalar. -/
def vsubs (v : Vector) (a : ℚ) : Vector := v.map (fun c => c - a)

/-- Coefficient-wise maximum `max(u, v)`. -/
def vmax (u v : Vector) : Vector := List.zipWith (fun a b => max a b) u v

/-- The expression `(c.array() > 0).select(u, v)`: coefficient of `u` where the coefficient of
`c` is positive, coefficient of `v` elsewhere. -/
def selectPositive (c u v : Vector) : Vector :=
  List.zipWith (fun ci uv => if ci > 0 then uv.1 else uv.2) c (List.zip u v)

/-- Scalar product of two vectors. -/
def dot (u v : Vector) : ℚ := (List.zipWith (fun a b => a * b) u v).sum

/-- The product `A.transpose() * y`: one scalar product per column of `A`. -/
def trmul (A : Matrix) (y : Vector) : Vector := A.map (fun col => dot col y)

/-- Modelled from the spec: `norminf` of `Math/MathUtils.hpp`, which is missing; the
infinity norm `‖v‖∞`, the largest absolute value of a coefficient. -/
def norminf (v : Vector) : ℚ := v.foldr (fun c acc => max |c| acc) 0

/-! ## Records -/

/-- The enumeration `Hessian::Mode`. -/
inductive HessianMode where
  | Dense
  | Diagonal
  | Inverse
  deriving DecidableEq, Repr

/-- The struct `Hessian`. -/
structure Hessian where
  mode : HessianMode := HessianMode.Dense
  inverse : Matrix := []
  dense : Matrix := []
  diagonal : Vector := []
  deriving DecidableEq, Repr

/-- Modelled from the spec: `OptimumProblem` (its header is missing), the sizes and the five
callbacks that `solve` consumes. -/
structure OptimumProblem where
  numVariables : Nat
  numConstraints : Nat
  objective : Vector → ℚ
  objectiveGrad : Vector → Vector
  objectiveHessian : Vector → Vector → Hessian
  constraint : Vector → Vector
  constraintGrad : Vector → Matrix

/-- Modelled from the spec: `OptimumState` (its header is missing), the iterate `x`, `y`, `z`
and the cached evaluations `f`, `g`, `H`, `h`, `A`. -/
structure OptimumState where
  x : Vector := []
  y : Vector := []
  z : Vector := []
  f : ℚ := 0
  g : Vector := []
  H : Hessian := {}
  h : Vector := []
  A : Matrix := []
  deriving DecidableEq, Repr

/-- Modelled from the spec: the options of the output sink (`Outputter.hpp` is missing).
`solve` reads `active` only; the other fields are formatting. -/
structure OutputOptions where
  active : Bool := false
  fixed : Bool := false
  scientific : Bool := false
  precision : Nat := 6
  width : Nat := 15
  deriving DecidableEq, Repr

/-- Modelled from the spec: the parameters `options.ipnewton`. -/
structure IpnewtonOptions where
  mu : ℚ := 1 / 100000
  mux : ℚ := 1 / 100000
  tau : ℚ := 99 / 100
  uniform_newton_step : Bool := false
  deriving DecidableEq, Repr

/-- Modelled from the spec: `OptimumOptions` (its header is missing). -/
structure OptimumOptions where
  tolerance : ℚ := 1 / 1000000
  max_iterations : Nat := 100
  ipnewton : IpnewtonOptions := {}
  output : OutputOptions := {}
  deriving DecidableEq, Repr

/-- The struct `OptimumResult`, with the fields that `OptimumResult::operator+=` lists.
Modelled from the spec: a default-constructed result has `succeeded = false` and every
count, error and time equal to zero (the header with the initialisers is missing). -/
structure OptimumResult where
  succeeded : Bool := false
  iterations : Nat := 0
  num_objective_evals : Nat := 0
  convergence_rate : ℚ := 0
  error : ℚ := 0
  time : ℚ := 0
  time_objective_evals : ℚ := 0
  time_constraint_evals : ℚ := 0
  time_linear_systems : ℚ := 0
  deriving DecidableEq, Repr

/-- A call received by the output sink `outputter`.  The overloads of `addValue` are told
apart: `addCount` takes the unsigned counter, `addValue` a `double`, `addText` a string. -/
inductive OutputCall where
  | setOptions (o : OutputOptions)
  | addEntry (name : String)
  | addEntries (name : String) (count : Nat)
  | outputHeader
  | addCount (n : Nat)
  | addValue (v : ℚ)
  | addText (s : String)
  | addValues (v : Vector)
  | outputState
  deriving DecidableEq, Repr

/-- A call made by `solve` on the problem or on the KKT solver (ghost log). -/
inductive Call where
  | objective (x : Vector)
  | objectiveGrad (x : Vector)
  | constraint (x : Vector)
  | constraintGrad (x : Vector)
  | objectiveHessian (x g : Vector)
  | kktDecompose (state : OptimumState)
  | kktSolve (a b : Vector)
  deriving DecidableEq, Repr

/-- What `kkt.solve(a, b, dx, dy)` writes: the two directions, and the time
`kkt.info().time_solve`. -/
structure KktSolution where
  dx : Vector
  dy : Vector
  time_solve : ℚ
  deriving DecidableEq, Repr

/-- Modelled from the spec: the KKT solver (`KktSolver.hpp` is missing).  `decompose state`
factorises the system of `state` and reports `kkt.info().time_decompose`; `solve state a b`
solves against the factorisation of `state`.  `none` is a failure raised to the caller. -/
structure KktSolver where
  decompose : OptimumState → Option ℚ
  solve : OptimumState → Vector → Vector → Option KktSolution

/-- What `solve` takes from outside the file: the KKT solver, the step-length rule
`fractionToTheBoundary` of `Optimization/Utils.hpp` and the wall-clock time `elapsed(begin)`
measured for the call. -/
structure Env where
  kkt : KktSolver
  fractionToTheBoundary : Vector → Vector → ℚ → ℚ
  elapsed : ℚ

/-- The members of `OptimumSolverIpnewton::Impl` that are data: the scratch vectors and the
log of the output sink. -/
structure Impl where
  dx : Vector := []
  dy : Vector := []
  dz : Vector := []
  a : Vector := []
  b : Vector := []
  outputter : List OutputCall := []
  deriving DecidableEq, Repr

/-- Everything the closures of `solve` capture: the state, the result, the members of `Impl`,
the locals `alphax`, `alphaz`, `alpha`, `errorf`, `errorh`, `errorc`, `error` (declared
without a value in the source and written before they are read), and the ghost log. -/
structure Run where
  state : OptimumState
  result : OptimumResult := {}
  impl : Impl := {}
  alphax : ℚ := 0
  alphaz : ℚ := 0
  alpha : ℚ := 0
  errorf : ℚ := 0
  errorh : ℚ := 0
  errorc : ℚ := 0
  error : ℚ := 0
  calls : List Call := []
  deriving DecidableEq, Repr

/-! ## The closures of `solve` -/

namespace OptimumSolverIpnewton

/-- Lines 72-75 of `solve`: a vector of `x`, `y`, `z` whose size is not the one the problem
declares is replaced by zeros of that size. -/
def ensure_dimensions (problem : OptimumProblem) (state : OptimumState) : OptimumState :=
  let n := problem.numVariables
  let m := problem.numConstraints
  { state with
    x := if state.x.length ≠ n then zeros n else state.x,
    y := if state.y.length ≠ m then zeros m else state.y,
    z := if state.z.length ≠ n then zeros n else state.z }

/-- Lines 77-81 of `solve`: `x` is raised to the floor `mux*mu`, then the coefficients of `z`
that are not positive are reset to `mu/x`, with the `x` just raised. -/
def ensure_feasible (problem : OptimumProblem) (options : OptimumOptions)
    (state : OptimumState) : OptimumState :=
  let n := problem.numVariables
  let mu := options.ipnewton.mu
  let mux := options.ipnewton.mux
  let x := vmax state.x (smul (mux * mu) (ones n))
  let z := selectPositive state.z state.z (sdiv mu x)
  { state with x := x, z := z }

/-- The initialization step of `solve` (lines 72-81): sizes, then feasibility. -/
def ensure_initial_guess (problem : OptimumProblem) (options : OptimumOptions)
    (state : OptimumState) : OptimumState :=
  ensure_feasible problem options (ensure_dimensions problem state)

/-- The closure `output_header`. -/
def output_header (problem : OptimumProblem) (options : OptimumOptions) (r : Run) : Run :=
  if ¬ options.output.active then r
  else
    let n := problem.numVariables
    let m := problem.numConstraints
    { r with impl := { r.impl with outputter := r.impl.outputter ++
        [ OutputCall.setOptions options.output,
          OutputCall.addEntry "iter",
          OutputCall.addEntries "x" n,
          OutputCall.addEntries "y" m,
          OutputCall.addEntries "z" n,
          OutputCall.addEntry "f(x)",
          OutputCall.addEntry "h(x)",
          OutputCall.addEntry "errorf",
          OutputCall.addEntry "errorh",
          OutputCall.addEntry "errorc",
          OutputCall.addEntry "error",
          OutputCall.addEntry "alpha",
          OutputCall.addEntry "alphax",
          OutputCall.addEntry "alphaz",
          OutputCall.outputHeader,
          OutputCall.addCount r.result.iterations,
          OutputCall.addValues r.state.x,
          OutputCall.addValues r.state.y,
          OutputCall.addValues r.state.z,
          OutputCall.addValue r.state.f,
          OutputCall.addValue (norminf r.state.h),
          OutputCall.addText "---",
          OutputCall.addText "---",
          OutputCall.addText "---",
          OutputCall.addText "---",
          OutputCall.addText "---",
          OutputCall.addText "---",
          OutputCall.addText "---",
          OutputCall.outputState ] } }

/-- The closure `output_state`. -/
def output_state (options : OptimumOptions) (r : Run) : Run :=
  if ¬ options.output.active then r
  else
    { r with impl := { r.impl with outputter := r.impl.outputter ++
        [ OutputCall.addCount r.result.iterations,
          OutputCall.addValues r.state.x,
          OutputCall.addValues r.state.y,
          OutputCall.addValues r.state.z,
          OutputCall.addValue r.state.f,
          OutputCall.addValue (norminf r.state.h),
          OutputCall.addValue r.errorf,
          OutputCall.addValue r.errorh,
          OutputCall.addValue r.errorc,
          OutputCall.addValue r.error,
          OutputCall.addValue r.alpha,
          OutputCall.addValue r.alphax,
          OutputCall.addValue r.alphaz,
          OutputCall.outputState ] } }

/-- The closure `update_state`: `f`, `g`, `h`, `A` are evaluated at the current `x`. -/
def update_state (problem : OptimumProblem) (r : Run) : Run :=
  let x := r.state.x
  { r with
    state := { r.state with
      f := problem.objective x,
      g := problem.objectiveGrad x,
      h := problem.constraint x,
      A := problem.constraintGrad x },
    calls := r.calls ++
      [Call.objective x, Call.objectiveGrad x, Call.constraint x, Call.constraintGrad x] }

/-- The closure `compute_newton_step`.  `At` is the expression `A.transpose()`, a view of
`state.A`, so `At*y` is `trmul` of the current `A`. -/
def compute_newton_step (env : Env) (problem : OptimumProblem) (options : OptimumOptions)
    (r : Run) : Except Run Run :=
  let mu := options.ipnewton.mu
  let x := r.state.x
  let y := r.state.y
  let z := r.state.z
  let g := r.state.g
  let h := r.state.h
  let r1 : Run := { r with
    state := { r.state with H := problem.objectiveHessian x g },
    calls := r.calls ++ [Call.objectiveHessian x g] }
  let r2 : Run := { r1 with calls := r1.calls ++ [Call.kktDecompose r1.state] }
  match env.kkt.decompose r1.state with
  | none => Except.error r2
  | some time_decompose =>
    let a := vneg (vsub (vsub g (trmul r1.state.A y)) (sdiv mu x))
    let b := vneg h
    let r3 : Run := { r2 with
      impl := { r2.impl with a := a, b := b },
      calls := r2.calls ++ [Call.kktSolve a b] }
    match env.kkt.solve r1.state a b with
    | none => Except.error r3
    | some sol =>
      let dz := vsub (ediv (ssub mu (emul z sol.dx)) x) z
      Except.ok { r3 with
        impl := { r3.impl with dx := sol.dx, dy := sol.dy, dz := dz },
        result := { r3.result with
          time_linear_systems :=
            r3.result.time_linear_systems + sol.time_solve + time_decompose } }

/-- The closure `update_iterates`. -/
def update_iterates (env : Env) (options : OptimumOptions) (r : Run) : Run :=
  let tau := options.ipnewton.tau
  let alphax := env.fractionToTheBoundary r.state.x r.impl.dx tau
  let alphaz := env.fractionToTheBoundary r.state.z r.impl.dz tau
  let alpha := min alphax alphaz
  if options.ipnewton.uniform_newton_step then
    { r with
      alphax := alphax, alphaz := alphaz, alpha := alpha,
      state := { r.state with
        x := vadd r.state.x (smul alpha r.impl.dx),
        y := vadd r.state.y (smul alpha r.impl.dy),
        z := vadd r.state.z (smul alpha r.impl.dz) } }
  else
    { r with
      alphax := alphax, alphaz := alphaz, alpha := alpha,
      state := { r.state with
        x := vadd r.state.x (smul alpha r.impl.dx),
        y := vadd r.state.y r.impl.dy,
        z := vadd r.state.z (smul alphaz r.impl.dz) } }

/-- The closure `update_errors`. -/
def update_errors (options : OptimumOptions) (r : Run) : Run :=
  let mu := options.ipnewton.mu
  let errorf := norminf (vsub (vsub r.state.g (trmul r.state.A r.state.y)) r.state.z)
  let errorh := norminf r.state.h
  let errorc := norminf (vsubs (emul r.state.x r.state.z) mu)
  let error := max errorf (max errorh errorc)
  { r with
    errorf := errorf, errorh := errorh, errorc := errorc, error := error,
    result := { r.result with error := error } }

/-- The body of the `do ... while` loop of `solve`: one pass. -/
def pass (env : Env) (problem : OptimumProblem) (options : OptimumOptions) (r : Run) :
    Except Run Run :=
  let r1 : Run := { r with result := { r.result with iterations := r.result.iterations + 1 } }
  match compute_newton_step env problem options r1 with
  | Except.error e => Except.error e
  | Except.ok r2 =>
    let r3 := update_iterates env options r2
    let r4 := update_state problem r3
    let r5 := update_errors options r4
    Except.ok (output_state options r5)

/-- The condition of the `do ... while` loop, tested after each pass. -/
def continues (options : OptimumOptions) (r : Run) : Prop :=
  r.error > options.tolerance ∧ r.result.iterations < options.max_iterations

instance (options : OptimumOptions) (r : Run) : Decidable (continues options r) := by
  unfold continues; infer_instance

set_option linter.unusedVariables false in
/-- The `do ... while` loop of `solve`, entered with the run `r`: a pass, then the test of the
condition.  It ends because each pass adds one to `result.iterations` and the condition asks
for `result.iterations < options.max_iterations`. -/
def iterate (env : Env) (problem : OptimumProblem) (options : OptimumOptions) (r : Run) :
    Except Run Run :=
  match hp : pass env problem options r with
  | Except.error e => Except.error e
  | Except.ok r1 =>
    if hc : continues options r1 then iterate env problem options r1 else Except.ok r1
termination_by options.max_iterations - r.result.iterations
decreasing_by
  have hit : r1.result.iterations = r.result.iterations + 1 := by
    simp only [pass, compute_newton_step] at hp
    split at hp
    · exact absurd hp (by simp)
    · rename_i r2 h2
      split at h2
      · exact absurd h2 (by simp)
      · split at h2
        · exact absurd h2 (by simp)
        · injection h2 with h2
          injection hp with hp
          subst hp; subst h2
          unfold output_state update_errors update_state update_iterates
          split <;> split <;> rfl
  have hlt := hc.2
  omega

/-- The run with which `solve` enters its loop: the initialization step, then `update_state`
and `output_header`, on a default-constructed result. -/
def start (impl : Impl) (problem : OptimumProblem) (state : OptimumState)
    (options : OptimumOptions) : Run :=
  let r0 : Run := { state := ensure_initial_guess problem options state, impl := impl }
  let r1 := update_state problem r0
  output_header problem options r1

/-- Lines 229-237 of `solve`, after the loop: the header is output once more, `succeeded` is
set when the cap was not reached, and the time of the call is stored. -/
def finish (env : Env) (options : OptimumOptions) (r : Run) : Run :=
  let r4 : Run := { r with
    impl := { r.impl with outputter := r.impl.outputter ++ [OutputCall.outputHeader] } }
  let r5 : Run :=
    if r4.result.iterations < options.max_iterations then
      { r4 with result := { r4.result with succeeded := true } }
    else r4
  { r5 with result := { r5.result with time := env.elapsed } }

/-- The function `OptimumSolverIpnewton::Impl::solve`.  `impl` holds the members of the solver
when the call starts; the outcome carries the state, the result and the members when the call
ends. -/
def solve (env : Env) (impl : Impl) (problem : OptimumProblem) (state : OptimumState)
    (options : OptimumOptions) : Except Run Run :=
  match iterate env problem options (start impl problem state options) with
  | Except.error e => Except.error e
  | Except.ok r => Except.ok (finish env options r)

/-- The runs at the end of the passes that the loop entered with `r0` executes. -/
inductive Visited (env : Env) (problem : OptimumProblem) (options : OptimumOptions)
    (r0 : Run) : Run → Prop where
  | first {r1 : Run} : pass env problem options r0 = Except.ok r1 →
      Visited env problem options r0 r1
  | next {r r1 : Run} : Visited env problem options r0 r → continues options r →
      pass env problem options r = Except.ok r1 → Visited env problem options r0 r1

/-- The run `e` was raised by the KKT solver: `decompose` failed on the state of `e`, or
`solve` failed on the right-hand sides `a`, `b` of `e`. -/
def KktFailure (env : Env) (e : Run) : Prop :=
  env.kkt.decompose e.state = none ∨ env.kkt.solve e.state e.impl.a e.impl.b = none

end OptimumSolverIpnewton

/-! ## The step-length rule and a sample problem -/

/-- Modelled from the spec: `fractionToTheBoundary(v, dv, tau)` of `Optimization/Utils.hpp`,
which is missing; the maximal `α ∈ (0,1]` such that `v + α·dv ≥ (1-τ)·v` componentwise.  A
coefficient with `dv < 0` bounds `α` by `-τ·v/dv`, the others do not bound it. -/
def fractionToTheBoundary (v dv : Vector) (tau : ℚ) : ℚ :=
  (List.zipWith (fun c dc => if dc < 0 then -tau * c / dc else 1) v dv).foldr min 1

/-- The contract of the step-length rule, in the words of the spec: on a componentwise positive
`v` and for `τ ∈ (0,1)`, the value is the maximal `α ∈ (0,1]` with `v + α·dv ≥ (1-τ)·v`
componentwise. -/
def IsFractionToTheBoundary (ftb : Vector → Vector → ℚ → ℚ) : Prop :=
  ∀ (v dv : Vector) (tau : ℚ), (∀ c ∈ v, 0 < c) → 0 < tau → tau < 1 →
    0 < ftb v dv tau ∧ ftb v dv tau ≤ 1 ∧
    (∀ p ∈ List.zip v dv, (1 - tau) * p.1 ≤ p.1 + ftb v dv tau * p.2) ∧
    (∀ β : ℚ, 0 < β → β ≤ 1 →
      (∀ p ∈ List.zip v dv, (1 - tau) * p.1 ≤ p.1 + β * p.2) → β ≤ ftb v dv tau)

/-- A KKT solver for a diagonal Hessian and one constraint: it solves
`(H + z/x) dx - Aᵀ dy = a`, `A dx = b` exactly, and fails when the system is singular. -/
def kktDiagonal : KktSolver where
  decompose := fun state =>
    let d := vadd state.H.diagonal (ediv state.z state.x)
    let s := dot (trmul state.A [1]) (ediv (trmul state.A [1]) d)
    if state.H.mode = HessianMode.Diagonal ∧ (∀ c ∈ d, c ≠ 0) ∧ s ≠ 0 then some 0 else none
  solve := fun state a b =>
    let d := vadd state.H.diagonal (ediv state.z state.x)
    let row := trmul state.A [1]
    let s := dot row (ediv row d)
    let dy := (b.headD 0 - dot row (ediv a d)) / s
    some { dx := ediv (vadd a (smul dy row)) d, dy := [dy], time_solve := 0 }

/-- The sample environment: the exact KKT solver above and the step-length rule of the spec. -/
def sampleEnv : Env where
  kkt := kktDiagonal
  fractionToTheBoundary := fractionToTheBoundary
  elapsed := 0

/-- The sample problem of the spec: minimise `x1² + x2²` subject to `x1 + x2 = 1`. -/
def sampleProblem : OptimumProblem where
  numVariables := 2
  numConstraints := 1
  objective := fun x => (emul x x).sum
  objectiveGrad := fun x => smul 2 x
  objectiveHessian := fun x _ =>
    { mode := HessianMode.Diagonal, diagonal := x.map (fun _ => 2) }
  constraint := fun x => [x.sum - 1]
  constraintGrad := fun x => x.map (fun _ => [1])

/-- A sample initial state: `x = (1, 1)`, and `y`, `z` left empty (cold start). -/
def sampleState : OptimumState := { x := [1, 1] }

/-- Sample options: the iteration cap `cap`, the tolerance `tol`, `mu = mux = 1`, `tau = 1/2`,
split step policy, no output. -/
def sampleOptions (cap : Nat) (tol : ℚ) : OptimumOptions :=
  { tolerance := tol, max_iterations := cap, ipnewton := { mu := 1, mux := 1, tau := 1 / 2 } }

/-- A sample run about to update its iterates: `x = z = (1, 1)`, with steps `dx = (-2, 1)` and
`dz = (1, -4)` that would leave the feasible domain if taken in full. -/
def sampleRun : Run :=
  { state := { x := [1, 1], z := [1, 1] }, impl := { dx := [-2, 1], dz := [1, -4] } }

/-- A sample run about to update its iterates, with `alphax = 1/4` and `alphaz = 1/2` for
`tau = 1/2`: `x = z = (1, 1)`, `y = (1)`, and steps `dx = (-2, 1)`, `dy = (2)`,
`dz = (1, -1)`. -/
def sampleStep : Run :=
  { state := { x := [1, 1], y := [1], z := [1, 1] },
    impl := { dx := [-2, 1], dy := [2], dz := [1, -1] } }

/-- The sample options with the uniform step policy. -/
def sampleOptionsUniform (cap : Nat) (tol : ℚ) : OptimumOptions :=
  { tolerance := tol, max_iterations := cap,
    ipnewton := { mu := 1, mux := 1, tau := 1 / 2, uniform_newton_step := true } }

/-- The sample options with the output active. -/
def sampleOptionsActive (cap : Nat) (tol : ℚ) : OptimumOptions :=
  { tolerance := tol, max_iterations := cap, ipnewton := { mu := 1, mux := 1, tau := 1 / 2 },
    output := { active := true } }

/-- The number of progress rows that the output sink has emitted: the number of
`outputState` calls in its log. -/
def progressRows (log : List OutputCall) : Nat := log.count OutputCall.outputState

/-! ## The result record -/

namespace OptimumResult

/-- The operator `OptimumResult::operator+=` (`Reaktoro/Optimization/OptimumResult.cpp`):
the value of `*this` after `*this += other`.  The counters `iterations` and
`num_objective_evals` are `unsigned`: their `+=` wraps at `2 ^ 32`.  The times are `double`,
added exactly. -/
def operatorAddAssign (self other : OptimumResult) : OptimumResult :=
  { succeeded := other.succeeded,
    iterations := (self.iterations + other.iterations) % 2 ^ 32,
    num_objective_evals := (self.num_objective_evals + other.num_objective_evals) % 2 ^ 32,
    convergence_rate := other.convergence_rate,
    error := other.error,
    time := self.time + other.time,
    time_objective_evals := self.time_objective_evals + other.time_objective_evals,
    time_constraint_evals := self.time_constraint_evals + other.time_constraint_evals,
    time_linear_systems := self.time_linear_systems + other.time_linear_systems }

/-- The statement `a += b` on two results `a` and `b`, as a map on the pair `(a, b)`: `a`
becomes `a.operatorAddAssign b`, and `b`, taken by reference to const, is only read. -/
def addAssignStatement (ab : OptimumResult × OptimumResult) : OptimumResult × OptimumResult :=
  (ab.1.operatorAddAssign ab.2, ab.2)

end OptimumResult

/-- A sample result: 3 iterations, 5 objective evaluations, a time of `1/2`. -/
def sampleResultA : OptimumResult :=
  { iterations := 3, num_objective_evals := 5, time := 1 / 2 }

/-- A sample result of a converged solve: 4 iterations, 6 objective evaluations, a time of
`1/4`. -/
def sampleResultB : OptimumResult :=
  { succeeded := true, iterations := 4, num_objective_evals := 6, time := 1 / 4 }

/-! ## The chemical state -/

/-- Modelled from the spec: what `ChemicalState` reads of `ChemicalSystem`, whose header is
missing: the numbers of species and of phases, the block of species of each phase and the
molar mass of each species. -/
structure ChemicalSystem where
  numSpecies : Nat := 0
  numPhases : Nat := 0
  numSpeciesInPhase : Nat → Nat := fun _ => 0
  indexFirstSpeciesInPhase : Nat → Nat := fun _ => 0
  molarMass : Nat → ℚ := fun _ => 1

/-- The data members of `ChemicalState::Impl`: the system, the temperature `T`, the pressure `P`
and the molar amounts `n` of the species. -/
structure ChemicalState where
  system : ChemicalSystem := {}
  T : ℚ := 29815 / 100
  P : ℚ := 100000
  n : Vector := []

/-- Modelled from the spec: the macro `Assert(condition, ...)` of `Common/Exception.hpp`,
which is missing; it raises when the condition is false.  The raise carries the state
reached, the return is the state itself. -/
def Assert {σ : Type} (condition : Prop) [Decidable condition] (state : σ) : Except σ σ :=
  if condition then Except.ok state else Except.error state

namespace ChemicalState

/-- The constructor `ChemicalState::Impl::Impl(const ChemicalSystem&)`. -/
def ofSystem (system : ChemicalSystem) : ChemicalState :=
  { system := system, n := zeros system.numSpecies }

/-- The method `ChemicalState::Impl::setTemperature(double)`. -/
def setTemperature (s : ChemicalState) (val : ℚ) : Except ChemicalState ChemicalState :=
  match Assert (val > 0) s with
  | Except.error e => Except.error e
  | Except.ok s1 => Except.ok { s1 with T := val }

/-- The method `ChemicalState::Impl::setPressure(double)`. -/
def setPressure (s : ChemicalState) (val : ℚ) : Except ChemicalState ChemicalState :=
  match Assert (val > 0) s with
  | Except.error e => Except.error e
  | Except.ok s1 => Except.ok { s1 with P := val }

/-- The method `ChemicalState::Impl::setSpeciesAmount(Index, double)`. -/
def setSpeciesAmount (s : ChemicalState) (index : Nat) (amount : ℚ) :
    Except ChemicalState ChemicalState :=
  match Assert (amount ≥ 0) s with
  | Except.error e => Except.error e
  | Except.ok s1 =>
    match Assert (index < s1.system.numSpecies) s1 with
    | Except.error e => Except.error e
    | Except.ok s2 => Except.ok { s2 with n := s2.n.set index amount }

end ChemicalState

/-- A sample chemical state: three species with amounts `(1, 2, 3)`. -/
def sampleChemicalState : ChemicalState :=
  { system := { numSpecies := 3, numPhases := 1 }, n := [1, 2, 3] }

/-! ## Ghost quantities of a run -/

/-- The callee of a logged call. -/
inductive CallKind where
  | objective
  | objectiveGrad
  | constraint
  | constraintGrad
  | objectiveHessian
  | kktDecompose
  | kktSolve
  deriving DecidableEq, Repr

/-- The callee of a logged call. -/
def Call.kind : Call → CallKind
  | Call.objective _ => CallKind.objective
  | Call.objectiveGrad _ => CallKind.objectiveGrad
  | Call.constraint _ => CallKind.constraint
  | Call.constraintGrad _ => CallKind.constraintGrad
  | Call.objectiveHessian _ _ => CallKind.objectiveHessian
  | Call.kktDecompose _ => CallKind.kktDecompose
  | Call.kktSolve _ _ => CallKind.kktSolve

/-- The number of calls of one callee in a log. -/
def callCount (k : CallKind) (calls : List Call) : Nat :=
  calls.countP (fun c => decide (c.kind = k))

/-- One step of the sum of the times that the KKT solver reports for the calls of a log: a
`decompose` adds its `time_decompose` and is remembered, a `solve` adds the `time_solve` of
the solve against the remembered decomposition. -/
def kktTimeStep (env : Env) (acc : Option OptimumState × ℚ) (c : Call) :
    Option OptimumState × ℚ :=
  match c with
  | Call.kktDecompose S => (some S, acc.2 + (env.kkt.decompose S).getD 0)
  | Call.kktSolve a b =>
    match acc.1 with
    | some S => (acc.1, acc.2 + ((env.kkt.solve S a b).map (fun sol => sol.time_solve)).getD 0)
    | none => acc
  | _ => acc

/-- The sum, over the KKT calls of a log, of the times that the KKT solver reports for them. -/
def kktTime (env : Env) (calls : List Call) : ℚ :=
  (calls.foldl (kktTimeStep env) (none, 0)).2

/-- A run without the log of its output sink. -/
def stripOutput (r : Run) : Run :=
  { r with impl := { r.impl with outputter := [] } }

/-- An outcome without the log of the output sink. -/
def stripOutcome : Except Run Run → Except Run Run
  | Except.ok r => Except.ok (stripOutput r)
  | Except.error e => Except.error (stripOutput e)

/-- The sample problem with a zero Jacobian: its KKT system is singular. -/
def singularProblem : OptimumProblem :=
  { sampleProblem with constraintGrad := fun x => x.map (fun _ => [0]) }

/-- The sample environment with a KKT solver that reports a time of `3` for each `decompose`
and of `2` for each `solve`. -/
def timedEnv : Env where
  kkt :=
    { decompose := fun S => (kktDiagonal.decompose S).map (fun _ => 3)
      solve := fun S a b =>
        (kktDiagonal.solve S a b).map (fun sol => { sol with time_solve := 2 }) }
  fractionToTheBoundary := fractionToTheBoundary
  elapsed := 7

/-- The options of the end-to-end scenario of the spec: the tolerance `tol`, and the defaults
for the rest (`mu = mux = 1e-5`, `tau = 0.99`, split policy, 100 iterations, no output). -/
def scenarioOptions (tol : ℚ) : OptimumOptions := { tolerance := tol }

/-- A run without the contents of the scratch vectors `dx`, `dy`, `dz`, `a`, `b` of the
solver. -/
def stripScratch (r : Run) : Run :=
  { r with impl := { r.impl with dx := [], dy := [], dz := [], a := [], b := [] } }

/-- A problem whose Hessian depends on `x`: minimise `x1³/3 + x2³/3` subject to
`x1 + x2 = 1`. -/
def cubicProblem : OptimumProblem where
  numVariables := 2
  numConstraints := 1
  objective := fun x => (x.map (fun c => c * c * c / 3)).sum
  objectiveGrad := fun x => x.map (fun c => c * c)
  objectiveHessian := fun x _ =>
    { mode := HessianMode.Diagonal, diagonal := x.map (fun c => 2 * c) }
  constraint := fun x => [x.sum - 1]
  constraintGrad := fun x => x.map (fun _ => [1])

/-! ## More setters of the chemical state -/

namespace ChemicalState

/-- The method `ChemicalState::Impl::setSpeciesAmounts(double)`: every amount becomes `val`. -/
def setSpeciesAmountsValue (s : ChemicalState) (val : ℚ) : Except ChemicalState ChemicalState :=
  match Assert (val ≥ 0) s with
  | Except.error e => Except.error e
  | Except.ok s1 => Except.ok { s1 with n := s1.n.map (fun _ => val) }

/-- The method `ChemicalState::Impl::setSpeciesAmounts(const Vector&)`. -/
def setSpeciesAmounts (s : ChemicalState) (values : Vector) :
    Except ChemicalState ChemicalState :=
  match Assert (values.length = s.system.numSpecies) s with
  | Except.error e => Except.error e
  | Except.ok s1 => Except.ok { s1 with n := values }

/-- The assignment `rows(n, indices) = values`: the entry of `n` at the `k`-th index becomes
the `k`-th value. -/
def assignRows (n : Vector) (indices : List Nat) (values : Vector) : Vector :=
  (List.zip indices values).foldl (fun acc iv => acc.set iv.1 iv.2) n

/-- The method `ChemicalState::Impl::setSpeciesAmounts(const Vector&, const Indices&)`. -/
def setSpeciesAmountsAt (s : ChemicalState) (values : Vector) (indices : List Nat) :
    Except ChemicalState ChemicalState :=
  match Assert (values.length = indices.length) s with
  | Except.error e => Except.error e
  | Except.ok s1 => Except.ok { s1 with n := assignRows s1.n indices values }

end ChemicalState

/-! ## The interface to a chemical package -/

/-- Modelled from the spec: the pure virtual methods of `Interface` that the index methods
of `Interface.cpp` call (the header is missing): the numbers of elements, species and
phases, their names, and the number of species in each phase. -/
structure Interface where
  numElements : Nat
  numSpecies : Nat
  numPhases : Nat
  elementName : Nat → String
  speciesName : Nat → String
  phaseName : Nat → String
  numSpeciesInPhase : Nat → Nat

namespace Interface

/-- The loop `for(i = 0; i < size; ++i) if(name(i) == query) return i; return size;`, entered
at index `i` with `remaining = size - i` passes left. -/
def indexOfName (name : Nat → String) (query : String) (size : Nat) : Nat → Nat → Nat
  | 0, _ => size
  | remaining + 1, i =>
    if name i = query then i else indexOfName name query size remaining (i + 1)

/-- The method `Interface::indexElement`. -/
def indexElement (I : Interface) (element : String) : Nat :=
  indexOfName I.elementName element I.numElements I.numElements 0

/-- The method `Interface::indexSpecies`. -/
def indexSpecies (I : Interface) (species : String) : Nat :=
  indexOfName I.speciesName species I.numSpecies I.numSpecies 0

/-- The method `Interface::indexPhase`. -/
def indexPhase (I : Interface) (phase : String) : Nat :=
  indexOfName I.phaseName phase I.numPhases I.numPhases 0

/-- The loop of `Interface::indexPhaseWithSpecies`, entered at phase `i` with
`remaining = size - i` passes left and the species counted so far in `counter`.  The
counter is an `unsigned`: `counter += numSpeciesInPhase(i)` wraps at `2 ^ 32`. -/
def indexPhaseWithSpeciesLoop (I : Interface) (ispecies : Nat) : Nat → Nat → Nat → Nat
  | 0, _, _ => I.numPhases
  | remaining + 1, i, counter =>
    if (counter + I.numSpeciesInPhase i) % 2 ^ 32 > ispecies then i
    else indexPhaseWithSpeciesLoop I ispecies remaining (i + 1)
      ((counter + I.numSpeciesInPhase i) % 2 ^ 32)

/-- The method `Interface::indexPhaseWithSpecies`. -/
def indexPhaseWithSpecies (I : Interface) (ispecies : Nat) : Except Interface Nat :=
  match Assert (ispecies < I.numSpecies) I with
  | Except.error e => Except.error e
  | Except.ok _ => Except.ok (indexPhaseWithSpeciesLoop I ispecies I.numPhases 0 0)

/-- The method `Interface::indexFirstSpeciesInPhase`.  Its counter is an `Index`, which
the sum of fewer than `2 ^ 32` values of type `unsigned` does not wrap. -/
def indexFirstSpeciesInPhase (I : Interface) (iphase : Nat) : Except Interface Nat :=
  match Assert (iphase < I.numPhases) I with
  | Except.error e => Except.error e
  | Except.ok _ =>
    Except.ok ((List.range iphase).foldl (fun counter i => counter + I.numSpeciesInPhase i) 0)

/-- The number of species in the phases before phase `i`. -/
def speciesBefore (I : Interface) (i : Nat) : Nat :=
  (List.range i).foldl (fun counter j => counter + I.numSpeciesInPhase j) 0

end Interface

/-- A sample interface: three phases with 2, 0 and 3 species, two elements. -/
def sampleInterface : Interface where
  numElements := 2
  numSpecies := 5
  numPhases := 3
  elementName := fun i => if i = 0 then "H" else "O"
  speciesName := fun i => if i = 0 then "H2O" else if i = 1 then "H+" else "O2"
  phaseName := fun i => if i = 0 then "Aqueous" else if i = 1 then "Empty" else "Gaseous"
  numSpeciesInPhase := fun i => if i = 0 then 2 else if i = 1 then 0 else 3

/-! ## Scalars with their temperature and pressure derivatives -/

/-- The class `ThermoScalar`: a value with its partial derivatives with respect to
temperature and pressure.  The `double` fields are taken in a field `K`. -/
structure ThermoScalar (K : Type) where
  val : K
  ddt : K
  ddp : K

namespace ThermoScalar

variable {K : Type} [Field K]

/-- The operator `operator*(const ThermoScalar&, const ThermoScalar&)`. -/
def mul (l r : ThermoScalar K) : ThermoScalar K :=
  { val := l.val * r.val,
    ddt := l.ddt * r.val + l.val * r.ddt,
    ddp := l.ddp * r.val + l.val * r.ddp }

/-- The operator `operator/(double, const ThermoScalar&)`. -/
def scalarDiv (scalar : K) (r : ThermoScalar K) : ThermoScalar K :=
  { val := scalar / r.val,
    ddt := -scalar / (r.val * r.val) * r.ddt,
    ddp := -scalar / (r.val * r.val) * r.ddp }

/-- The operator `operator/(const ThermoScalar&, const ThermoScalar&)`. -/
def div (l r : ThermoScalar K) : ThermoScalar K :=
  { val := l.val / r.val,
    ddt := (r.val * l.ddt - l.val * r.ddt) * (1 / (r.val * r.val)),
    ddp := (r.val * l.ddp - l.val * r.ddp) * (1 / (r.val * r.val)) }

/-- The function `pow(const ThermoScalar&, double)`; `stdPow` is `std::pow`. -/
def pow (stdPow : K → K → K) (a : ThermoScalar K) (power : K) : ThermoScalar K :=
  { val := stdPow a.val power,
    ddt := power * stdPow a.val power * a.ddt / a.val,
    ddp := power * stdPow a.val power * a.ddp / a.val }

/-- The function `exp(const ThermoScalar&)`; `stdExp` is `std::exp`. -/
def exp (stdExp : K → K) (a : ThermoScalar K) : ThermoScalar K :=
  { val := stdExp a.val,
    ddt := stdExp a.val * a.ddt,
    ddp := stdExp a.val * a.ddp }

/-- The function `log(const ThermoScalar&)`; `stdLog` is `std::log`. -/
def log (stdLog : K → K) (a : ThermoScalar K) : ThermoScalar K :=
  { val := stdLog a.val,
    ddt := 1 / a.val * a.ddt,
    ddp := 1 / a.val * a.ddp }

/-- The `k`-fold product `a * a * ... * a` under `operator*`, from the scalar one with zero
derivatives for `k = 0`. -/
def product (a : ThermoScalar K) : Nat → ThermoScalar K
  | 0 => { val := 1, ddt := 0, ddp := 0 }
  | 1 => a
  | k + 2 => mul (product a (k + 1)) a

end ThermoScalar

/-! ## The loop -/

namespace OptimumSolverIpnewton

/-- A pass that returns went through `compute_newton_step` and the four updates. -/
theorem pass_ok {env : Env} {problem : OptimumProblem} {options : OptimumOptions} {r r1 : Run}
    (h : pass env problem options r = Except.ok r1) :
    ∃ r2, compute_newton_step env problem options
        { r with result := { r.result with iterations := r.result.iterations + 1 } }
          = Except.ok r2 ∧
      r1 = output_state options (update_errors options (update_state problem
        (update_iterates env options r2))) := by
  simp only [pass] at h
  split at h
  · exact absurd h (by simp)
  · rename_i r2 h2
    exact ⟨r2, h2, by injection h with h; exact h.symm⟩

/-- A pass that raises was raised by `compute_newton_step`. -/
theorem pass_error {env : Env} {problem : OptimumProblem} {options : OptimumOptions} {r e : Run}
    (h : pass env problem options r = Except.error e) :
    compute_newton_step env problem options
        { r with result := { r.result with iterations := r.result.iterations + 1 } }
          = Except.error e := by
  simp only [pass] at h
  split at h
  · rename_i e2 h2
    injection h with h
    rw [h2, h]
  · exact absurd h (by simp)

/-- What a `compute_newton_step` that returns leaves untouched: the iterate, the cached
evaluations other than `H`, the counters and the flag of the result, the sink. -/
theorem compute_newton_step_ok {env : Env} {problem : OptimumProblem} {options : OptimumOptions}
    {r r2 : Run} (h : compute_newton_step env problem options r = Except.ok r2) :
    r2.state.x = r.state.x ∧ r2.state.y = r.state.y ∧ r2.state.z = r.state.z ∧
    r2.state.f = r.state.f ∧ r2.state.g = r.state.g ∧ r2.state.h = r.state.h ∧
    r2.state.A = r.state.A ∧ r2.result.iterations = r.result.iterations ∧
    r2.result.succeeded = r.result.succeeded ∧ r2.impl.outputter = r.impl.outputter := by
  simp only [compute_newton_step] at h
  split at h
  · exact absurd h (by simp)
  · split at h
    · exact absurd h (by simp)
    · injection h with h
      subst h
      simp

/-- A `compute_newton_step` that raises does so on a failure of the KKT solver, with the
iterate and the counters untouched. -/
theorem compute_newton_step_error {env : Env} {problem : OptimumProblem}
    {options : OptimumOptions} {r e : Run}
    (h : compute_newton_step env problem options r = Except.error e) :
    KktFailure env e ∧ e.state.x = r.state.x ∧ e.state.y = r.state.y ∧ e.state.z = r.state.z ∧
    e.result = r.result := by
  simp only [compute_newton_step] at h
  split at h
  · rename_i hd
    injection h with h
    subst h
    exact ⟨Or.inl hd, rfl, rfl, rfl, rfl⟩
  · split at h
    · rename_i hs
      injection h with h
      subst h
      exact ⟨Or.inr hs, rfl, rfl, rfl, rfl⟩
    · exact absurd h (by simp)

/-- What `update_iterates` leaves untouched. -/
theorem update_iterates_keeps (env : Env) (options : OptimumOptions) (r : Run) :
    (update_iterates env options r).result = r.result ∧
    (update_iterates env options r).impl = r.impl ∧
    (update_iterates env options r).calls = r.calls ∧
    (update_iterates env options r).state.H = r.state.H := by
  unfold update_iterates
  split <;> simp

/-- After the three closures that end a pass, the cached evaluations are those of the
problem at `x`, the error is the largest of the three norms, and `x`, `y`, `z`, the counter
and the flag are those of the run they started from. -/
theorem pass_tail (problem : OptimumProblem) (options : OptimumOptions) (r : Run) :
    let r1 := output_state options (update_errors options (update_state problem r))
    r1.state.x = r.state.x ∧ r1.state.y = r.state.y ∧ r1.state.z = r.state.z ∧
    r1.state.f = problem.objective r.state.x ∧
    r1.state.g = problem.objectiveGrad r.state.x ∧
    r1.state.h = problem.constraint r.state.x ∧
    r1.state.A = problem.constraintGrad r.state.x ∧
    r1.error = max (norminf (vsub (vsub (problem.objectiveGrad r.state.x)
        (trmul (problem.constraintGrad r.state.x) r.state.y)) r.state.z))
      (max (norminf (problem.constraint r.state.x))
        (norminf (vsubs (emul r.state.x r.state.z) options.ipnewton.mu))) ∧
    r1.result.error = r1.error ∧
    r1.result.iterations = r.result.iterations ∧
    r1.result.succeeded = r.result.succeeded := by
  unfold output_state update_errors update_state
  split <;> simp

/-- Each pass that returns adds one to `result.iterations` and keeps `result.succeeded`. -/
theorem pass_counts {env : Env} {problem : OptimumProblem} {options : OptimumOptions}
    {r r1 : Run} (h : pass env problem options r = Except.ok r1) :
    r1.result.iterations = r.result.iterations + 1 ∧
    r1.result.succeeded = r.result.succeeded := by
  obtain ⟨r2, h2, rfl⟩ := pass_ok h
  have hk := compute_newton_step_ok h2
  have ht := pass_tail problem options (update_iterates env options r2)
  have hu := update_iterates_keeps env options r2
  simp only [] at ht
  refine ⟨?_, ?_⟩
  · rw [ht.2.2.2.2.2.2.2.2.2.1, hu.1, hk.2.2.2.2.2.2.2.1]
  · rw [ht.2.2.2.2.2.2.2.2.2.2, hu.1, hk.2.2.2.2.2.2.2.2.1]

/-- A pass that raises was raised by the KKT solver, inside an iteration that was counted,
and leaves `x`, `y`, `z` as they were. -/
theorem pass_raises {env : Env} {problem : OptimumProblem} {options : OptimumOptions}
    {r e : Run} (h : pass env problem options r = Except.error e) :
    KktFailure env e ∧ e.result.iterations = r.result.iterations + 1 ∧
    e.state.x = r.state.x ∧ e.state.y = r.state.y ∧ e.state.z = r.state.z := by
  obtain ⟨hk, hx, hy, hz, hr⟩ := compute_newton_step_error (pass_error h)
  exact ⟨hk, by rw [hr], hx, hy, hz⟩

/-- The loop, unfolded once. -/
theorem iterate_eq (env : Env) (problem : OptimumProblem) (options : OptimumOptions) (r : Run) :
    iterate env problem options r =
      match pass env problem options r with
      | Except.error e => Except.error e
      | Except.ok r1 =>
        if continues options r1 then iterate env problem options r1 else Except.ok r1 := by
  conv_lhs => unfold iterate
  split <;> rename_i hp <;> simp [hp]

/-- The passes of the loop entered after a first pass are passes of the loop entered before
that pass. -/
theorem Visited.after_pass {env : Env} {problem : OptimumProblem} {options : OptimumOptions}
    {r r1 r2 : Run} (hp : pass env problem options r = Except.ok r1)
    (hc : continues options r1) (hv : Visited env problem options r1 r2) :
    Visited env problem options r r2 := by
  induction hv with
  | first h1 => exact Visited.next (Visited.first hp) hc h1
  | next _ hc2 h2 ih => exact Visited.next ih hc2 h2

/-- A loop that returns, returns the run of a pass it executed, on which the condition of
the loop is false. -/
theorem iterate_returns {env : Env} {problem : OptimumProblem} {options : OptimumOptions} :
    ∀ (k : Nat) (r r1 : Run), options.max_iterations - r.result.iterations = k →
      iterate env problem options r = Except.ok r1 →
      Visited env problem options r r1 ∧ ¬ continues options r1 := by
  intro k
  induction k using Nat.strong_induction_on with
  | _ k ih =>
    intro r r1 hk h
    rw [iterate_eq] at h
    split at h
    · exact absurd h (by simp)
    · rename_i r2 hp
      by_cases hc : continues options r2
      · rw [if_pos hc] at h
        have hit := (pass_counts hp).1
        have hlt := hc.2
        obtain ⟨hv, hn⟩ := ih (options.max_iterations - r2.result.iterations) (by omega)
          r2 r1 rfl h
        exact ⟨Visited.after_pass hp hc hv, hn⟩
      · rw [if_neg hc] at h
        injection h with h
        subst h
        exact ⟨Visited.first hp, hc⟩

/-- A loop that raises, raises what a pass it executed raised: its first pass, or the pass
that follows a run on which the condition of the loop is true. -/
theorem iterate_raises {env : Env} {problem : OptimumProblem} {options : OptimumOptions} :
    ∀ (k : Nat) (r e : Run), options.max_iterations - r.result.iterations = k →
      iterate env problem options r = Except.error e →
      pass env problem options r = Except.error e ∨
      ∃ r1, Visited env problem options r r1 ∧ continues options r1 ∧
        pass env problem options r1 = Except.error e := by
  intro k
  induction k using Nat.strong_induction_on with
  | _ k ih =>
    intro r e hk h
    rw [iterate_eq] at h
    split at h
    · rename_i e2 hp
      injection h with h
      subst h
      exact Or.inl hp
    · rename_i r2 hp
      by_cases hc : continues options r2
      · rw [if_pos hc] at h
        have hit := (pass_counts hp).1
        have hlt := hc.2
        rcases ih (options.max_iterations - r2.result.iterations) (by omega) r2 e rfl h with
          h1 | ⟨r3, hv, hc3, h3⟩
        · exact Or.inr ⟨r2, Visited.first hp, hc, h1⟩
        · exact Or.inr ⟨r3, Visited.after_pass hp hc hv, hc3, h3⟩
      · rw [if_neg hc] at h
        exact absurd h (by simp)

/-- The counter of a visited run: above the counter the loop was entered with, and within
the cap unless it is the run of the first pass.  The flag of the result is not touched. -/
theorem Visited.counts {env : Env} {problem : OptimumProblem} {options : OptimumOptions}
    {r0 r : Run} (hv : Visited env problem options r0 r) :
    r0.result.iterations + 1 ≤ r.result.iterations ∧
    r.result.iterations ≤ max (r0.result.iterations + 1) options.max_iterations ∧
    r.result.succeeded = r0.result.succeeded := by
  induction hv with
  | first h1 =>
    obtain ⟨hi, hs⟩ := pass_counts h1
    exact ⟨by omega, by rw [hi]; exact le_max_left _ _, hs⟩
  | next _ hc h2 ih =>
    obtain ⟨hi, hs⟩ := pass_counts h2
    have hlt := hc.2
    refine ⟨by omega, ?_, by rw [hs]; exact ih.2.2⟩
    rw [hi]
    exact le_trans (by omega) (le_max_right _ _)

/-- A visited run is the run of a pass. -/
theorem Visited.is_pass {env : Env} {problem : OptimumProblem} {options : OptimumOptions}
    {r0 r : Run} (hv : Visited env problem options r0 r) :
    ∃ rp, pass env problem options rp = Except.ok r := by
  cases hv with
  | first h1 => exact ⟨_, h1⟩
  | next _ _ h2 => exact ⟨_, h2⟩

/-- The loop is entered with a counter at zero and a flag at false. -/
theorem start_counts (impl : Impl) (problem : OptimumProblem) (state : OptimumState)
    (options : OptimumOptions) :
    (start impl problem state options).result.iterations = 0 ∧
    (start impl problem state options).result.succeeded = false ∧
    (start impl problem state options).state.x = (ensure_initial_guess problem options state).x ∧
    (start impl problem state options).state.y = (ensure_initial_guess problem options state).y ∧
    (start impl problem state options).state.z = (ensure_initial_guess problem options state).z := by
  unfold start output_header update_state
  split <;> simp

/-- The outcome of `solve`: it returns `finish` of the run on which the loop stopped, a
visited run on which the condition of the loop is false, or it raises what a pass raised. -/
theorem solve_outcome (env : Env) (impl : Impl) (problem : OptimumProblem)
    (state : OptimumState) (options : OptimumOptions) :
    (∃ r, solve env impl problem state options = Except.ok (finish env options r) ∧
      Visited env problem options (start impl problem state options) r ∧
      ¬ continues options r) ∨
    (∃ e rp, solve env impl problem state options = Except.error e ∧
      pass env problem options rp = Except.error e ∧
      (rp = start impl problem state options ∨
        Visited env problem options (start impl problem state options) rp)) := by
  unfold solve
  cases h : iterate env problem options (start impl problem state options) with
  | error e =>
    right
    rcases iterate_raises _ _ e rfl h with h1 | ⟨r1, hv, _, h1⟩
    · exact ⟨e, _, rfl, h1, Or.inl rfl⟩
    · exact ⟨e, r1, rfl, h1, Or.inr hv⟩
  | ok r =>
    left
    obtain ⟨hv, hn⟩ := iterate_returns _ _ r rfl h
    exact ⟨r, rfl, hv, hn⟩

/-- What `finish` does to the result and to the state. -/
theorem finish_result (env : Env) (options : OptimumOptions) (r : Run) :
    (finish env options r).state = r.state ∧
    (finish env options r).result.iterations = r.result.iterations ∧
    (finish env options r).result.error = r.result.error ∧
    (finish env options r).result.succeeded =
      (decide (r.result.iterations < options.max_iterations) || r.result.succeeded) := by
  unfold finish
  by_cases h : r.result.iterations < options.max_iterations <;> simp [h]

/-- A raise of `solve` comes from the KKT solver, inside an iteration that was counted. -/
theorem solve_raises {env : Env} {impl : Impl} {problem : OptimumProblem}
    {state : OptimumState} {options : OptimumOptions} {e : Run}
    (h : solve env impl problem state options = Except.error e) :
    KktFailure env e ∧ 1 ≤ e.result.iterations := by
  rcases solve_outcome env impl problem state options with ⟨r, hr, _, _⟩ | ⟨e2, rp, he, hp, _⟩
  · rw [hr] at h
    exact absurd h (by simp)
  · rw [he] at h
    injection h with h
    subst h
    obtain ⟨hk, hi, _⟩ := pass_raises hp
    exact ⟨hk, by omega⟩

/-- The absolute value of a coefficient is at most the infinity norm. -/
theorem abs_le_norminf {v : Vector} {c : ℚ} (h : c ∈ v) : |c| ≤ norminf v := by
  induction v with
  | nil => exact absurd h (List.not_mem_nil c)
  | cons a t ih =>
    unfold norminf
    rw [List.foldr_cons]
    rcases List.mem_cons.mp h with rfl | ht
    · exact le_max_left _ _
    · exact le_trans (ih ht) (le_max_right _ _)

/-! ## The result of `solve` -/

/-- C1: when `solve` returns with `result.succeeded = true`, `result.error` is at most
`options.tolerance`, and at the returned state every coefficient of `g - Aᵀy - z`, of `h`
and of `x%z - mu` is at most the tolerance in absolute value, with `g`, `h`, `A` the
gradient, the constraint residual and the Jacobian of the problem at the returned `x`. -/
theorem solve_succeeded_within_tolerance (env : Env) (impl : Impl) (problem : OptimumProblem)
    (state : OptimumState) (options : OptimumOptions) (r : Run)
    (h : solve env impl problem state options = Except.ok r)
    (hs : r.result.succeeded = true) :
    r.result.error ≤ options.tolerance ∧
    (∀ c ∈ vsub (vsub (problem.objectiveGrad r.state.x)
        (trmul (problem.constraintGrad r.state.x) r.state.y)) r.state.z,
      |c| ≤ options.tolerance) ∧
    (∀ c ∈ problem.constraint r.state.x, |c| ≤ options.tolerance) ∧
    (∀ c ∈ vsubs (emul r.state.x r.state.z) options.ipnewton.mu, |c| ≤ options.tolerance) := by
  rcases solve_outcome env impl problem state options with ⟨r3, hr, hv, hn⟩ | ⟨e, _, he, _, _⟩
  · rw [hr] at h
    injection h with h
    subst h
    obtain ⟨hst, hit, herr, hsu⟩ := finish_result env options r3
    have hc := hv.counts
    have h0 := start_counts impl problem state options
    rw [hsu, hc.2.2, h0.2.1, Bool.or_false, decide_eq_true_eq] at hs
    obtain ⟨rp, hp⟩ := hv.is_pass
    obtain ⟨r2, _, hr3⟩ := pass_ok hp
    have ht := pass_tail problem options (update_iterates env options r2)
    simp only [] at ht
    rw [← hr3] at ht
    obtain ⟨hx, hy, hz, _, _, _, _, herror, hre, _, _⟩ := ht
    have hle : r3.error ≤ options.tolerance := by
      by_contra hgt
      exact hn ⟨lt_of_not_ge hgt, hs⟩
    rw [herr, hst, hre]
    rw [herror, ← hx, ← hy, ← hz] at hle
    refine ⟨by rw [herror, ← hx, ← hy, ← hz]; exact hle, ?_, ?_, ?_⟩
    · intro c hc
      exact le_trans (abs_le_norminf hc) (le_trans (le_max_left _ _) hle)
    · intro c hc
      exact le_trans (abs_le_norminf hc)
        (le_trans (le_trans (le_max_left _ _) (le_max_right _ _)) hle)
    · intro c hc
      exact le_trans (abs_le_norminf hc)
        (le_trans (le_trans (le_max_right _ _) (le_max_right _ _)) hle)
  · rw [he] at h
    exact absurd h (by simp)

/-- C4: `solve` either returns normally, with `result.succeeded` true exactly when
`result.iterations < options.max_iterations`, or raises what the KKT solver raised; a run
in which the KKT solver does not fail returns, converged or not. -/
theorem solve_succeeded_iff (env : Env) (impl : Impl) (problem : OptimumProblem)
    (state : OptimumState) (options : OptimumOptions) :
    (∃ r, solve env impl problem state options = Except.ok r ∧
      (r.result.succeeded = true ↔ r.result.iterations < options.max_iterations)) ∨
    (∃ e, solve env impl problem state options = Except.error e ∧ KktFailure env e) := by
  rcases solve_outcome env impl problem state options with ⟨r3, hr, hv, _⟩ | ⟨e, _, he, _, _⟩
  · left
    refine ⟨_, hr, ?_⟩
    obtain ⟨_, hit, _, hsu⟩ := finish_result env options r3
    have h0 := start_counts impl problem state options
    rw [hsu, hit, hv.counts.2.2, h0.2.1, Bool.or_false, decide_eq_true_eq]
  · right
    exact ⟨e, he, (solve_raises he).1⟩

/-- C5: with `options.max_iterations = 1`, whatever the tolerance (so with tolerance 0 too),
`solve` returns `result.succeeded = false` and `result.iterations = 1`, unless the KKT
solver fails in that one pass and the failure is raised. -/
theorem solve_cap_one (env : Env) (impl : Impl) (problem : OptimumProblem)
    (state : OptimumState) (options : OptimumOptions)
    (hcap : options.max_iterations = 1) :
    (∃ r, solve env impl problem state options = Except.ok r ∧
      r.result.succeeded = false ∧ r.result.iterations = 1) ∨
    (∃ e, solve env impl problem state options = Except.error e ∧ KktFailure env e) := by
  rcases solve_outcome env impl problem state options with ⟨r3, hr, hv, _⟩ | ⟨e, _, he, _, _⟩
  · left
    refine ⟨_, hr, ?_⟩
    obtain ⟨_, hit, _, hsu⟩ := finish_result env options r3
    have h0 := start_counts impl problem state options
    obtain ⟨hlo, hhi, hsame⟩ := hv.counts
    rw [h0.1, hcap] at hhi
    rw [h0.1] at hlo
    have h1 : r3.result.iterations = 1 := le_antisymm (by simpa using hhi) (by simpa using hlo)
    refine ⟨?_, by rw [hit, h1]⟩
    rw [hsu, hsame, h0.2.1, h1, hcap]
    simp
  · right
    exact ⟨e, he, (solve_raises he).1⟩

/-- C7: the loop of `solve` ends; when no KKT solve fails, `solve` returns after at least one
pass and `1 ≤ result.iterations ≤ max(1, options.max_iterations)`: the returned run is
`finish` of the run of an executed pass, whatever the cap and the tolerance are. -/
theorem solve_iterations_bounds (env : Env) (impl : Impl) (problem : OptimumProblem)
    (state : OptimumState) (options : OptimumOptions) :
    (∃ r, solve env impl problem state options = Except.ok (finish env options r) ∧
      Visited env problem options (start impl problem state options) r ∧
      1 ≤ (finish env options r).result.iterations ∧
      (finish env options r).result.iterations ≤ max 1 options.max_iterations) ∨
    (∃ e, solve env impl problem state options = Except.error e ∧ KktFailure env e) := by
  rcases solve_outcome env impl problem state options with ⟨r3, hr, hv, _⟩ | ⟨e, _, he, _, _⟩
  · left
    obtain ⟨_, hit, _, _⟩ := finish_result env options r3
    have h0 := start_counts impl problem state options
    obtain ⟨hlo, hhi, _⟩ := hv.counts
    rw [h0.1] at hhi hlo
    exact ⟨r3, hr, hv, by rw [hit]; simpa using hlo, by rw [hit]; simpa using hhi⟩
  · right
    exact ⟨e, he, (solve_raises he).1⟩

/-- When the condition of the loop is false after the first pass, `solve` returns `finish`
of the run of that pass. -/
theorem solve_of_first_pass {env : Env} {impl : Impl} {problem : OptimumProblem}
    {state : OptimumState} {options : OptimumOptions} {r1 : Run}
    (hp : pass env problem options (start impl problem state options) = Except.ok r1)
    (hc : ¬ continues options r1) :
    solve env impl problem state options = Except.ok (finish env options r1) := by
  unfold solve
  rw [iterate_eq, hp]
  simp only [if_neg hc]

/-- The first pass on the sample problem, from `x = (1, 1)`: the iterate lands on
`x = (1/2, 1/2)`, `y = (-1/2)`, `z = (3/2, 3/2)`, with error `1/4`. -/
theorem sample_first_pass (cap : Nat) (tol : ℚ) :
    ∃ r1, pass sampleEnv sampleProblem (sampleOptions cap tol)
        (start {} sampleProblem sampleState (sampleOptions cap tol)) = Except.ok r1 ∧
      r1.state.x = [1 / 2, 1 / 2] ∧ r1.state.y = [-1 / 2] ∧ r1.state.z = [3 / 2, 3 / 2] ∧
      r1.error = 1 / 4 ∧ r1.result.iterations = 1 := by
  simp [pass, compute_newton_step, start, ensure_initial_guess, ensure_feasible,
    ensure_dimensions, update_state, output_header, sampleOptions, sampleState, sampleEnv,
    sampleProblem, kktDiagonal, zeros, ones, smul, vmax, selectPositive, sdiv, vadd, ediv,
    trmul, dot, emul, vneg, vsub, ssub, update_iterates, update_errors, output_state,
    fractionToTheBoundary, norminf, vsubs]
  norm_num [List.replicate]

/-! ## Step lengths and feasibility -/

/-- A shorter step keeps the bound that a longer step keeps. -/
theorem shorter_step_bound {c d tau α β : ℚ} (hc : 0 < c) (htau : 0 < tau) (hβ : 0 ≤ β)
    (hβα : β ≤ α) (h : (1 - tau) * c ≤ c + α * d) : (1 - tau) * c ≤ c + β * d := by
  rcases le_or_lt 0 d with hd | hd
  · nlinarith [mul_nonneg hβ hd, mul_pos htau hc]
  · nlinarith [mul_le_mul_of_nonpos_right hβα (le_of_lt hd)]

/-- The bound that one coefficient puts on the step length. -/
theorem coefficient_bound {c d tau : ℚ} (hc : 0 < c) (htau : 0 < tau) :
    0 < (if d < 0 then -tau * c / d else 1) ∧
    (∀ β : ℚ, 0 ≤ β → (β ≤ (if d < 0 then -tau * c / d else 1) →
      (1 - tau) * c ≤ c + β * d)) ∧
    (∀ β : ℚ, β ≤ 1 → (1 - tau) * c ≤ c + β * d →
      β ≤ (if d < 0 then -tau * c / d else 1)) := by
  by_cases hd : d < 0
  · simp only [if_pos hd]
    have hne : d ≠ 0 := ne_of_lt hd
    have hb : -tau * c / d * d = -tau * c := div_mul_cancel₀ _ hne
    refine ⟨?_, ?_, ?_⟩
    · exact div_pos_of_neg_of_neg (by nlinarith [mul_pos htau hc]) hd
    · intro β _ hβ
      have := mul_le_mul_of_nonpos_right hβ (le_of_lt hd)
      nlinarith
    · intro β _ hβ
      by_contra hlt
      have := mul_lt_mul_of_neg_right (lt_of_not_ge hlt) hd
      nlinarith
  · simp only [if_neg hd]
    refine ⟨one_pos, ?_, fun β hβ _ => hβ⟩
    intro β hβ _
    nlinarith [mul_nonneg hβ (le_of_not_lt hd), mul_pos htau hc]

/-- The step-length rule modelled from the spec meets the contract of the spec. -/
theorem fractionToTheBoundary_spec : IsFractionToTheBoundary fractionToTheBoundary := by
  intro v
  induction v with
  | nil =>
    intro dv tau _ _ _
    simp [fractionToTheBoundary]
  | cons c v ih =>
    intro dv tau hv htau0 htau1
    cases dv with
    | nil => simp [fractionToTheBoundary]
    | cons d dv =>
      have hc : 0 < c := hv c (List.mem_cons_self c v)
      have hv2 : ∀ a ∈ v, 0 < a := fun a ha => hv a (List.mem_cons_of_mem c ha)
      obtain ⟨ih0, ih1, ihb, ihm⟩ := ih dv tau hv2 htau0 htau1
      obtain ⟨hb0, hbb, hbm⟩ := @coefficient_bound c d tau hc htau0
      have hunf : fractionToTheBoundary (c :: v) (d :: dv) tau =
          min (if d < 0 then -tau * c / d else 1) (fractionToTheBoundary v dv tau) := by
        simp [fractionToTheBoundary]
      rw [hunf]
      have hpos : 0 < min (if d < 0 then -tau * c / d else 1)
          (fractionToTheBoundary v dv tau) := lt_min hb0 ih0
      refine ⟨hpos, le_trans (min_le_right _ _) ih1, ?_, ?_⟩
      · intro p hp
        rw [List.zip_cons_cons] at hp
        rcases List.mem_cons.mp hp with rfl | hp
        · exact hbb _ (le_of_lt hpos) (min_le_left _ _)
        · have hp1 : 0 < p.1 := hv2 p.1 (List.of_mem_zip hp).1
          exact shorter_step_bound hp1 htau0 (le_of_lt hpos) (min_le_right _ _) (ihb p hp)
      · intro β hβ0 hβ1 hβ
        refine le_min (hbm β hβ1 ?_) (ihm β hβ0 hβ1 ?_)
        · exact hβ (c, d) (by rw [List.zip_cons_cons]; exact List.mem_cons_self _ _)
        · intro p hp
          exact hβ p (by rw [List.zip_cons_cons]; exact List.mem_cons_of_mem _ hp)

/-- A coefficient of `v + α·dv` is `c + α·d` for a pair `(c, d)` of coefficients of `v` and
`dv` at the same place. -/
theorem mem_vadd_smul {v dv : Vector} {α a : ℚ} (h : a ∈ vadd v (smul α dv)) :
    ∃ p ∈ List.zip v dv, a = p.1 + α * p.2 := by
  induction v generalizing dv with
  | nil => simp [vadd] at h
  | cons c v ih =>
    cases dv with
    | nil => simp [vadd, smul] at h
    | cons d dv =>
      simp only [vadd, smul, List.map_cons, List.zipWith_cons_cons, List.mem_cons] at h
      rcases h with rfl | h
      · exact ⟨(c, d), by simp, rfl⟩
      · obtain ⟨p, hp, rfl⟩ := @ih dv h
        exact ⟨p, by rw [List.zip_cons_cons]; exact List.mem_cons_of_mem _ hp, rfl⟩

/-- A step of length `β ∈ (0, α]`, with `α` the step length of the rule, keeps `v` positive. -/
theorem step_positive {ftb : Vector → Vector → ℚ → ℚ} (hftb : IsFractionToTheBoundary ftb)
    {v dv : Vector} {tau β : ℚ} (hv : ∀ c ∈ v, 0 < c) (htau0 : 0 < tau) (htau1 : tau < 1)
    (hβ0 : 0 ≤ β) (hβ : β ≤ ftb v dv tau) : ∀ a ∈ vadd v (smul β dv), 0 < a := by
  intro a ha
  obtain ⟨p, hp, rfl⟩ := mem_vadd_smul ha
  have hp1 : 0 < p.1 := hv p.1 (List.of_mem_zip hp).1
  have hb := shorter_step_bound hp1 htau0 hβ0 hβ ((hftb v dv tau hv htau0 htau1).2.2.1 p hp)
  have : 0 < (1 - tau) * p.1 := mul_pos (by linarith) hp1
  linarith

/-- A step of length `β ∈ [0, α]`, with `α` the step length of the rule and `dv` of the size
of `v`, leaves every coefficient at least `(1-τ)` times what it was. -/
theorem step_bounded {ftb : Vector → Vector → ℚ → ℚ} (hftb : IsFractionToTheBoundary ftb)
    {v dv : Vector} {tau β : ℚ} (hv : ∀ c ∈ v, 0 < c) (htau0 : 0 < tau) (htau1 : tau < 1)
    (hβ0 : 0 ≤ β) (hβ : β ≤ ftb v dv tau) (hlen : dv.length = v.length) :
    List.Forall₂ (fun old new => (1 - tau) * old ≤ new) v (vadd v (smul β dv)) := by
  have hall := (hftb v dv tau hv htau0 htau1).2.2.1
  generalize ftb v dv tau = α at hβ hall
  induction v generalizing dv with
  | nil => simp [vadd]
  | cons c v ih =>
    cases dv with
    | nil => simp at hlen
    | cons d dv =>
      simp only [vadd, smul, List.map_cons, List.zipWith_cons_cons]
      refine List.Forall₂.cons ?_ ?_
      · exact shorter_step_bound (hv c (List.mem_cons_self c v)) htau0 hβ0 hβ
          (hall (c, d) (by simp))
      · exact ih (fun a ha => hv a (List.mem_cons_of_mem c ha)) (by simpa using hlen)
          (fun p hp => hall p (by rw [List.zip_cons_cons]; exact List.mem_cons_of_mem _ hp))

/-- The iterate update keeps `x` and `z` positive, under both step policies. -/
theorem update_iterates_positive {env : Env} (hftb : IsFractionToTheBoundary
    env.fractionToTheBoundary) {options : OptimumOptions} {r : Run}
    (htau0 : 0 < options.ipnewton.tau) (htau1 : options.ipnewton.tau < 1)
    (hx : ∀ c ∈ r.state.x, 0 < c) (hz : ∀ c ∈ r.state.z, 0 < c) :
    (∀ c ∈ (update_iterates env options r).state.x, 0 < c) ∧
    (∀ c ∈ (update_iterates env options r).state.z, 0 < c) := by
  have hax := (hftb r.state.x r.impl.dx _ hx htau0 htau1).1
  have haz := (hftb r.state.z r.impl.dz _ hz htau0 htau1).1
  have h0 : 0 ≤ min (env.fractionToTheBoundary r.state.x r.impl.dx options.ipnewton.tau)
      (env.fractionToTheBoundary r.state.z r.impl.dz options.ipnewton.tau) :=
    le_of_lt (lt_min hax haz)
  unfold update_iterates
  split
  · exact ⟨step_positive hftb hx htau0 htau1 h0 (min_le_left _ _),
      step_positive hftb hz htau0 htau1 h0 (min_le_right _ _)⟩
  · exact ⟨step_positive hftb hx htau0 htau1 h0 (min_le_left _ _),
      step_positive hftb hz htau0 htau1 (le_of_lt haz) (le_refl _)⟩

/-- A pass that returns keeps `x` and `z` positive. -/
theorem pass_positive {env : Env} (hftb : IsFractionToTheBoundary env.fractionToTheBoundary)
    {problem : OptimumProblem} {options : OptimumOptions} {r r1 : Run}
    (htau0 : 0 < options.ipnewton.tau) (htau1 : options.ipnewton.tau < 1)
    (hx : ∀ c ∈ r.state.x, 0 < c) (hz : ∀ c ∈ r.state.z, 0 < c)
    (hp : pass env problem options r = Except.ok r1) :
    (∀ c ∈ r1.state.x, 0 < c) ∧ (∀ c ∈ r1.state.z, 0 < c) := by
  obtain ⟨r2, h2, rfl⟩ := pass_ok hp
  obtain ⟨h2x, _, h2z, _⟩ := compute_newton_step_ok h2
  have ht := pass_tail problem options (update_iterates env options r2)
  simp only [] at ht
  rw [ht.1, ht.2.2.1]
  exact update_iterates_positive hftb htau0 htau1 (by rw [h2x]; exact hx) (by rw [h2z]; exact hz)

/-- The coefficients of `max(u, w)` are at least those of `w`. -/
theorem vmax_ge_right {u w : Vector} {a : ℚ} (h : a ∈ vmax u w) : ∃ b ∈ w, b ≤ a := by
  induction u generalizing w with
  | nil => simp [vmax] at h
  | cons c u ih =>
    cases w with
    | nil => simp [vmax] at h
    | cons d w =>
      simp only [vmax, List.zipWith_cons_cons, List.mem_cons] at h
      rcases h with rfl | h
      · exact ⟨d, List.mem_cons_self d w, le_max_right _ _⟩
      · obtain ⟨b, hb, hba⟩ := @ih w h
        exact ⟨b, List.mem_cons_of_mem d hb, hba⟩

/-- A coefficient of `(z > 0).select(z, w)` is a positive coefficient of `z` or a
coefficient of `w`. -/
theorem selectPositive_mem {z w : Vector} {a : ℚ} (h : a ∈ selectPositive z z w) :
    0 < a ∨ a ∈ w := by
  have key : ∀ (c u w : Vector), (∀ p ∈ List.zip c u, p.1 = p.2) →
      a ∈ selectPositive c u w → 0 < a ∨ a ∈ w := by
    intro c
    induction c with
    | nil => intro u w _ h; simp [selectPositive] at h
    | cons ci c ih =>
      intro u w hcu h
      cases u with
      | nil => simp [selectPositive] at h
      | cons ui u =>
        cases w with
        | nil => simp [selectPositive] at h
        | cons wi w =>
          simp only [selectPositive, List.zip_cons_cons, List.zipWith_cons_cons,
            List.mem_cons] at h
          rcases h with rfl | h
          · have hci : ci = ui := hcu (ci, ui) (by simp)
            by_cases hpos : ci > 0
            · left; simp only [if_pos hpos]; rw [← hci]; exact hpos
            · right; simp only [if_neg hpos]; exact List.mem_cons_self wi w
          · rcases ih u w (fun p hp => hcu p (by
              rw [List.zip_cons_cons]; exact List.mem_cons_of_mem _ hp)) h with h1 | h1
            · exact Or.inl h1
            · exact Or.inr (List.mem_cons_of_mem wi h1)
  refine key z z w ?_ h
  intro p hp
  have hz : ∀ (l : Vector), ∀ q ∈ List.zip l l, q.1 = q.2 := by
    intro l
    induction l with
    | nil => intro q hq; simp at hq
    | cons x l ihl =>
      intro q hq
      rw [List.zip_cons_cons] at hq
      rcases List.mem_cons.mp hq with rfl | hq
      · rfl
      · exact ihl q hq
  exact hz z p hp

/-- After the initialization step `x` and `z` are positive, for positive `mu` and `mux`. -/
theorem ensure_initial_guess_positive (problem : OptimumProblem) (options : OptimumOptions)
    (state : OptimumState) (hmu : 0 < options.ipnewton.mu) (hmux : 0 < options.ipnewton.mux) :
    (∀ c ∈ (ensure_initial_guess problem options state).x, 0 < c) ∧
    (∀ c ∈ (ensure_initial_guess problem options state).z, 0 < c) := by
  have hx : ∀ c ∈ (ensure_initial_guess problem options state).x, 0 < c := by
    intro c hc
    simp only [ensure_initial_guess, ensure_feasible] at hc
    obtain ⟨b, hb, hbc⟩ := vmax_ge_right hc
    simp only [smul, ones, List.map_replicate, mul_one] at hb
    rw [List.eq_of_mem_replicate hb] at hbc
    exact lt_of_lt_of_le (mul_pos hmux hmu) hbc
  refine ⟨hx, ?_⟩
  intro c hc
  simp only [ensure_initial_guess, ensure_feasible] at hc
  rcases selectPositive_mem hc with h | h
  · exact h
  · simp only [sdiv, List.mem_map] at h
    obtain ⟨a, ha, rfl⟩ := h
    exact div_pos hmu (hx a (by simpa only [ensure_initial_guess, ensure_feasible] using ha))

/-- C2: with `mu > 0`, `mux > 0`, `tau ∈ (0,1)` and a step-length rule that meets its contract,
every coefficient of `state.x` and of `state.z` is positive after the initialization step,
after every pass of the loop (so after the iterate update of every iteration), and in the
state that `solve` returns, whatever the step policy. -/
theorem feasibility_invariant (env : Env) (impl : Impl) (problem : OptimumProblem)
    (state : OptimumState) (options : OptimumOptions)
    (hmu : 0 < options.ipnewton.mu) (hmux : 0 < options.ipnewton.mux)
    (htau0 : 0 < options.ipnewton.tau) (htau1 : options.ipnewton.tau < 1)
    (hftb : IsFractionToTheBoundary env.fractionToTheBoundary) :
    ((∀ c ∈ (ensure_initial_guess problem options state).x, 0 < c) ∧
      (∀ c ∈ (ensure_initial_guess problem options state).z, 0 < c)) ∧
    (∀ r, Visited env problem options (start impl problem state options) r →
      (∀ c ∈ r.state.x, 0 < c) ∧ (∀ c ∈ r.state.z, 0 < c)) ∧
    (∀ r, solve env impl problem state options = Except.ok r →
      (∀ c ∈ r.state.x, 0 < c) ∧ (∀ c ∈ r.state.z, 0 < c)) := by
  have hinit := ensure_initial_guess_positive problem options state hmu hmux
  have h0 := start_counts impl problem state options
  have hvis : ∀ r, Visited env problem options (start impl problem state options) r →
      (∀ c ∈ r.state.x, 0 < c) ∧ (∀ c ∈ r.state.z, 0 < c) := by
    intro r hv
    induction hv with
    | first h1 =>
      exact pass_positive hftb htau0 htau1 (by rw [h0.2.2.1]; exact hinit.1)
        (by rw [h0.2.2.2.2]; exact hinit.2) h1
    | next _ _ h2 ih => exact pass_positive hftb htau0 htau1 ih.1 ih.2 h2
  refine ⟨hinit, hvis, ?_⟩
  intro r hr
  rcases solve_outcome env impl problem state options with ⟨r3, h3, hv, _⟩ | ⟨e, _, he, _, _⟩
  · rw [h3] at hr
    injection hr with hr
    subst hr
    rw [(finish_result env options r3).1]
    exact hvis r3 hv
  · rw [he] at hr
    exact absurd hr (by simp)

/-- C3: for positive `x` and `z`, `tau ∈ (0,1)`, steps `dx`, `dz` of the sizes of `x`, `z` and
a step-length rule that meets its contract, the iterate update gives
`x_new ≥ (1-τ)·x_old` and `z_new ≥ (1-τ)·z_old` componentwise under both step policies. -/
theorem update_iterates_boundary (env : Env) (options : OptimumOptions) (r : Run)
    (hftb : IsFractionToTheBoundary env.fractionToTheBoundary)
    (htau0 : 0 < options.ipnewton.tau) (htau1 : options.ipnewton.tau < 1)
    (hx : ∀ c ∈ r.state.x, 0 < c) (hz : ∀ c ∈ r.state.z, 0 < c)
    (hdx : r.impl.dx.length = r.state.x.length) (hdz : r.impl.dz.length = r.state.z.length) :
    List.Forall₂ (fun old new => (1 - options.ipnewton.tau) * old ≤ new)
      r.state.x (update_iterates env options r).state.x ∧
    List.Forall₂ (fun old new => (1 - options.ipnewton.tau) * old ≤ new)
      r.state.z (update_iterates env options r).state.z := by
  have hax := (hftb r.state.x r.impl.dx _ hx htau0 htau1).1
  have haz := (hftb r.state.z r.impl.dz _ hz htau0 htau1).1
  have h0 : 0 ≤ min (env.fractionToTheBoundary r.state.x r.impl.dx options.ipnewton.tau)
      (env.fractionToTheBoundary r.state.z r.impl.dz options.ipnewton.tau) :=
    le_of_lt (lt_min hax haz)
  unfold update_iterates
  split
  · exact ⟨step_bounded hftb hx htau0 htau1 h0 (min_le_left _ _) hdx,
      step_bounded hftb hz htau0 htau1 h0 (min_le_right _ _) hdz⟩
  · exact ⟨step_bounded hftb hx htau0 htau1 h0 (min_le_left _ _) hdx,
      step_bounded hftb hz htau0 htau1 (le_of_lt haz) (le_refl _) hdz⟩

/-! ## Termination on a large tolerance -/

/-- On the sample problem, when the tolerance is at least `1/4` or the cap is at most one,
the run of the first pass stops the loop and `solve` returns `finish` of it. -/
theorem sample_solve (cap : Nat) (tol : ℚ) (hstop : 1 / 4 ≤ tol ∨ cap ≤ 1) :
    ∃ r1, pass sampleEnv sampleProblem (sampleOptions cap tol)
        (start {} sampleProblem sampleState (sampleOptions cap tol)) = Except.ok r1 ∧
      r1.error = 1 / 4 ∧
      solve sampleEnv {} sampleProblem sampleState (sampleOptions cap tol) =
        Except.ok (finish sampleEnv (sampleOptions cap tol) r1) ∧
      r1.result.iterations = 1 ∧ r1.result.succeeded = false ∧ r1.state.x = [1 / 2, 1 / 2] := by
  obtain ⟨r1, hp, hx, _, _, herr, hit⟩ := sample_first_pass cap tol
  have hc : ¬ continues (sampleOptions cap tol) r1 := by
    rintro ⟨h1, h2⟩
    rw [herr] at h1
    rw [hit] at h2
    simp only [sampleOptions] at h1 h2
    rcases hstop with h | h
    · exact absurd h (not_le.mpr h1)
    · omega
  have hs := (pass_counts hp).2
  rw [(start_counts _ _ _ _).2.1] at hs
  exact ⟨r1, hp, herr, solve_of_first_pass hp hc, hit, hs, hx⟩

/-- C6, as stated, fails: on the sample problem with tolerance `1e6` and
`max_iterations = 1` the error after the first iterate update is `1/4`, within the
tolerance, and `solve` returns after one iteration, yet with `result.succeeded = false`. -/
theorem large_tolerance_cap_one_not_succeeded :
    ∃ r1 r, pass sampleEnv sampleProblem (sampleOptions 1 1000000)
        (start {} sampleProblem sampleState (sampleOptions 1 1000000)) = Except.ok r1 ∧
      r1.error = 1 / 4 ∧ r1.error ≤ (sampleOptions 1 1000000).tolerance ∧
      solve sampleEnv {} sampleProblem sampleState (sampleOptions 1 1000000) = Except.ok r ∧
      r.result.iterations = 1 ∧ r.result.succeeded = false := by
  obtain ⟨r1, hp, herr, hs, hit, hsu, _⟩ := sample_solve 1 1000000 (Or.inr (le_refl 1))
  obtain ⟨_, hfi, _, hfs⟩ := finish_result sampleEnv (sampleOptions 1 1000000) r1
  refine ⟨r1, _, hp, herr, ?_, hs, by rw [hfi, hit], ?_⟩
  · rw [herr]
    norm_num [sampleOptions]
  · rw [hfs, hit, hsu]
    simp [sampleOptions]

/-- C6, amended: when `options.max_iterations ≥ 2`, the first pass returns and the tolerance
is at least the error computed after the first iterate update, `solve` returns after exactly
one iteration with `result.succeeded = true`. -/
theorem solve_large_tolerance (env : Env) (impl : Impl) (problem : OptimumProblem)
    (state : OptimumState) (options : OptimumOptions) (r1 : Run)
    (hcap : 2 ≤ options.max_iterations)
    (hp : pass env problem options (start impl problem state options) = Except.ok r1)
    (htol : r1.error ≤ options.tolerance) :
    ∃ r, solve env impl problem state options = Except.ok r ∧
      r.result.iterations = 1 ∧ r.result.succeeded = true := by
  have hc : ¬ continues options r1 := fun h => absurd htol (not_le.mpr h.1)
  obtain ⟨hit, _⟩ := pass_counts hp
  rw [(start_counts impl problem state options).1] at hit
  obtain ⟨_, hfi, _, hfs⟩ := finish_result env options r1
  refine ⟨_, solve_of_first_pass hp hc, by rw [hfi, hit], ?_⟩
  rw [hfs, hit]
  have : (1 : Nat) < options.max_iterations := by omega
  simp [this]

/-! ## The initialization step -/

/-- The sizes after `ensure_dimensions` are those the problem declares. -/
theorem ensure_dimensions_length (problem : OptimumProblem) (state : OptimumState) :
    (ensure_dimensions problem state).x.length = problem.numVariables ∧
    (ensure_dimensions problem state).y.length = problem.numConstraints ∧
    (ensure_dimensions problem state).z.length = problem.numVariables := by
  simp only [ensure_dimensions]
  refine ⟨?_, ?_, ?_⟩
  · by_cases h : state.x.length = problem.numVariables <;> simp [h, zeros]
  · by_cases h : state.y.length = problem.numConstraints <;> simp [h, zeros]
  · by_cases h : state.z.length = problem.numVariables <;> simp [h, zeros]

/-- Correcting the sizes twice is correcting them once. -/
theorem ensure_dimensions_idem (problem : OptimumProblem) (state : OptimumState) :
    ensure_dimensions problem (ensure_dimensions problem state) =
      ensure_dimensions problem state := by
  simp only [ensure_dimensions]
  by_cases h1 : state.x.length = problem.numVariables <;>
  by_cases h2 : state.y.length = problem.numConstraints <;>
  by_cases h3 : state.z.length = problem.numVariables <;> simp [h1, h2, h3, zeros]

/-- The maximum with a constant vector of the same size, coefficient by coefficient. -/
theorem vmax_floor (u : Vector) (n : Nat) (f : ℚ) (h : u.length = n) :
    vmax u (smul f (ones n)) = u.map (fun c => max c f) := by
  induction u generalizing n with
  | nil => simp [vmax]
  | cons c u ih =>
    cases n with
    | zero => simp at h
    | succ n =>
      have hlen : u.length = n := by simpa using h
      have ih2 := ih n hlen
      simp only [vmax, smul, ones, List.map_replicate, mul_one] at ih2 ⊢
      simp only [List.replicate_succ, List.zipWith_cons_cons, List.map_cons, ih2]

/-- C8: at the start of `solve`, each of `x`, `y`, `z` whose size is not the declared one
(`n`, `m`, `n`) is replaced by the zero vector of that size, and a vector of the right size goes
unchanged to the feasibility clamps, which so receive vectors of sizes `n`, `m`, `n`; the
cached evaluations are not touched. -/
theorem ensure_dimensions_spec (problem : OptimumProblem) (options : OptimumOptions)
    (state : OptimumState) :
    (ensure_dimensions problem state).x =
      (if state.x.length = problem.numVariables then state.x
        else List.replicate problem.numVariables 0) ∧
    (ensure_dimensions problem state).y =
      (if state.y.length = problem.numConstraints then state.y
        else List.replicate problem.numConstraints 0) ∧
    (ensure_dimensions problem state).z =
      (if state.z.length = problem.numVariables then state.z
        else List.replicate problem.numVariables 0) ∧
    (ensure_dimensions problem state).f = state.f ∧
    (ensure_dimensions problem state).g = state.g ∧
    (ensure_dimensions problem state).H = state.H ∧
    (ensure_dimensions problem state).h = state.h ∧
    (ensure_dimensions problem state).A = state.A ∧
    ((ensure_dimensions problem state).x.length = problem.numVariables ∧
      (ensure_dimensions problem state).y.length = problem.numConstraints ∧
      (ensure_dimensions problem state).z.length = problem.numVariables) ∧
    ensure_initial_guess problem options state =
      ensure_feasible problem options (ensure_dimensions problem state) := by
  refine ⟨?_, ?_, ?_, rfl, rfl, rfl, rfl, rfl, ensure_dimensions_length problem state, rfl⟩
  · by_cases h : state.x.length = problem.numVariables <;> simp [ensure_dimensions, zeros, h]
  · by_cases h : state.y.length = problem.numConstraints <;> simp [ensure_dimensions, zeros, h]
  · by_cases h : state.z.length = problem.numVariables <;> simp [ensure_dimensions, zeros, h]

/-- C9, as stated, fails: on the sample problem, which declares two variables, a call with
an `x` of size three does not fail; the `x` is replaced by `(0, 0)`, and `solve` returns
normally after one iteration with an `x` of size two. -/
theorem mismatched_size_is_corrected :
    sampleProblem.numVariables = 2 ∧
    (ensure_dimensions sampleProblem { x := [1, 1, 3] }).x = [0, 0] ∧
    ∃ r, solve sampleEnv {} sampleProblem { x := [1, 1, 3] } (sampleOptions 2 1000000) =
        Except.ok r ∧
      r.result.iterations = 1 ∧ r.state.x = [1 / 2, 1 / 2] := by
  refine ⟨rfl, by simp [ensure_dimensions, sampleProblem, zeros, List.replicate], ?_⟩
  obtain ⟨r1, _, _, hs, hit, _, hx⟩ := sample_solve 2 1000000 (Or.inl (by norm_num))
  have hstart : start {} sampleProblem { x := [1, 1, 3] } (sampleOptions 2 1000000) =
      start {} sampleProblem sampleState (sampleOptions 2 1000000) := by
    simp [start, ensure_initial_guess, ensure_feasible, ensure_dimensions, sampleProblem,
      sampleState, sampleOptions, update_state, zeros, ones, smul, vmax, List.replicate]
  obtain ⟨hfs, hfi, _, _⟩ := finish_result sampleEnv (sampleOptions 2 1000000) r1
  refine ⟨finish sampleEnv (sampleOptions 2 1000000) r1, ?_, by rw [hfi, hit], by rw [hfs, hx]⟩
  unfold solve at hs ⊢
  rw [hstart]
  exact hs

/-- C9, amended: a state vector of the wrong size does not make `solve` fail: the call is the
call on the state whose wrong-sized vectors are replaced by zeros, and when it raises it is
on a failure of the KKT solver, inside an iteration that was counted. -/
theorem solve_corrects_dimensions (env : Env) (impl : Impl) (problem : OptimumProblem)
    (state : OptimumState) (options : OptimumOptions) :
    solve env impl problem state options =
      solve env impl problem (ensure_dimensions problem state) options ∧
    ∀ e, solve env impl problem state options = Except.error e →
      KktFailure env e ∧ 1 ≤ e.result.iterations := by
  refine ⟨?_, fun e he => solve_raises he⟩
  have hstart : start impl problem (ensure_dimensions problem state) options =
      start impl problem state options := by
    simp only [start, ensure_initial_guess, ensure_dimensions_idem]
  unfold solve
  rw [hstart]

/-- C10: after the initialization step every coefficient of `state.x` is `max(x_i, mux*mu)`,
with `x_i` the initial coefficient (zero when `x` was replaced); so every coefficient is at
least `mux*mu`, and a coefficient that was already at or above the floor is unchanged. -/
theorem ensure_initial_guess_x (problem : OptimumProblem) (options : OptimumOptions)
    (state : OptimumState) :
    (ensure_initial_guess problem options state).x =
      (ensure_dimensions problem state).x.map
        (fun c => max c (options.ipnewton.mux * options.ipnewton.mu)) ∧
    (∀ c ∈ (ensure_initial_guess problem options state).x,
      options.ipnewton.mux * options.ipnewton.mu ≤ c) ∧
    List.Forall₂ (fun c0 c => options.ipnewton.mux * options.ipnewton.mu ≤ c0 → c = c0)
      (ensure_dimensions problem state).x (ensure_initial_guess problem options state).x := by
  have heq : (ensure_initial_guess problem options state).x =
      (ensure_dimensions problem state).x.map
        (fun c => max c (options.ipnewton.mux * options.ipnewton.mu)) := by
    simp only [ensure_initial_guess, ensure_feasible]
    exact vmax_floor _ _ _ (ensure_dimensions_length problem state).1
  refine ⟨heq, ?_, ?_⟩
  · intro c hc
    rw [heq, List.mem_map] at hc
    obtain ⟨a, _, rfl⟩ := hc
    exact le_max_right _ _
  · rw [heq, List.forall₂_map_right_iff]
    exact List.forall₂_same.mpr (fun c _ h => max_eq_left h)

/-! ## The theorems at the sample problem -/

/-- The theorem of C1 at the sample problem with cap 2 and tolerance `1e6`: `solve` returns
with `result.succeeded = true`, so the error and the constraint residual are within the
tolerance. -/
theorem solve_succeeded_within_tolerance_witness :
    ∃ r, solve sampleEnv {} sampleProblem sampleState (sampleOptions 2 1000000) = Except.ok r ∧
      r.result.succeeded = true ∧ r.result.error ≤ 1000000 ∧
      (∀ c ∈ sampleProblem.constraint r.state.x, |c| ≤ 1000000) := by
  obtain ⟨r1, _, _, hs, hit, hsu, _⟩ := sample_solve 2 1000000 (Or.inl (by norm_num))
  have hfs : (finish sampleEnv (sampleOptions 2 1000000) r1).result.succeeded = true := by
    rw [(finish_result sampleEnv (sampleOptions 2 1000000) r1).2.2.2, hit, hsu]
    simp [sampleOptions]
  have h := solve_succeeded_within_tolerance sampleEnv {} sampleProblem sampleState
    (sampleOptions 2 1000000) _ hs hfs
  exact ⟨_, hs, hfs, h.1, h.2.2.1⟩

/-- The theorem of C2 at the sample problem, with the step-length rule of the spec. -/
theorem feasibility_invariant_witness :
    ((∀ c ∈ (ensure_initial_guess sampleProblem (sampleOptions 2 1000000) sampleState).x,
        0 < c) ∧
      (∀ c ∈ (ensure_initial_guess sampleProblem (sampleOptions 2 1000000) sampleState).z,
        0 < c)) ∧
    (∀ r, solve sampleEnv {} sampleProblem sampleState (sampleOptions 2 1000000) = Except.ok r →
      (∀ c ∈ r.state.x, 0 < c) ∧ (∀ c ∈ r.state.z, 0 < c)) := by
  have h := feasibility_invariant sampleEnv {} sampleProblem sampleState
    (sampleOptions 2 1000000)
    (by norm_num [sampleOptions]) (by norm_num [sampleOptions]) (by norm_num [sampleOptions])
    (by norm_num [sampleOptions]) fractionToTheBoundary_spec
  exact ⟨h.1, h.2.2⟩

/-- The theorem of C3 at the sample run, where the full steps would make `x` and `z`
negative. -/
theorem update_iterates_boundary_witness :
    List.Forall₂ (fun old new => (1 - (1 / 2 : ℚ)) * old ≤ new)
      [1, 1] (update_iterates sampleEnv (sampleOptions 2 1000000) sampleRun).state.x ∧
    List.Forall₂ (fun old new => (1 - (1 / 2 : ℚ)) * old ≤ new)
      [1, 1] (update_iterates sampleEnv (sampleOptions 2 1000000) sampleRun).state.z :=
  update_iterates_boundary sampleEnv (sampleOptions 2 1000000) sampleRun
    fractionToTheBoundary_spec
    (by norm_num [sampleOptions]) (by norm_num [sampleOptions])
    (by simp [sampleRun]) (by simp [sampleRun]) (by simp [sampleRun]) (by simp [sampleRun])

/-- The theorem of C5 at the sample problem with tolerance 0 and cap 1: `solve` returns, with
`result.succeeded = false` and `result.iterations = 1`. -/
theorem solve_cap_one_witness :
    ∃ r, solve sampleEnv {} sampleProblem sampleState (sampleOptions 1 0) = Except.ok r ∧
      r.result.succeeded = false ∧ r.result.iterations = 1 := by
  rcases solve_cap_one sampleEnv {} sampleProblem sampleState (sampleOptions 1 0) rfl with
    h | ⟨e, he, _⟩
  · exact h
  · obtain ⟨r1, _, _, hs, _⟩ := sample_solve 1 0 (Or.inr (le_refl 1))
    rw [hs] at he
    exact absurd he (by simp)

/-- The theorem of C6 as amended, at the sample problem with cap 2 and tolerance `1e6`. -/
theorem solve_large_tolerance_witness :
    ∃ r, solve sampleEnv {} sampleProblem sampleState (sampleOptions 2 1000000) = Except.ok r ∧
      r.result.iterations = 1 ∧ r.result.succeeded = true := by
  obtain ⟨r1, hp, herr, _⟩ := sample_solve 2 1000000 (Or.inl (by norm_num))
  exact solve_large_tolerance sampleEnv {} sampleProblem sampleState (sampleOptions 2 1000000)
    r1 (by simp [sampleOptions]) hp (by rw [herr]; norm_num [sampleOptions])

/-! ## The reset of `z` -/

/-- The expression `(z > 0).select(z, w)`, coefficient by coefficient. -/
theorem selectPositive_self (z w : Vector) :
    selectPositive z z w = List.zipWith (fun zi wi => if zi > 0 then zi else wi) z w := by
  induction z generalizing w with
  | nil => simp [selectPositive]
  | cons c z ih =>
    cases w with
    | nil => simp [selectPositive]
    | cons d w =>
      have := ih w
      simp only [selectPositive] at this
      simp only [selectPositive, List.zip_cons_cons, List.zipWith_cons_cons, this]

/-- The coefficients of `zipWith f u w`, next to the coefficients they come from. -/
theorem zip_zipWith_mem {f : ℚ → ℚ → ℚ} {u w : Vector} {t : ℚ × ℚ × ℚ}
    (h : t ∈ List.zip u (List.zip w (List.zipWith f u w))) : t.2.2 = f t.1 t.2.1 := by
  induction u generalizing w with
  | nil => simp at h
  | cons c u ih =>
    cases w with
    | nil => simp at h
    | cons d w =>
      simp only [List.zipWith_cons_cons, List.zip_cons_cons, List.mem_cons] at h
      rcases h with rfl | h
      · rfl
      · exact ih h

/-- The vectors of the initialization step: `x` after the floor and `z` after the reset,
with their sizes. -/
theorem ensure_initial_guess_sizes (problem : OptimumProblem) (options : OptimumOptions)
    (state : OptimumState) :
    (ensure_initial_guess problem options state).x.length = problem.numVariables ∧
    (ensure_initial_guess problem options state).z =
      List.zipWith (fun zi xi => if zi > 0 then zi else options.ipnewton.mu / xi)
        (ensure_dimensions problem state).z (ensure_initial_guess problem options state).x ∧
    (ensure_initial_guess problem options state).z.length = problem.numVariables := by
  obtain ⟨hx, _, hz⟩ := ensure_dimensions_length problem state
  have hx1 : (ensure_initial_guess problem options state).x.length = problem.numVariables := by
    simp only [ensure_initial_guess, ensure_feasible]
    rw [vmax_floor _ _ _ hx, List.length_map, hx]
  have hz1 : (ensure_initial_guess problem options state).z =
      List.zipWith (fun zi xi => if zi > 0 then zi else options.ipnewton.mu / xi)
        (ensure_dimensions problem state).z (ensure_initial_guess problem options state).x := by
    simp only [ensure_initial_guess, ensure_feasible]
    rw [selectPositive_self, sdiv, List.zipWith_map_right]
  refine ⟨hx1, hz1, ?_⟩
  rw [hz1, List.length_zipWith, hz, hx1, min_self]

/-- C11: after the initialization step, coefficient by coefficient: where the initial `z_i`
(zero when `z` was replaced) is positive, `z_i` is unchanged; elsewhere `z_i = mu / x_i` with
`x_i` the coefficient of the `x` already raised to its floor, so that `x_i * z_i = mu` when
`x_i` is not zero.  The three vectors have the declared size `n`. -/
theorem ensure_initial_guess_z (problem : OptimumProblem) (options : OptimumOptions)
    (state : OptimumState) :
    ((ensure_dimensions problem state).z.length = problem.numVariables ∧
      (ensure_initial_guess problem options state).x.length = problem.numVariables ∧
      (ensure_initial_guess problem options state).z.length = problem.numVariables) ∧
    ∀ t ∈ List.zip (ensure_dimensions problem state).z
        (List.zip (ensure_initial_guess problem options state).x
          (ensure_initial_guess problem options state).z),
      (0 < t.1 → t.2.2 = t.1) ∧
      (¬ 0 < t.1 → t.2.2 = options.ipnewton.mu / t.2.1 ∧
        (t.2.1 ≠ 0 → t.2.1 * t.2.2 = options.ipnewton.mu)) := by
  obtain ⟨hx1, hz1, hzl⟩ := ensure_initial_guess_sizes problem options state
  refine ⟨⟨(ensure_dimensions_length problem state).2.2, hx1, hzl⟩, ?_⟩
  intro t ht
  rw [hz1] at ht
  have key := zip_zipWith_mem ht
  refine ⟨fun hpos => ?_, fun hneg => ?_⟩
  · rw [key]
    exact if_pos hpos
  · have hval : t.2.2 = options.ipnewton.mu / t.2.1 := by
      rw [key]
      exact if_neg hneg
    refine ⟨hval, fun hne => ?_⟩
    rw [hval, mul_div_cancel₀ _ hne]

/-! ## The state and the error that `solve` returns -/

/-- The run at the end of a pass that returns: the cached evaluations are those of the problem
at its `x`, and the three errors and their maximum are computed from its own state. -/
theorem pass_post {env : Env} {problem : OptimumProblem} {options : OptimumOptions}
    {rp r1 : Run} (h : pass env problem options rp = Except.ok r1) :
    (r1.state.f = problem.objective r1.state.x ∧
      r1.state.g = problem.objectiveGrad r1.state.x ∧
      r1.state.h = problem.constraint r1.state.x ∧
      r1.state.A = problem.constraintGrad r1.state.x) ∧
    (r1.errorf = norminf (vsub (vsub r1.state.g (trmul r1.state.A r1.state.y)) r1.state.z) ∧
      r1.errorh = norminf r1.state.h ∧
      r1.errorc = norminf (vsubs (emul r1.state.x r1.state.z) options.ipnewton.mu) ∧
      r1.error = max r1.errorf (max r1.errorh r1.errorc) ∧
      r1.result.error = r1.error) := by
  obtain ⟨r2, _, rfl⟩ := pass_ok h
  generalize update_iterates env options r2 = r3
  unfold output_state update_errors update_state
  split <;> simp

/-- What `finish` keeps besides the state: the locals of the errors and of the step lengths. -/
theorem finish_locals (env : Env) (options : OptimumOptions) (r : Run) :
    (finish env options r).errorf = r.errorf ∧ (finish env options r).errorh = r.errorh ∧
    (finish env options r).errorc = r.errorc ∧ (finish env options r).error = r.error ∧
    (finish env options r).alpha = r.alpha ∧ (finish env options r).alphax = r.alphax ∧
    (finish env options r).alphaz = r.alphaz := by
  unfold finish
  by_cases h : r.result.iterations < options.max_iterations <;> simp [h]

/-- A `solve` that returns, returns `finish` of the run of a pass. -/
theorem solve_returns {env : Env} {impl : Impl} {problem : OptimumProblem}
    {state : OptimumState} {options : OptimumOptions} {r : Run}
    (h : solve env impl problem state options = Except.ok r) :
    ∃ rp r1, pass env problem options rp = Except.ok r1 ∧ r = finish env options r1 ∧
      Visited env problem options (start impl problem state options) r1 := by
  rcases solve_outcome env impl problem state options with ⟨r3, hr, hv, _⟩ | ⟨e, _, he, _, _⟩
  · rw [hr] at h
    injection h with h
    obtain ⟨rp, hp⟩ := hv.is_pass
    exact ⟨rp, r3, hp, h.symm, hv⟩
  · rw [he] at h
    exact absurd h (by simp)

/-- C14: whenever `solve` returns, converged or not, the cached evaluations of the state are
those of the returned iterate: `f`, `g`, `h`, `A` are the objective, its gradient, the
constraint residual and the Jacobian of the problem at the returned `x`. -/
theorem solve_cached_evaluations (env : Env) (impl : Impl) (problem : OptimumProblem)
    (state : OptimumState) (options : OptimumOptions) (r : Run)
    (h : solve env impl problem state options = Except.ok r) :
    r.state.f = problem.objective r.state.x ∧
    r.state.g = problem.objectiveGrad r.state.x ∧
    r.state.h = problem.constraint r.state.x ∧
    r.state.A = problem.constraintGrad r.state.x := by
  obtain ⟨rp, r1, hp, rfl, _⟩ := solve_returns h
  rw [(finish_result env options r1).1]
  exact (pass_post hp).1

/-- C15: whenever `solve` returns, `result.error` is `max(errorf, errorh, errorc)`, with
`errorf = ‖g - Aᵀy - z‖∞`, `errorh = ‖h‖∞` and `errorc = ‖x%z - mu‖∞` taken at the returned
`x`, `y`, `z` and at the `g`, `h`, `A` of the returned state, which are the gradient, the
residual and the Jacobian of the problem at the returned `x`: the transpose is that of the
current `A`. -/
theorem solve_error_value (env : Env) (impl : Impl) (problem : OptimumProblem)
    (state : OptimumState) (options : OptimumOptions) (r : Run)
    (h : solve env impl problem state options = Except.ok r) :
    r.result.error = max r.errorf (max r.errorh r.errorc) ∧
    r.errorf = norminf (vsub (vsub (problem.objectiveGrad r.state.x)
      (trmul (problem.constraintGrad r.state.x) r.state.y)) r.state.z) ∧
    r.errorh = norminf (problem.constraint r.state.x) ∧
    r.errorc = norminf (vsubs (emul r.state.x r.state.z) options.ipnewton.mu) ∧
    r.state.g = problem.objectiveGrad r.state.x ∧
    r.state.h = problem.constraint r.state.x ∧
    r.state.A = problem.constraintGrad r.state.x := by
  obtain ⟨rp, r1, hp, rfl, _⟩ := solve_returns h
  obtain ⟨hst, _, herr, _⟩ := finish_result env options r1
  obtain ⟨hef, heh, hec, _⟩ := finish_locals env options r1
  obtain ⟨⟨_, hg, hh, hA⟩, hf1, hh1, hc1, he1, hre⟩ := pass_post hp
  rw [herr, hef, heh, hec, hst, hre, he1]
  refine ⟨rfl, ?_, ?_, hc1, hg, hh, hA⟩
  · rw [hf1, ← hg, ← hA]
  · rw [hh1, ← hh]

/-! ## The two step policies -/

/-- The coefficients of `v + a·dv`, next to the coefficients of `v` and `dv` they come from. -/
theorem forall₂_vadd_smul (v dv : Vector) (a : ℚ) :
    List.Forall₂ (fun p c => c = p.1 + a * p.2) (List.zip v dv) (vadd v (smul a dv)) := by
  induction v generalizing dv with
  | nil => simp [vadd]
  | cons c v ih =>
    cases dv with
    | nil => simp [vadd, smul]
    | cons d dv =>
      have := ih dv
      simp only [vadd, smul] at this
      simp only [vadd, smul, List.map_cons, List.zipWith_cons_cons, List.zip_cons_cons]
      exact List.Forall₂.cons rfl this

/-- The coefficients of `v + dv`, next to the coefficients of `v` and `dv` they come from. -/
theorem forall₂_vadd (v dv : Vector) :
    List.Forall₂ (fun p c => c = p.1 + p.2) (List.zip v dv) (vadd v dv) := by
  induction v generalizing dv with
  | nil => simp [vadd]
  | cons c v ih =>
    cases dv with
    | nil => simp [vadd]
    | cons d dv =>
      have := ih dv
      simp only [vadd] at this
      simp only [vadd, List.zipWith_cons_cons, List.zip_cons_cons]
      exact List.Forall₂.cons rfl this

/-- C16: with `options.ipnewton.uniform_newton_step` true, one iterate update maps
`(x, y, z)` to `(x + alpha*dx, y + alpha*dy, z + alpha*dz)`, coefficient by coefficient, with
the one step length `alpha = min(alphax, alphaz)`, `alphax` and `alphaz` being the
fraction-to-the-boundary lengths of `(x, dx)` and of `(z, dz)`. -/
theorem update_iterates_uniform (env : Env) (options : OptimumOptions) (r : Run)
    (hu : options.ipnewton.uniform_newton_step = true) :
    (update_iterates env options r).alphax =
      env.fractionToTheBoundary r.state.x r.impl.dx options.ipnewton.tau ∧
    (update_iterates env options r).alphaz =
      env.fractionToTheBoundary r.state.z r.impl.dz options.ipnewton.tau ∧
    (update_iterates env options r).alpha =
      min (update_iterates env options r).alphax (update_iterates env options r).alphaz ∧
    ((update_iterates env options r).state.x =
        vadd r.state.x (smul (update_iterates env options r).alpha r.impl.dx) ∧
      (update_iterates env options r).state.y =
        vadd r.state.y (smul (update_iterates env options r).alpha r.impl.dy) ∧
      (update_iterates env options r).state.z =
        vadd r.state.z (smul (update_iterates env options r).alpha r.impl.dz)) ∧
    List.Forall₂ (fun p c => c = p.1 + (update_iterates env options r).alpha * p.2)
      (List.zip r.state.x r.impl.dx) (update_iterates env options r).state.x ∧
    List.Forall₂ (fun p c => c = p.1 + (update_iterates env options r).alpha * p.2)
      (List.zip r.state.y r.impl.dy) (update_iterates env options r).state.y ∧
    List.Forall₂ (fun p c => c = p.1 + (update_iterates env options r).alpha * p.2)
      (List.zip r.state.z r.impl.dz) (update_iterates env options r).state.z := by
  unfold update_iterates
  split
  · exact ⟨rfl, rfl, rfl, ⟨rfl, rfl, rfl⟩, forall₂_vadd_smul _ _ _, forall₂_vadd_smul _ _ _,
      forall₂_vadd_smul _ _ _⟩
  · rename_i hn
    exact absurd hu hn

/-- C17: with `options.ipnewton.uniform_newton_step` false, one iterate update maps
`(x, y, z)` to `(x + alpha*dx, y + dy, z + alphaz*dz)`, coefficient by coefficient: `x` moves
with `alpha = min(alphax, alphaz)`, `y` takes the full Newton step and `z` moves with its own
length `alphaz`. -/
theorem update_iterates_split (env : Env) (options : OptimumOptions) (r : Run)
    (hu : options.ipnewton.uniform_newton_step = false) :
    (update_iterates env options r).alphax =
      env.fractionToTheBoundary r.state.x r.impl.dx options.ipnewton.tau ∧
    (update_iterates env options r).alphaz =
      env.fractionToTheBoundary r.state.z r.impl.dz options.ipnewton.tau ∧
    (update_iterates env options r).alpha =
      min (update_iterates env options r).alphax (update_iterates env options r).alphaz ∧
    ((update_iterates env options r).state.x =
        vadd r.state.x (smul (update_iterates env options r).alpha r.impl.dx) ∧
      (update_iterates env options r).state.y = vadd r.state.y r.impl.dy ∧
      (update_iterates env options r).state.z =
        vadd r.state.z (smul (update_iterates env options r).alphaz r.impl.dz)) ∧
    List.Forall₂ (fun p c => c = p.1 + (update_iterates env options r).alpha * p.2)
      (List.zip r.state.x r.impl.dx) (update_iterates env options r).state.x ∧
    List.Forall₂ (fun p c => c = p.1 + p.2)
      (List.zip r.state.y r.impl.dy) (update_iterates env options r).state.y ∧
    List.Forall₂ (fun p c => c = p.1 + (update_iterates env options r).alphaz * p.2)
      (List.zip r.state.z r.impl.dz) (update_iterates env options r).state.z := by
  unfold update_iterates
  split
  · rename_i hn
    rw [hu] at hn
    exact absurd hn (by simp)
  · exact ⟨rfl, rfl, rfl, ⟨rfl, rfl, rfl⟩, forall₂_vadd_smul _ _ _, forall₂_vadd _ _,
      forall₂_vadd_smul _ _ _⟩

/-- The step lengths of the sample step, for `tau = 1/2`: `alphax = 1/4`, `alphaz = 1/2`. -/
theorem sampleStep_lengths :
    fractionToTheBoundary sampleStep.state.x sampleStep.impl.dx (1 / 2) = 1 / 4 ∧
    fractionToTheBoundary sampleStep.state.z sampleStep.impl.dz (1 / 2) = 1 / 2 := by
  constructor <;> norm_num [fractionToTheBoundary, sampleStep]

/-- The theorem of C16 at the sample step: the three vectors move with `alpha = 1/4`. -/
theorem update_iterates_uniform_witness :
    (update_iterates sampleEnv (sampleOptionsUniform 2 1000000) sampleStep).alpha = 1 / 4 ∧
    (update_iterates sampleEnv (sampleOptionsUniform 2 1000000) sampleStep).state.x
      = [1 / 2, 5 / 4] ∧
    (update_iterates sampleEnv (sampleOptionsUniform 2 1000000) sampleStep).state.y = [3 / 2] ∧
    (update_iterates sampleEnv (sampleOptionsUniform 2 1000000) sampleStep).state.z
      = [5 / 4, 3 / 4] := by
  obtain ⟨hax, haz, ha, ⟨hx, hy, hz⟩, _⟩ :=
    update_iterates_uniform sampleEnv (sampleOptionsUniform 2 1000000) sampleStep rfl
  obtain ⟨h1, h2⟩ := sampleStep_lengths
  have hα : (update_iterates sampleEnv (sampleOptionsUniform 2 1000000) sampleStep).alpha
      = 1 / 4 := by
    rw [ha, hax, haz]
    simp only [sampleEnv, sampleOptionsUniform]
    rw [h1, h2]
    norm_num
  rw [hα] at hx hy hz
  refine ⟨hα, ?_, ?_, ?_⟩
  · rw [hx]; norm_num [sampleStep, vadd, smul]
  · rw [hy]; norm_num [sampleStep, vadd, smul]
  · rw [hz]; norm_num [sampleStep, vadd, smul]

/-- The theorem of C17 at the sample step: `x` moves with `alpha = 1/4`, `y` with the full
step and `z` with `alphaz = 1/2`. -/
theorem update_iterates_split_witness :
    (update_iterates sampleEnv (sampleOptions 2 1000000) sampleStep).alpha = 1 / 4 ∧
    (update_iterates sampleEnv (sampleOptions 2 1000000) sampleStep).alphaz = 1 / 2 ∧
    (update_iterates sampleEnv (sampleOptions 2 1000000) sampleStep).state.x = [1 / 2, 5 / 4] ∧
    (update_iterates sampleEnv (sampleOptions 2 1000000) sampleStep).state.y = [3] ∧
    (update_iterates sampleEnv (sampleOptions 2 1000000) sampleStep).state.z = [3 / 2, 1 / 2] := by
  obtain ⟨hax, haz, ha, ⟨hx, hy, hz⟩, _⟩ :=
    update_iterates_split sampleEnv (sampleOptions 2 1000000) sampleStep rfl
  obtain ⟨h1, h2⟩ := sampleStep_lengths
  have hαz : (update_iterates sampleEnv (sampleOptions 2 1000000) sampleStep).alphaz
      = 1 / 2 := by
    rw [haz]
    simp only [sampleEnv, sampleOptions]
    rw [h2]
  have hα : (update_iterates sampleEnv (sampleOptions 2 1000000) sampleStep).alpha
      = 1 / 4 := by
    rw [ha, hax, hαz]
    simp only [sampleEnv, sampleOptions]
    rw [h1]
    norm_num
  rw [hα] at hx
  rw [hαz] at hz
  refine ⟨hα, hαz, ?_, ?_, ?_⟩
  · rw [hx]; norm_num [sampleStep, vadd, smul]
  · rw [hy]; norm_num [sampleStep, vadd]
  · rw [hz]; norm_num [sampleStep, vadd, smul]

/-! ## The Newton step -/

/-- What a `compute_newton_step` that returns has done: the Hessian is stored in the state,
the right-hand sides `a`, `b` are formed and handed to the KKT solver, whose answer gives
`dx`, `dy`, and `dz` is derived from `dx`. -/
theorem compute_newton_step_returns {env : Env} {problem : OptimumProblem}
    {options : OptimumOptions} {r r2 : Run}
    (h : compute_newton_step env problem options r = Except.ok r2) :
    r2.state = { r.state with H := problem.objectiveHessian r.state.x r.state.g } ∧
    r2.impl.a = vneg (vsub (vsub r.state.g (trmul r.state.A r.state.y))
      (sdiv options.ipnewton.mu r.state.x)) ∧
    r2.impl.b = vneg r.state.h ∧
    ∃ td sol,
      env.kkt.decompose { r.state with H := problem.objectiveHessian r.state.x r.state.g }
        = some td ∧
      env.kkt.solve { r.state with H := problem.objectiveHessian r.state.x r.state.g }
        r2.impl.a r2.impl.b = some sol ∧
      r2.impl.dx = sol.dx ∧ r2.impl.dy = sol.dy ∧
      r2.impl.dz = vsub (ediv (ssub options.ipnewton.mu (emul r.state.z sol.dx)) r.state.x)
        r.state.z ∧
      r2.result.time_linear_systems =
        r.result.time_linear_systems + sol.time_solve + td ∧
      r2.calls = r.calls ++ [Call.objectiveHessian r.state.x r.state.g,
        Call.kktDecompose { r.state with H := problem.objectiveHessian r.state.x r.state.g },
        Call.kktSolve r2.impl.a r2.impl.b] := by
  simp only [compute_newton_step] at h
  split at h
  · exact absurd h (by simp)
  · rename_i td hd
    split at h
    · exact absurd h (by simp)
    · rename_i sol hs
      injection h with h
      subst h
      exact ⟨rfl, rfl, rfl, td, sol, hd, hs, rfl, rfl, rfl, rfl, by simp⟩

/-- The linearised complementarity equation, for vectors of one size and an `x` without a
zero coefficient: `z%dx + x%dz = mu - x%z` when `dz = (mu - z%dx)/x - z`. -/
theorem complementarity_step (mu : ℚ) (x z dx : Vector) (hx : ∀ c ∈ x, c ≠ 0)
    (hz : z.length = x.length) (hdx : dx.length = x.length) :
    vadd (emul z dx) (emul x (vsub (ediv (ssub mu (emul z dx)) x) z)) = ssub mu (emul x z) ∧
    (vsub (ediv (ssub mu (emul z dx)) x) z).length = x.length := by
  induction x generalizing z dx with
  | nil =>
    cases z with
    | nil => simp [vadd, emul, ssub, vsub, ediv]
    | cons _ _ => simp at hz
  | cons c x ih =>
    cases z with
    | nil => simp at hz
    | cons zi z =>
      cases dx with
      | nil => simp at hdx
      | cons di dx =>
        have hc : c ≠ 0 := hx c (List.mem_cons_self c x)
        obtain ⟨ih1, ih2⟩ := ih z dx (fun a ha => hx a (List.mem_cons_of_mem c ha))
          (by simpa using hz) (by simpa using hdx)
        simp only [vadd, emul, ssub, vsub, ediv] at ih1 ih2 ⊢
        simp only [List.zipWith_cons_cons, List.map_cons, List.length_cons, ih1, ih2]
        refine ⟨?_, trivial⟩
        congr 1
        field_simp
        ring

/-- C18: for an `x` without a zero coefficient and `z`, `dx` of the size of `x`, the `dz` that
the Newton step computes, `dz = (mu - z%dx)/x - z`, has the size of `x` and satisfies the
linearised complementarity equation `z_i*dx_i + x_i*dz_i = mu - x_i*z_i` at every
coefficient. -/
theorem newton_step_complementarity (env : Env) (problem : OptimumProblem)
    (options : OptimumOptions) (r r2 : Run)
    (h : compute_newton_step env problem options r = Except.ok r2)
    (hx : ∀ c ∈ r.state.x, c ≠ 0) (hz : r.state.z.length = r.state.x.length)
    (hdx : r2.impl.dx.length = r.state.x.length) :
    vadd (emul r.state.z r2.impl.dx) (emul r.state.x r2.impl.dz) =
      ssub options.ipnewton.mu (emul r.state.x r.state.z) ∧
    r2.impl.dz.length = r.state.x.length := by
  obtain ⟨_, _, _, td, sol, _, _, hsx, _, hsz, _⟩ := compute_newton_step_returns h
  rw [hsz, hsx]
  rw [hsx] at hdx
  exact complementarity_step options.ipnewton.mu r.state.x r.state.z sol.dx hx hz hdx

/-- The state with which the loop is entered on the sample problem. -/
theorem sample_start (cap : Nat) (tol : ℚ) :
    (start {} sampleProblem sampleState (sampleOptions cap tol)).state =
      { x := [1, 1], y := [0], z := [1, 1], f := 2, g := [2, 2], h := [1],
        A := [[1], [1]] } := by
  simp [start, ensure_initial_guess, ensure_feasible, ensure_dimensions, update_state,
    output_header, sampleOptions, sampleState, sampleProblem, zeros, ones, smul, vmax,
    selectPositive, sdiv, emul, List.replicate]
  norm_num

/-- The Newton step on the sample problem, from `x = (1, 1)`: the right-hand sides are
`a = (-1, -1)` and `b = (-1)`, and the step is `dx = (-1/2, -1/2)`, `dy = (-1/2)`,
`dz = (1/2, 1/2)`. -/
theorem sample_newton_step (cap : Nat) (tol : ℚ) :
    ∃ r2, compute_newton_step sampleEnv sampleProblem (sampleOptions cap tol)
        (start {} sampleProblem sampleState (sampleOptions cap tol)) = Except.ok r2 ∧
      r2.impl.a = [-1, -1] ∧ r2.impl.b = [-1] ∧
      r2.impl.dx = [-1 / 2, -1 / 2] ∧ r2.impl.dy = [-1 / 2] ∧ r2.impl.dz = [1 / 2, 1 / 2] := by
  simp [compute_newton_step, start, ensure_initial_guess, ensure_feasible,
    ensure_dimensions, update_state, output_header, sampleOptions, sampleState, sampleEnv,
    sampleProblem, kktDiagonal, zeros, ones, smul, vmax, selectPositive, sdiv, vadd, ediv,
    trmul, dot, emul, vneg, vsub, ssub]
  norm_num [List.replicate]

/-- The theorem of C18 at the Newton step of the sample problem: with `x = z = (1, 1)`,
`dx = (-1/2, -1/2)` and `mu = 1`, `z%dx + x%dz = mu - x%z = (0, 0)`. -/
theorem newton_step_complementarity_witness :
    ∃ r2, compute_newton_step sampleEnv sampleProblem (sampleOptions 2 1000000)
        (start {} sampleProblem sampleState (sampleOptions 2 1000000)) = Except.ok r2 ∧
      r2.impl.dz = [1 / 2, 1 / 2] ∧
      vadd (emul [1, 1] r2.impl.dx) (emul [1, 1] r2.impl.dz) = ssub 1 (emul [1, 1] [1, 1]) := by
  obtain ⟨r2, h2, _, _, hdx, _, hdz⟩ := sample_newton_step 2 1000000
  have hst := sample_start 2 1000000
  have h := newton_step_complementarity sampleEnv sampleProblem (sampleOptions 2 1000000) _ r2
    h2 (by rw [hst]; simp) (by simp [hst]) (by simp [hst, hdx])
  rw [hst] at h
  exact ⟨r2, h2, hdz, h.1⟩

/-! ## The right-hand sides of the KKT equation -/

/-- The three closures that end a pass keep the scratch vectors of the solver. -/
theorem pass_tail_scratch (problem : OptimumProblem) (options : OptimumOptions) (r : Run) :
    (output_state options (update_errors options (update_state problem r))).impl.a = r.impl.a ∧
    (output_state options (update_errors options (update_state problem r))).impl.b = r.impl.b ∧
    (output_state options (update_errors options (update_state problem r))).impl.dx
      = r.impl.dx ∧
    (output_state options (update_errors options (update_state problem r))).impl.dy
      = r.impl.dy ∧
    (output_state options (update_errors options (update_state problem r))).impl.dz
      = r.impl.dz := by
  unfold output_state update_errors update_state
  split <;> simp

/-- The loop is entered with the evaluations of the problem at the initial `x`. -/
theorem start_cached (impl : Impl) (problem : OptimumProblem) (state : OptimumState)
    (options : OptimumOptions) :
    (start impl problem state options).state.f =
      problem.objective (start impl problem state options).state.x ∧
    (start impl problem state options).state.g =
      problem.objectiveGrad (start impl problem state options).state.x ∧
    (start impl problem state options).state.h =
      problem.constraint (start impl problem state options).state.x ∧
    (start impl problem state options).state.A =
      problem.constraintGrad (start impl problem state options).state.x := by
  unfold start output_header update_state
  split <;> simp

/-- Every run with which a pass is entered holds the evaluations of the problem at its `x`. -/
theorem entering_cached {env : Env} {impl : Impl} {problem : OptimumProblem}
    {state : OptimumState} {options : OptimumOptions} {r : Run}
    (hr : r = start impl problem state options ∨
      Visited env problem options (start impl problem state options) r) :
    r.state.f = problem.objective r.state.x ∧ r.state.g = problem.objectiveGrad r.state.x ∧
    r.state.h = problem.constraint r.state.x ∧ r.state.A = problem.constraintGrad r.state.x := by
  rcases hr with rfl | hv
  · exact start_cached impl problem state options
  · obtain ⟨rp, hp⟩ := hv.is_pass
    exact (pass_post hp).1

/-- C19: in every iteration (the pass entered with the run `r`, first or later), the state
holds `g`, `h`, `A` evaluated at the `x` held before the step, and the right-hand sides handed
to the KKT solver are `a = -(g - Aᵀy - mu/x)` and `b = -h`, formed from that `x`, that `y` and
those evaluations: a pass that returns took `dx`, `dy` from the solve against them, and a pass
that raises failed in `decompose` or in the solve against them. -/
theorem kkt_right_hand_sides (env : Env) (impl : Impl) (problem : OptimumProblem)
    (state : OptimumState) (options : OptimumOptions) (r : Run)
    (hr : r = start impl problem state options ∨
      Visited env problem options (start impl problem state options) r) :
    (r.state.g = problem.objectiveGrad r.state.x ∧ r.state.h = problem.constraint r.state.x ∧
      r.state.A = problem.constraintGrad r.state.x) ∧
    (∀ r1, pass env problem options r = Except.ok r1 →
      r1.impl.a = vneg (vsub (vsub (problem.objectiveGrad r.state.x)
        (trmul (problem.constraintGrad r.state.x) r.state.y))
        (sdiv options.ipnewton.mu r.state.x)) ∧
      r1.impl.b = vneg (problem.constraint r.state.x) ∧
      ∃ sol, env.kkt.solve
          { r.state with H := problem.objectiveHessian r.state.x r.state.g }
          r1.impl.a r1.impl.b = some sol ∧
        r1.impl.dx = sol.dx ∧ r1.impl.dy = sol.dy) ∧
    (∀ e, pass env problem options r = Except.error e →
      env.kkt.decompose { r.state with H := problem.objectiveHessian r.state.x r.state.g }
        = none ∨
      env.kkt.solve { r.state with H := problem.objectiveHessian r.state.x r.state.g }
        (vneg (vsub (vsub (problem.objectiveGrad r.state.x)
          (trmul (problem.constraintGrad r.state.x) r.state.y))
          (sdiv options.ipnewton.mu r.state.x)))
        (vneg (problem.constraint r.state.x)) = none) := by
  obtain ⟨_, hg, hh, hA⟩ := entering_cached hr
  refine ⟨⟨hg, hh, hA⟩, ?_, ?_⟩
  · intro r1 hp
    obtain ⟨r2, h2, rfl⟩ := pass_ok hp
    obtain ⟨_, ha, hb, _, sol, _, hs, hdx, hdy, _⟩ := compute_newton_step_returns h2
    obtain ⟨ta, tb, tdx, tdy, _⟩ :=
      pass_tail_scratch problem options (update_iterates env options r2)
    have hk := (update_iterates_keeps env options r2).2.1
    rw [ta, tb, tdx, tdy, hk]
    simp only [] at ha hb hs
    refine ⟨by rw [ha, ← hg, ← hA], by rw [hb, ← hh], sol, hs, hdx, hdy⟩
  · intro e hp
    have hc := pass_error hp
    simp only [compute_newton_step] at hc
    rw [← hg, ← hh, ← hA]
    split at hc
    · rename_i hd
      exact Or.inl hd
    · split at hc
      · rename_i hs
        exact Or.inr hs
      · exact absurd hc (by simp)

/-- The theorem of C19 at the first iteration on the sample problem: the right-hand sides
are `a = (-1, -1)` and `b = (-1)`. -/
theorem kkt_right_hand_sides_witness :
    ∃ r1, pass sampleEnv sampleProblem (sampleOptions 2 1000000)
        (start {} sampleProblem sampleState (sampleOptions 2 1000000)) = Except.ok r1 ∧
      r1.impl.a = [-1, -1] ∧ r1.impl.b = [-1] := by
  obtain ⟨r1, hp, _⟩ := sample_first_pass 2 1000000
  obtain ⟨_, h, _⟩ := kkt_right_hand_sides sampleEnv {} sampleProblem sampleState
    (sampleOptions 2 1000000) _ (Or.inl rfl)
  obtain ⟨ha, hb, _⟩ := h r1 hp
  rw [sample_start] at ha hb
  refine ⟨r1, hp, ?_, ?_⟩
  · rw [ha]
    norm_num [sampleProblem, sampleOptions, vneg, vsub, trmul, dot, sdiv, smul,
      List.replicate]
  · rw [hb]
    norm_num [sampleProblem, vneg]

/-! ## Progress rows -/

/-- The closure `output_state` emits one row when the output is active. -/
theorem output_state_rows (options : OptimumOptions) (r : Run)
    (hact : options.output.active = true) :
    progressRows (output_state options r).impl.outputter =
      progressRows r.impl.outputter + 1 := by
  simp [output_state, hact, progressRows, List.count_append, List.count_cons]

/-- The closure `output_header` emits one row, that of the initial state, when the output is
active. -/
theorem output_header_rows (problem : OptimumProblem) (options : OptimumOptions) (r : Run)
    (hact : options.output.active = true) :
    progressRows (output_header problem options r).impl.outputter =
      progressRows r.impl.outputter + 1 := by
  simp [output_header, hact, progressRows, List.count_append, List.count_cons]

/-- With the output active, the loop is entered after one row. -/
theorem start_rows (impl : Impl) (problem : OptimumProblem) (state : OptimumState)
    (options : OptimumOptions) (hact : options.output.active = true) :
    progressRows (start impl problem state options).impl.outputter =
      progressRows impl.outputter + 1 := by
  unfold start
  rw [output_header_rows _ _ _ hact]
  rfl

/-- With the output active, a pass that returns emits one row. -/
theorem pass_rows {env : Env} {problem : OptimumProblem} {options : OptimumOptions}
    {rp r1 : Run} (hact : options.output.active = true)
    (h : pass env problem options rp = Except.ok r1) :
    progressRows r1.impl.outputter = progressRows rp.impl.outputter + 1 := by
  obtain ⟨r2, h2, rfl⟩ := pass_ok h
  rw [output_state_rows _ _ hact]
  have hk := (compute_newton_step_ok h2).2.2.2.2.2.2.2.2.2
  have hu := (update_iterates_keeps env options r2).2.1
  have : (update_errors options (update_state problem
      (update_iterates env options r2))).impl = (update_iterates env options r2).impl := rfl
  rw [this, hu, hk]

/-- With the output active, the rows and the iterations grow together along the loop. -/
theorem Visited.rows {env : Env} {problem : OptimumProblem} {options : OptimumOptions}
    {r0 r : Run} (hact : options.output.active = true)
    (hv : Visited env problem options r0 r) :
    progressRows r.impl.outputter + r0.result.iterations =
      progressRows r0.impl.outputter + r.result.iterations := by
  induction hv with
  | first h1 =>
    rw [pass_rows hact h1, (pass_counts h1).1]
    omega
  | next _ _ h2 ih =>
    rw [pass_rows hact h2, (pass_counts h2).1]
    omega

/-- The header that `solve` outputs after the loop is not a row. -/
theorem finish_rows (env : Env) (options : OptimumOptions) (r : Run) :
    progressRows (finish env options r).impl.outputter = progressRows r.impl.outputter := by
  unfold finish
  by_cases h : r.result.iterations < options.max_iterations <;>
    simp [h, progressRows, List.count_append, List.count_cons]

/-- The first pass on the sample problem with the output active. -/
theorem sample_first_pass_active (cap : Nat) (tol : ℚ) :
    ∃ r1, pass sampleEnv sampleProblem (sampleOptionsActive cap tol)
        (start {} sampleProblem sampleState (sampleOptionsActive cap tol)) = Except.ok r1 ∧
      r1.error = 1 / 4 ∧ r1.result.iterations = 1 := by
  simp [pass, compute_newton_step, start, ensure_initial_guess, ensure_feasible,
    ensure_dimensions, update_state, output_header, sampleOptionsActive, sampleState,
    sampleEnv, sampleProblem, kktDiagonal, zeros, ones, smul, vmax, selectPositive, sdiv,
    vadd, ediv, trmul, dot, emul, vneg, vsub, ssub, update_iterates, update_errors,
    output_state, fractionToTheBoundary, norminf, vsubs]
  norm_num [List.replicate]

/-- C20, as stated, fails: on the sample problem with the output active and tolerance `1e6`,
`solve` returns after one iteration and the sink has emitted two rows, that of the
initial state and that of the pass. -/
theorem rows_exceed_iterations :
    ∃ r, solve sampleEnv {} sampleProblem sampleState (sampleOptionsActive 2 1000000) =
        Except.ok r ∧
      r.result.iterations = 1 ∧ progressRows r.impl.outputter = 2 ∧
      r.result.iterations ≠ progressRows r.impl.outputter := by
  obtain ⟨r1, hp, herr, hit⟩ := sample_first_pass_active 2 1000000
  have hc : ¬ continues (sampleOptionsActive 2 1000000) r1 := by
    rintro ⟨h1, _⟩
    rw [herr] at h1
    norm_num [sampleOptionsActive] at h1
  have hrows : progressRows (finish sampleEnv (sampleOptionsActive 2 1000000) r1).impl.outputter
      = 2 := by
    rw [finish_rows, pass_rows rfl hp, start_rows _ _ _ _ rfl]
    rfl
  have hfi := (finish_result sampleEnv (sampleOptionsActive 2 1000000) r1).2.1
  refine ⟨_, solve_of_first_pass hp hc, by rw [hfi, hit], hrows, ?_⟩
  rw [hfi, hit, hrows]
  decide

/-- C20, amended: with the output active, `result.iterations` grows by exactly one at each
pass of the loop, each pass emits one progress row, and on return the number of rows emitted
during the call (the `outputState` calls) is `result.iterations + 1`: one row per pass and
the row of the initial state that comes with the header. -/
theorem solve_progress_rows (env : Env) (impl : Impl) (problem : OptimumProblem)
    (state : OptimumState) (options : OptimumOptions)
    (hact : options.output.active = true) :
    (∀ rp r1, pass env problem options rp = Except.ok r1 →
      r1.result.iterations = rp.result.iterations + 1 ∧
      progressRows r1.impl.outputter = progressRows rp.impl.outputter + 1) ∧
    (∀ r, solve env impl problem state options = Except.ok r →
      progressRows r.impl.outputter =
        progressRows impl.outputter + r.result.iterations + 1) := by
  refine ⟨fun rp r1 hp => ⟨(pass_counts hp).1, pass_rows hact hp⟩, ?_⟩
  intro r hr
  obtain ⟨_, r1, _, rfl, hv⟩ := solve_returns hr
  have h1 := hv.rows hact
  rw [start_rows impl problem state options hact,
    (start_counts impl problem state options).1] at h1
  rw [finish_rows, (finish_result env options r1).2.1]
  omega

/-- The theorem of C20 as amended, at the sample problem with the output active and a sink
that has emitted nothing before the call: one iteration, two rows. -/
theorem solve_progress_rows_witness :
    ∃ r, solve sampleEnv {} sampleProblem sampleState (sampleOptionsActive 2 1000000) =
        Except.ok r ∧
      progressRows r.impl.outputter = progressRows [] + r.result.iterations + 1 := by
  obtain ⟨r1, hp, herr, _⟩ := sample_first_pass_active 2 1000000
  have hc : ¬ continues (sampleOptionsActive 2 1000000) r1 := by
    rintro ⟨h1, _⟩
    rw [herr] at h1
    norm_num [sampleOptionsActive] at h1
  exact ⟨_, solve_of_first_pass hp hc,
    (solve_progress_rows sampleEnv {} sampleProblem sampleState
      (sampleOptionsActive 2 1000000) rfl).2 _ (solve_of_first_pass hp hc)⟩

/-- The theorem of C14 at the sample problem: `solve` returns `x = (1/2, 1/2)` with
`f = 1/2`, `g = (1, 1)`, `h = (0)` and the Jacobian `(1 1)`. -/
theorem solve_cached_evaluations_witness :
    ∃ r, solve sampleEnv {} sampleProblem sampleState (sampleOptions 2 1000000) = Except.ok r ∧
      r.state.x = [1 / 2, 1 / 2] ∧ r.state.f = 1 / 2 ∧ r.state.g = [1, 1] ∧
      r.state.h = [0] ∧ r.state.A = [[1], [1]] := by
  obtain ⟨r1, _, _, hs, _, _, hx⟩ := sample_solve 2 1000000 (Or.inl (by norm_num))
  have hfx : (finish sampleEnv (sampleOptions 2 1000000) r1).state.x = [1 / 2, 1 / 2] := by
    rw [(finish_result sampleEnv (sampleOptions 2 1000000) r1).1, hx]
  obtain ⟨hf, hg, hh, hA⟩ := solve_cached_evaluations sampleEnv {} sampleProblem sampleState
    (sampleOptions 2 1000000) _ hs
  rw [hfx] at hf hg hh hA
  refine ⟨_, hs, hfx, ?_, ?_, ?_, ?_⟩
  · rw [hf]; norm_num [sampleProblem, emul]
  · rw [hg]; norm_num [sampleProblem, smul]
  · rw [hh]; norm_num [sampleProblem]
  · rw [hA]; simp [sampleProblem]

/-- The theorem of C15 at the sample problem: the error returned is the largest of the three
norms, taken with the Jacobian `(1 1)` of the returned state, not with the empty `A` that
the sample state holds when `solve` starts. -/
theorem solve_error_value_witness :
    sampleState.A = [] ∧
    ∃ r, solve sampleEnv {} sampleProblem sampleState (sampleOptions 2 1000000) = Except.ok r ∧
      r.result.error = max r.errorf (max r.errorh r.errorc) ∧
      r.errorf = norminf (vsub (vsub (sampleProblem.objectiveGrad r.state.x)
        (trmul [[1], [1]] r.state.y)) r.state.z) := by
  refine ⟨rfl, ?_⟩
  obtain ⟨r1, _, _, hs, _, _, hx⟩ := sample_solve 2 1000000 (Or.inl (by norm_num))
  have hfx : (finish sampleEnv (sampleOptions 2 1000000) r1).state.x = [1 / 2, 1 / 2] := by
    rw [(finish_result sampleEnv (sampleOptions 2 1000000) r1).1, hx]
  obtain ⟨he, hef, _⟩ := solve_error_value sampleEnv {} sampleProblem sampleState
    (sampleOptions 2 1000000) _ hs
  refine ⟨_, hs, he, ?_⟩
  rw [hef]
  have hA : sampleProblem.constraintGrad
      (finish sampleEnv (sampleOptions 2 1000000) r1).state.x = [[1], [1]] := by
    rw [hfx]; simp [sampleProblem]
  rw [hA]

end OptimumSolverIpnewton

/-! ## The merge of two results -/

namespace OptimumResult

/-- The sum of two counters, wrapped, then added to a third and wrapped, in either
grouping. -/
theorem wrap_add_assoc (a b c M : Nat) :
    ((a + b) % M + c) % M = (a + (b + c) % M) % M := by
  rw [Nat.mod_add_mod, Nat.add_mod_mod, Nat.add_assoc]

/-- C12, as stated, fails: with `a.iterations = 4294967295` and `b.iterations = 1`, after
`a += b` the counter `a.iterations` is `0`, not the sum `4294967296`; likewise for
`num_objective_evals`. -/
theorem addAssign_counter_wraps :
    (addAssignStatement ({ iterations := 4294967295, num_objective_evals := 4294967295 },
      { iterations := 1, num_objective_evals := 1 })).1.iterations = 0 ∧
    (addAssignStatement ({ iterations := 4294967295, num_objective_evals := 4294967295 },
      { iterations := 1, num_objective_evals := 1 })).1.num_objective_evals = 0 ∧
    ¬ ((addAssignStatement ({ iterations := 4294967295, num_objective_evals := 4294967295 },
      { iterations := 1, num_objective_evals := 1 })).1.iterations = 4294967295 + 1) := by
  simp [addAssignStatement, operatorAddAssign]

/-- C12, amended: after `a += b`, the flag, the error and the convergence rate of `a` are
those of `b`; the counters `iterations` and `num_objective_evals` of `a` are the sums of what
`a` had and of what `b` has modulo `2^32`, so the sums themselves when these are below
`2^32`; the four times of `a` are the sums of what `a` had and of what `b` has; `b` is
unchanged. -/
theorem addAssign_fields (a b : OptimumResult) :
    ((addAssignStatement (a, b)).1.succeeded = b.succeeded ∧
      (addAssignStatement (a, b)).1.error = b.error ∧
      (addAssignStatement (a, b)).1.convergence_rate = b.convergence_rate) ∧
    ((addAssignStatement (a, b)).1.iterations = (a.iterations + b.iterations) % 2 ^ 32 ∧
      (a.iterations + b.iterations < 2 ^ 32 →
        (addAssignStatement (a, b)).1.iterations = a.iterations + b.iterations) ∧
      (addAssignStatement (a, b)).1.num_objective_evals =
        (a.num_objective_evals + b.num_objective_evals) % 2 ^ 32 ∧
      (a.num_objective_evals + b.num_objective_evals < 2 ^ 32 →
        (addAssignStatement (a, b)).1.num_objective_evals =
          a.num_objective_evals + b.num_objective_evals) ∧
      (addAssignStatement (a, b)).1.time = a.time + b.time ∧
      (addAssignStatement (a, b)).1.time_objective_evals =
        a.time_objective_evals + b.time_objective_evals ∧
      (addAssignStatement (a, b)).1.time_constraint_evals =
        a.time_constraint_evals + b.time_constraint_evals ∧
      (addAssignStatement (a, b)).1.time_linear_systems =
        a.time_linear_systems + b.time_linear_systems) ∧
    (addAssignStatement (a, b)).2 = b :=
  ⟨⟨rfl, rfl, rfl⟩,
    ⟨rfl, fun h => Nat.mod_eq_of_lt h, rfl, fun h => Nat.mod_eq_of_lt h, rfl, rfl, rfl, rfl⟩,
    rfl⟩

/-- The theorem of C12 as amended, at two results whose counters do not wrap: `3 + 4`
iterations and `5 + 6` evaluations give `7` and `11`, the times `1/2 + 1/4` give `3/4`, and
the flag is that of the second result. -/
theorem addAssign_fields_witness :
    (addAssignStatement (sampleResultA, sampleResultB)).1.iterations = 7 ∧
    (addAssignStatement (sampleResultA, sampleResultB)).1.num_objective_evals = 11 ∧
    (addAssignStatement (sampleResultA, sampleResultB)).1.time = 3 / 4 ∧
    (addAssignStatement (sampleResultA, sampleResultB)).1.succeeded = true ∧
    (addAssignStatement (sampleResultA, sampleResultB)).2 = sampleResultB := by
  obtain ⟨⟨hs, _, _⟩, ⟨_, hi, _, hn, ht, _, _, _⟩, hb⟩ :=
    addAssign_fields sampleResultA sampleResultB
  refine ⟨hi (by decide), hn (by decide), ?_, hs, hb⟩
  rw [ht]
  norm_num [sampleResultA, sampleResultB]

/-- C13: the merge is associative on the summed fields: `(a += b) += c` and `a += (b += c)`
leave in `a` the same iterations, objective evaluations and four times (and the same flag,
error and convergence rate, those of `c`). -/
theorem addAssign_assoc (a b c : OptimumResult) :
    ((a.operatorAddAssign b).operatorAddAssign c).iterations =
      (a.operatorAddAssign (b.operatorAddAssign c)).iterations ∧
    ((a.operatorAddAssign b).operatorAddAssign c).num_objective_evals =
      (a.operatorAddAssign (b.operatorAddAssign c)).num_objective_evals ∧
    ((a.operatorAddAssign b).operatorAddAssign c).time =
      (a.operatorAddAssign (b.operatorAddAssign c)).time ∧
    ((a.operatorAddAssign b).operatorAddAssign c).time_objective_evals =
      (a.operatorAddAssign (b.operatorAddAssign c)).time_objective_evals ∧
    ((a.operatorAddAssign b).operatorAddAssign c).time_constraint_evals =
      (a.operatorAddAssign (b.operatorAddAssign c)).time_constraint_evals ∧
    ((a.operatorAddAssign b).operatorAddAssign c).time_linear_systems =
      (a.operatorAddAssign (b.operatorAddAssign c)).time_linear_systems ∧
    (a.operatorAddAssign b).operatorAddAssign c =
      a.operatorAddAssign (b.operatorAddAssign c) := by
  simp only [operatorAddAssign]
  exact ⟨wrap_add_assoc _ _ _ _, wrap_add_assoc _ _ _ _, add_assoc _ _ _, add_assoc _ _ _,
    add_assoc _ _ _, add_assoc _ _ _, by simp [wrap_add_assoc, add_assoc]⟩

end OptimumResult

/-! ## The setters of the chemical state -/

namespace ChemicalState

/-- The outcome of `setSpeciesAmount`, by cases on its two assertions. -/
theorem setSpeciesAmount_eq (s : ChemicalState) (index : Nat) (amount : ℚ) :
    setSpeciesAmount s index amount =
      if amount ≥ 0 ∧ index < s.system.numSpecies then
        Except.ok { s with n := s.n.set index amount }
      else Except.error s := by
  unfold setSpeciesAmount Assert
  by_cases ha : amount ≥ 0
  · by_cases hi : index < s.system.numSpecies
    · simp [ha, hi]
    · simp [ha, hi]
  · simp [ha]

/-- C27: `setSpeciesAmount(index, amount)` raises if and only if `amount < 0` or
`index >= numSpecies`, and the state it raises with is the state unchanged; otherwise, on a
state whose vector of amounts has one entry per species, the amount at `index` becomes
`amount` and every other amount, the temperature, the pressure and the system are unchanged. -/
theorem setSpeciesAmount_spec (s : ChemicalState) (index : Nat) (amount : ℚ)
    (hwf : s.n.length = s.system.numSpecies) :
    ((∃ e, setSpeciesAmount s index amount = Except.error e) ↔
      (amount < 0 ∨ s.system.numSpecies ≤ index)) ∧
    (∀ e, setSpeciesAmount s index amount = Except.error e → e = s) ∧
    (∀ s1, setSpeciesAmount s index amount = Except.ok s1 →
      s1.n[index]? = some amount ∧ (∀ j, j ≠ index → s1.n[j]? = s.n[j]?) ∧
      s1.n.length = s.n.length ∧ s1.T = s.T ∧ s1.P = s.P ∧ s1.system = s.system) := by
  rw [setSpeciesAmount_eq]
  by_cases h : amount ≥ 0 ∧ index < s.system.numSpecies
  · rw [if_pos h]
    refine ⟨?_, ?_, ?_⟩
    · constructor
      · rintro ⟨e, he⟩
        exact absurd he (by simp)
      · rintro (h1 | h1)
        · exact absurd h.1 (not_le.mpr h1)
        · exact absurd h.2 (not_lt.mpr h1)
    · intro e he
      exact absurd he (by simp)
    · intro s1 hs1
      injection hs1 with hs1
      subst hs1
      refine ⟨?_, ?_, by simp, rfl, rfl, rfl⟩
      · simp only [List.getElem?_set_self (hwf ▸ h.2)]
      · intro j hj
        simp only [List.getElem?_set_ne (Ne.symm hj)]
  · rw [if_neg h]
    refine ⟨?_, ?_, ?_⟩
    · constructor
      · intro _
        by_cases ha : amount < 0
        · exact Or.inl ha
        · exact Or.inr (not_lt.mp (fun hi => h ⟨not_lt.mp ha, hi⟩))
      · intro _
        exact ⟨s, rfl⟩
    · intro e he
      injection he with he
      exact he.symm
    · intro s1 hs1
      exact absurd hs1 (by simp)

/-- The theorem of C27 at the sample chemical state: setting the amount of species 1 to `5`
gives the amounts `(1, 5, 3)`, and setting it to `-1`, or setting species 3, raises. -/
theorem setSpeciesAmount_spec_witness :
    (∀ s1, setSpeciesAmount sampleChemicalState 1 5 = Except.ok s1 →
      s1.n[1]? = some 5 ∧ s1.n[0]? = some 1 ∧ s1.n[2]? = some 3) ∧
    (∃ s1, setSpeciesAmount sampleChemicalState 1 5 = Except.ok s1) ∧
    (∃ e, setSpeciesAmount sampleChemicalState 1 (-1) = Except.error e) ∧
    (∃ e, setSpeciesAmount sampleChemicalState 3 5 = Except.error e) := by
  have h := setSpeciesAmount_spec sampleChemicalState 1 5 rfl
  have hneg := (setSpeciesAmount_spec sampleChemicalState 1 (-1) rfl).1
  have hout := (setSpeciesAmount_spec sampleChemicalState 3 5 rfl).1
  refine ⟨?_, ?_, hneg.mpr (Or.inl (by norm_num)), hout.mpr (Or.inr (le_refl 3))⟩
  · intro s1 hs1
    obtain ⟨h1, h2, _⟩ := h.2.2 s1 hs1
    exact ⟨h1, by rw [h2 0 (by decide)]; rfl, by rw [h2 2 (by decide)]; rfl⟩
  · rw [setSpeciesAmount_eq, if_pos ⟨by norm_num, by decide⟩]
    exact ⟨_, rfl⟩

/-- C28: `setTemperature(val)` raises if and only if `val <= 0`, with the state unchanged, and
otherwise stores `val` as the temperature and leaves the pressure, the amounts and the system
unchanged; `setPressure(val)` does the same with the pressure and leaves the temperature. -/
theorem setTemperature_setPressure_spec (s : ChemicalState) (val : ℚ) :
    (((∃ e, setTemperature s val = Except.error e) ↔ val ≤ 0) ∧
      (∀ e, setTemperature s val = Except.error e → e = s) ∧
      (∀ s1, setTemperature s val = Except.ok s1 →
        s1.T = val ∧ s1.P = s.P ∧ s1.n = s.n ∧ s1.system = s.system)) ∧
    (((∃ e, setPressure s val = Except.error e) ↔ val ≤ 0) ∧
      (∀ e, setPressure s val = Except.error e → e = s) ∧
      (∀ s1, setPressure s val = Except.ok s1 →
        s1.P = val ∧ s1.T = s.T ∧ s1.n = s.n ∧ s1.system = s.system)) := by
  unfold setTemperature setPressure Assert
  by_cases h : val > 0
  · have hn : ¬ val ≤ 0 := not_le.mpr h
    simp only [if_pos h]
    refine ⟨⟨?_, ?_, ?_⟩, ⟨?_, ?_, ?_⟩⟩
    · exact ⟨fun ⟨e, he⟩ => absurd he (by simp), fun h0 => absurd h0 hn⟩
    · intro e he
      exact absurd he (by simp)
    · intro s1 hs1
      injection hs1 with hs1
      subst hs1
      exact ⟨rfl, rfl, rfl, rfl⟩
    · exact ⟨fun ⟨e, he⟩ => absurd he (by simp), fun h0 => absurd h0 hn⟩
    · intro e he
      exact absurd he (by simp)
    · intro s1 hs1
      injection hs1 with hs1
      subst hs1
      exact ⟨rfl, rfl, rfl, rfl⟩
  · have hle : val ≤ 0 := not_lt.mp h
    simp only [if_neg h]
    refine ⟨⟨?_, ?_, ?_⟩, ⟨?_, ?_, ?_⟩⟩
    · exact ⟨fun _ => hle, fun _ => ⟨s, rfl⟩⟩
    · intro e he
      injection he with he
      exact he.symm
    · intro s1 hs1
      exact absurd hs1 (by simp)
    · exact ⟨fun _ => hle, fun _ => ⟨s, rfl⟩⟩
    · intro e he
      injection he with he
      exact he.symm
    · intro s1 hs1
      exact absurd hs1 (by simp)

end ChemicalState

/-! ## The cap, and the failures of the KKT solver -/

namespace OptimumSolverIpnewton

/-- C26: reaching the iteration cap is reported as a failure even when the tolerance is met:
on the sample problem with `max_iterations = 1` and tolerance `1e6`, `solve` returns after
one iteration with `result.error = 1/4`, within the tolerance, and with
`result.succeeded = false`. -/
theorem cap_reached_reports_failure :
    ∃ r, solve sampleEnv {} sampleProblem sampleState (sampleOptions 1 1000000) = Except.ok r ∧
      r.result.error = 1 / 4 ∧ r.result.error ≤ (sampleOptions 1 1000000).tolerance ∧
      r.result.iterations = (sampleOptions 1 1000000).max_iterations ∧
      r.result.succeeded = false := by
  obtain ⟨r1, hp, herr, hs, hit, hsu, _⟩ := sample_solve 1 1000000 (Or.inr (le_refl 1))
  obtain ⟨_, hfi, hfe, hfs⟩ := finish_result sampleEnv (sampleOptions 1 1000000) r1
  have hre : r1.result.error = 1 / 4 := by
    rw [(pass_post hp).2.2.2.2.2, herr]
  refine ⟨_, hs, by rw [hfe, hre], ?_, by rw [hfi, hit]; rfl, ?_⟩
  · rw [hfe, hre]
    norm_num [sampleOptions]
  · rw [hfs, hit, hsu]
    simp [sampleOptions]

/-- The loop entered with `r0` goes through every run it visits and continues from. -/
theorem iterate_through {env : Env} {problem : OptimumProblem} {options : OptimumOptions}
    {r0 r : Run} (hv : Visited env problem options r0 r) (hc : continues options r) :
    iterate env problem options r0 = iterate env problem options r := by
  induction hv with
  | first h1 =>
    conv_lhs => rw [iterate_eq, h1]
    simp only [if_pos hc]
  | next hv0 hc0 h2 ih =>
    rw [ih hc0]
    conv_lhs => rw [iterate_eq, h2]
    simp only [if_pos hc]

/-- A loop whose first pass raises, raises the same. -/
theorem iterate_of_raise {env : Env} {problem : OptimumProblem} {options : OptimumOptions}
    {r e : Run} (hp : pass env problem options r = Except.error e) :
    iterate env problem options r = Except.error e := by
  rw [iterate_eq, hp]

/-- The calls that a `compute_newton_step` that raises has made: the Hessian and the failed
`decompose`, or these and the failed `solve`. -/
theorem compute_newton_step_raises_calls {env : Env} {problem : OptimumProblem}
    {options : OptimumOptions} {r e : Run}
    (h : compute_newton_step env problem options r = Except.error e) :
    (env.kkt.decompose e.state = none ∧
      e.calls = r.calls ++ [Call.objectiveHessian r.state.x r.state.g,
        Call.kktDecompose e.state]) ∨
    (env.kkt.solve e.state e.impl.a e.impl.b = none ∧
      e.calls = r.calls ++ [Call.objectiveHessian r.state.x r.state.g,
        Call.kktDecompose e.state, Call.kktSolve e.impl.a e.impl.b]) := by
  simp only [compute_newton_step] at h
  split at h
  · rename_i hd
    injection h with h
    subst h
    exact Or.inl ⟨hd, by simp⟩
  · split at h
    · rename_i hs
      injection h with h
      subst h
      exact Or.inr ⟨hs, by simp⟩
    · exact absurd h (by simp)

/-- C24: a failure of `decompose` or of `solve` of the KKT solver in an iteration is what
`solve` raises, after that one attempt; and what `solve` raises is such a failure, with the
`x`, `y`, `z` of the state those of the run with which the failing iteration was entered (the
initial iterate or the iterate of the last completed pass). -/
theorem kkt_failure_propagates (env : Env) (impl : Impl) (problem : OptimumProblem)
    (state : OptimumState) (options : OptimumOptions) :
    (∀ rp e, (rp = start impl problem state options ∨
        (Visited env problem options (start impl problem state options) rp ∧
          continues options rp)) →
      pass env problem options rp = Except.error e →
      solve env impl problem state options = Except.error e) ∧
    (∀ e, solve env impl problem state options = Except.error e →
      KktFailure env e ∧
      ∃ rp, (rp = start impl problem state options ∨
          (Visited env problem options (start impl problem state options) rp ∧
            continues options rp)) ∧
        pass env problem options rp = Except.error e ∧
        e.state.x = rp.state.x ∧ e.state.y = rp.state.y ∧ e.state.z = rp.state.z ∧
        (e.calls = rp.calls ++ [Call.objectiveHessian rp.state.x rp.state.g,
            Call.kktDecompose e.state] ∨
          e.calls = rp.calls ++ [Call.objectiveHessian rp.state.x rp.state.g,
            Call.kktDecompose e.state, Call.kktSolve e.impl.a e.impl.b])) := by
  refine ⟨?_, ?_⟩
  · intro rp e hrp hp
    unfold solve
    rcases hrp with rfl | ⟨hv, hc⟩
    · rw [iterate_of_raise hp]
    · rw [iterate_through hv hc, iterate_of_raise hp]
  · intro e he
    have hk := (solve_raises he).1
    unfold solve at he
    cases hi : iterate env problem options (start impl problem state options) with
    | ok r =>
      rw [hi] at he
      exact absurd he (by simp)
    | error e2 =>
      rw [hi] at he
      injection he with he
      subst he
      have key : ∀ rp, pass env problem options rp = Except.error e2 →
          e2.state.x = rp.state.x ∧ e2.state.y = rp.state.y ∧ e2.state.z = rp.state.z ∧
          (e2.calls = rp.calls ++ [Call.objectiveHessian rp.state.x rp.state.g,
              Call.kktDecompose e2.state] ∨
            e2.calls = rp.calls ++ [Call.objectiveHessian rp.state.x rp.state.g,
              Call.kktDecompose e2.state, Call.kktSolve e2.impl.a e2.impl.b]) := by
        intro rp hp
        obtain ⟨_, _, hx, hy, hz⟩ := pass_raises hp
        refine ⟨hx, hy, hz, ?_⟩
        rcases compute_newton_step_raises_calls (pass_error hp) with ⟨_, h1⟩ | ⟨_, h1⟩
        · exact Or.inl h1
        · exact Or.inr h1
      refine ⟨hk, ?_⟩
      rcases iterate_raises _ _ e2 rfl hi with h1 | ⟨r1, hv, hc, h1⟩
      · exact ⟨_, Or.inl rfl, h1, key _ h1⟩
      · exact ⟨r1, Or.inr ⟨hv, hc⟩, h1, key _ h1⟩

/-- The first pass on the problem with a zero Jacobian: `decompose` fails, and the pass raises
with the initial iterate `x = (1, 1)`, `y = (0)`, `z = (1, 1)` and the counter at one. -/
theorem singular_first_pass (cap : Nat) (tol : ℚ) :
    ∃ e, pass sampleEnv singularProblem (sampleOptions cap tol)
        (start {} singularProblem sampleState (sampleOptions cap tol)) = Except.error e ∧
      e.state.x = [1, 1] ∧ e.state.y = [0] ∧ e.state.z = [1, 1] ∧ e.result.iterations = 1 := by
  simp [pass, compute_newton_step, start, ensure_initial_guess, ensure_feasible,
    ensure_dimensions, update_state, output_header, sampleOptions, sampleState, sampleEnv,
    singularProblem, sampleProblem, kktDiagonal, zeros, ones, smul, vmax, selectPositive, sdiv,
    vadd, ediv, trmul, dot, emul]

/-- The theorem of C24 on the problem with a zero Jacobian: the failure of `decompose` in the
first iteration is raised by `solve`, with the initial iterate untouched. -/
theorem kkt_failure_propagates_witness :
    ∃ e, solve sampleEnv {} singularProblem sampleState (sampleOptions 2 1000000) =
        Except.error e ∧
      e.state.x = [1, 1] ∧ e.state.y = [0] ∧ e.state.z = [1, 1] ∧ e.result.iterations = 1 := by
  obtain ⟨e, hp, hx, hy, hz, hit⟩ := singular_first_pass 2 1000000
  exact ⟨e, (kkt_failure_propagates sampleEnv {} singularProblem sampleState
    (sampleOptions 2 1000000)).1 _ e (Or.inl rfl) hp, hx, hy, hz, hit⟩

/-! ## The sink when the output is not active -/

/-- With the output not active, the loop is entered with the sink as it was. -/
theorem start_quiet (impl : Impl) (problem : OptimumProblem) (state : OptimumState)
    (options : OptimumOptions) (hact : options.output.active = false) :
    (start impl problem state options).impl.outputter = impl.outputter := by
  simp [start, output_header, update_state, hact]

/-- With the output not active, a pass that returns makes no call on the sink. -/
theorem pass_quiet {env : Env} {problem : OptimumProblem} {options : OptimumOptions}
    {rp r1 : Run} (hact : options.output.active = false)
    (h : pass env problem options rp = Except.ok r1) :
    r1.impl.outputter = rp.impl.outputter := by
  obtain ⟨r2, h2, rfl⟩ := pass_ok h
  have hk := (compute_newton_step_ok h2).2.2.2.2.2.2.2.2.2
  have hu := (update_iterates_keeps env options r2).2.1
  have : (output_state options (update_errors options (update_state problem
      (update_iterates env options r2)))).impl = (update_iterates env options r2).impl := by
    simp [output_state, update_errors, update_state, hact]
  rw [this, hu, hk]

/-- With the output not active, no pass of the loop makes a call on the sink. -/
theorem Visited.quiet {env : Env} {problem : OptimumProblem} {options : OptimumOptions}
    {r0 r : Run} (hact : options.output.active = false)
    (hv : Visited env problem options r0 r) : r.impl.outputter = r0.impl.outputter := by
  induction hv with
  | first h1 => exact pass_quiet hact h1
  | next _ _ h2 ih => rw [pass_quiet hact h2, ih]

/-- After the loop, `solve` calls `outputHeader` on the sink, whatever the options are. -/
theorem finish_outputter (env : Env) (options : OptimumOptions) (r : Run) :
    (finish env options r).impl.outputter = r.impl.outputter ++ [OutputCall.outputHeader] := by
  unfold finish
  by_cases h : r.result.iterations < options.max_iterations <;> simp [h]

/-- With the output not active, a `solve` that returns has made exactly one call on the
sink: the `outputHeader` that follows the loop. -/
theorem solve_quiet {env : Env} {impl : Impl} {problem : OptimumProblem}
    {state : OptimumState} {options : OptimumOptions} {r : Run}
    (hact : options.output.active = false)
    (h : solve env impl problem state options = Except.ok r) :
    r.impl.outputter = impl.outputter ++ [OutputCall.outputHeader] := by
  obtain ⟨_, r1, _, rfl, hv⟩ := solve_returns h
  rw [finish_outputter, hv.quiet hact, start_quiet impl problem state options hact]

/-- C30, on the code: on the sample problem with `options.output.active = false` and a sink
that has received nothing, `solve` returns with one call made on the sink, the
`outputHeader` of line 229, which no test of `options.output.active` guards. -/
theorem inactive_output_header_call :
    (sampleOptions 2 1000000).output.active = false ∧
    ∃ r, solve sampleEnv {} sampleProblem sampleState (sampleOptions 2 1000000) = Except.ok r ∧
      r.impl.outputter = [OutputCall.outputHeader] := by
  refine ⟨rfl, ?_⟩
  obtain ⟨r1, _, _, hs, _⟩ := sample_solve 2 1000000 (Or.inl (by norm_num))
  exact ⟨_, hs, solve_quiet rfl hs⟩

/-! ## The calls on the problem and on the KKT solver -/

/-- The three closures that end a pass log the four evaluations at the new `x`, and keep the
time of the linear systems. -/
theorem pass_tail_calls (problem : OptimumProblem) (options : OptimumOptions) (r : Run) :
    (output_state options (update_errors options (update_state problem r))).calls =
      r.calls ++ [Call.objective r.state.x, Call.objectiveGrad r.state.x,
        Call.constraint r.state.x, Call.constraintGrad r.state.x] ∧
    (output_state options (update_errors options
      (update_state problem r))).result.time_linear_systems = r.result.time_linear_systems := by
  unfold output_state update_errors update_state
  split <;> simp

/-- The calls of a pass that returns: the Hessian at the `x` and `g` held before the step,
`decompose` and `solve` of the KKT solver, which report the times `td` and
`sol.time_solve`, then the four evaluations at the new `x`; the time of the linear systems
grows by the two times reported. -/
theorem pass_calls {env : Env} {problem : OptimumProblem} {options : OptimumOptions}
    {rp r1 : Run} (h : pass env problem options rp = Except.ok r1) :
    ∃ S a b td sol, env.kkt.decompose S = some td ∧ env.kkt.solve S a b = some sol ∧
      r1.calls = rp.calls ++ [Call.objectiveHessian rp.state.x rp.state.g,
        Call.kktDecompose S, Call.kktSolve a b, Call.objective r1.state.x,
        Call.objectiveGrad r1.state.x, Call.constraint r1.state.x,
        Call.constraintGrad r1.state.x] ∧
      r1.result.time_linear_systems =
        rp.result.time_linear_systems + sol.time_solve + td := by
  obtain ⟨r2, h2, rfl⟩ := pass_ok h
  obtain ⟨_, _, _, td, sol, hd, hs, _, _, _, ht, hc⟩ := compute_newton_step_returns h2
  obtain ⟨tc, tt⟩ := pass_tail_calls problem options (update_iterates env options r2)
  obtain ⟨hur, _, huc, _⟩ := update_iterates_keeps env options r2
  have hx := (pass_tail problem options (update_iterates env options r2)).1
  simp only [] at hx
  refine ⟨_, _, _, td, sol, hd, hs, ?_, ?_⟩
  · rw [tc, huc, hc, hx]
    simp
  · rw [tt, hur, ht]

/-- The log at the entry of the loop: the four evaluations at the initial `x`; the time of the
linear systems is zero. -/
theorem start_calls (impl : Impl) (problem : OptimumProblem) (state : OptimumState)
    (options : OptimumOptions) :
    (start impl problem state options).calls =
      [Call.objective (start impl problem state options).state.x,
        Call.objectiveGrad (start impl problem state options).state.x,
        Call.constraint (start impl problem state options).state.x,
        Call.constraintGrad (start impl problem state options).state.x] ∧
    (start impl problem state options).result.time_linear_systems = 0 := by
  unfold start output_header update_state
  split <;> simp

/-- What `finish` keeps: the log of the calls and the time of the linear systems. -/
theorem finish_calls (env : Env) (options : OptimumOptions) (r : Run) :
    (finish env options r).calls = r.calls ∧
    (finish env options r).result.time_linear_systems = r.result.time_linear_systems := by
  unfold finish
  by_cases h : r.result.iterations < options.max_iterations <;> simp [h]

/-- The number of calls of a callee during a pass that returns: one. -/
theorem pass_callCount {env : Env} {problem : OptimumProblem} {options : OptimumOptions}
    {rp r1 : Run} (h : pass env problem options rp = Except.ok r1) (k : CallKind) :
    callCount k r1.calls = callCount k rp.calls + 1 := by
  obtain ⟨S, a, b, td, sol, _, _, hc, _⟩ := pass_calls h
  rw [hc]
  cases k <;> simp [callCount, Call.kind, List.countP_append, List.countP_cons]

/-- The number of calls of a callee before the loop: one for each of the four evaluations,
none for the Hessian and the KKT solver. -/
theorem start_callCount (impl : Impl) (problem : OptimumProblem) (state : OptimumState)
    (options : OptimumOptions) (k : CallKind) :
    callCount k (start impl problem state options).calls =
      if k = CallKind.objectiveHessian ∨ k = CallKind.kktDecompose ∨ k = CallKind.kktSolve
      then 0 else 1 := by
  rw [(start_calls impl problem state options).1]
  cases k <;> simp [callCount, Call.kind, List.countP_cons]

/-- The calls of a callee and the iterations grow together along the loop. -/
theorem Visited.callCount {env : Env} {problem : OptimumProblem} {options : OptimumOptions}
    {r0 r : Run} (hv : Visited env problem options r0 r) (k : CallKind) :
    Reaktor.callCount k r.calls + r0.result.iterations =
      Reaktor.callCount k r0.calls + r.result.iterations := by
  induction hv with
  | first h1 =>
    rw [pass_callCount h1 k, (pass_counts h1).1]
    omega
  | next _ _ h2 ih =>
    rw [pass_callCount h2 k, (pass_counts h2).1]
    omega

/-- C29: in every run of `solve` that returns, `objective`, `objectiveGrad`, `constraint` and
`constraintGrad` are each called `result.iterations + 1` times, once before the loop and once
at the end of each pass, at the `x` of that moment (the last four calls are at the returned
`x`), and `objectiveHessian`, `decompose` and `solve` of the KKT solver are each called
`result.iterations` times, once in each pass. -/
theorem solve_call_counts (env : Env) (impl : Impl) (problem : OptimumProblem)
    (state : OptimumState) (options : OptimumOptions) (r : Run)
    (h : solve env impl problem state options = Except.ok r) :
    (callCount CallKind.objective r.calls = r.result.iterations + 1 ∧
      callCount CallKind.objectiveGrad r.calls = r.result.iterations + 1 ∧
      callCount CallKind.constraint r.calls = r.result.iterations + 1 ∧
      callCount CallKind.constraintGrad r.calls = r.result.iterations + 1) ∧
    (callCount CallKind.objectiveHessian r.calls = r.result.iterations ∧
      callCount CallKind.kktDecompose r.calls = r.result.iterations ∧
      callCount CallKind.kktSolve r.calls = r.result.iterations) ∧
    (∃ before, r.calls = before ++ [Call.objective r.state.x, Call.objectiveGrad r.state.x,
      Call.constraint r.state.x, Call.constraintGrad r.state.x]) ∧
    (∀ rp r1, pass env problem options rp = Except.ok r1 →
      ∃ S a b, r1.calls = rp.calls ++ [Call.objectiveHessian rp.state.x rp.state.g,
        Call.kktDecompose S, Call.kktSolve a b, Call.objective r1.state.x,
        Call.objectiveGrad r1.state.x, Call.constraint r1.state.x,
        Call.constraintGrad r1.state.x]) := by
  obtain ⟨rp, r1, hp, rfl, hv⟩ := solve_returns h
  obtain ⟨hst, hit, _, _⟩ := finish_result env options r1
  have hcalls := (finish_calls env options r1).1
  have h0 := (start_counts impl problem state options).1
  have hk : ∀ k, callCount k r1.calls =
      callCount k (start impl problem state options).calls + r1.result.iterations := by
    intro k
    have := hv.callCount k
    rw [h0] at this
    omega
  rw [hcalls, hit, hst]
  refine ⟨⟨?_, ?_, ?_, ?_⟩, ⟨?_, ?_, ?_⟩, ?_, ?_⟩
  · rw [hk, start_callCount]; simp; omega
  · rw [hk, start_callCount]; simp; omega
  · rw [hk, start_callCount]; simp; omega
  · rw [hk, start_callCount]; simp; omega
  · rw [hk, start_callCount]; simp
  · rw [hk, start_callCount]; simp
  · rw [hk, start_callCount]; simp
  · obtain ⟨S, a, b, _, _, _, _, hc, _⟩ := pass_calls hp
    exact ⟨rp.calls ++ [Call.objectiveHessian rp.state.x rp.state.g, Call.kktDecompose S,
      Call.kktSolve a b], by rw [hc]; simp⟩
  · intro rp2 r2 hp2
    obtain ⟨S, a, b, _, _, _, _, hc, _⟩ := pass_calls hp2
    exact ⟨S, a, b, hc⟩

/-- The theorem of C29 at the sample problem: one iteration, two calls of each evaluation
and one call of the Hessian and of each operation of the KKT solver. -/
theorem solve_call_counts_witness :
    ∃ r, solve sampleEnv {} sampleProblem sampleState (sampleOptions 2 1000000) = Except.ok r ∧
      r.result.iterations = 1 ∧
      callCount CallKind.objective r.calls = 2 ∧ callCount CallKind.constraintGrad r.calls = 2 ∧
      callCount CallKind.objectiveHessian r.calls = 1 ∧
      callCount CallKind.kktDecompose r.calls = 1 ∧ callCount CallKind.kktSolve r.calls = 1 := by
  obtain ⟨r1, _, _, hs, hit, _, _⟩ := sample_solve 2 1000000 (Or.inl (by norm_num))
  have hfi : (finish sampleEnv (sampleOptions 2 1000000) r1).result.iterations = 1 := by
    rw [(finish_result sampleEnv (sampleOptions 2 1000000) r1).2.1, hit]
  obtain ⟨⟨h1, _, _, h4⟩, ⟨h5, h6, h7⟩, _⟩ := solve_call_counts sampleEnv {} sampleProblem
    sampleState (sampleOptions 2 1000000) _ hs
  rw [hfi] at h1 h4 h5 h6 h7
  exact ⟨_, hs, hfi, h1, h4, h5, h6, h7⟩

/-! ## The time of the linear systems -/

/-- The sum of the reported times over the log of a pass that returns: the sum over the log
before the pass, and the two times that the KKT solver reports in the pass. -/
theorem pass_kktTime {env : Env} {problem : OptimumProblem} {options : OptimumOptions}
    {rp r1 : Run} (h : pass env problem options rp = Except.ok r1) :
    ∃ S a b td sol, env.kkt.decompose S = some td ∧ env.kkt.solve S a b = some sol ∧
      kktTime env r1.calls = kktTime env rp.calls + td + sol.time_solve ∧
      r1.result.time_linear_systems =
        rp.result.time_linear_systems + sol.time_solve + td := by
  obtain ⟨S, a, b, td, sol, hd, hs, hc, ht⟩ := pass_calls h
  refine ⟨S, a, b, td, sol, hd, hs, ?_, ht⟩
  rw [hc]
  simp [kktTime, List.foldl_append, kktTimeStep, hd, hs]

/-- The time of the linear systems and the sum of the reported times grow together along the
loop. -/
theorem Visited.kktTime {env : Env} {problem : OptimumProblem} {options : OptimumOptions}
    {r0 r : Run} (hv : Visited env problem options r0 r) :
    r.result.time_linear_systems + Reaktor.kktTime env r0.calls =
      r0.result.time_linear_systems + Reaktor.kktTime env r.calls := by
  induction hv with
  | first h1 =>
    obtain ⟨_, _, _, td, sol, _, _, hk, ht⟩ := pass_kktTime h1
    rw [hk, ht]
    ring
  | next _ _ h2 ih =>
    obtain ⟨_, _, _, td, sol, _, _, hk, ht⟩ := pass_kktTime h2
    rw [hk, ht]
    linarith

/-- C25: whenever `solve` returns, `result.time_linear_systems` is the sum, over the KKT calls
of the run, of the times that the KKT solver reports for them: each of the
`result.iterations` passes calls `decompose` and `solve` once and adds the decompose time
and the solve time reported in that pass. -/
theorem solve_time_linear_systems (env : Env) (impl : Impl) (problem : OptimumProblem)
    (state : OptimumState) (options : OptimumOptions) (r : Run)
    (h : solve env impl problem state options = Except.ok r) :
    r.result.time_linear_systems = kktTime env r.calls ∧
    callCount CallKind.kktDecompose r.calls = r.result.iterations ∧
    callCount CallKind.kktSolve r.calls = r.result.iterations ∧
    (start impl problem state options).result.time_linear_systems = 0 ∧
    (∀ rp r1, pass env problem options rp = Except.ok r1 →
      ∃ S a b td sol, env.kkt.decompose S = some td ∧ env.kkt.solve S a b = some sol ∧
        Call.kktDecompose S ∈ r1.calls ∧ Call.kktSolve a b ∈ r1.calls ∧
        r1.result.time_linear_systems =
          rp.result.time_linear_systems + sol.time_solve + td) := by
  obtain ⟨rp, r1, hp, rfl, hv⟩ := solve_returns h
  obtain ⟨hcalls, htls⟩ := finish_calls env options r1
  obtain ⟨hsc, hst⟩ := start_calls impl problem state options
  have hit := (finish_result env options r1).2.1
  have h0 := (start_counts impl problem state options).1
  have hk0 : kktTime env (start impl problem state options).calls = 0 := by
    rw [hsc]
    simp [kktTime, kktTimeStep]
  have hsum := hv.kktTime
  rw [hk0, hst] at hsum
  have hcount : ∀ k, callCount k r1.calls =
      callCount k (start impl problem state options).calls + r1.result.iterations := by
    intro k
    have := hv.callCount k
    rw [h0] at this
    omega
  rw [hcalls, htls, hit]
  refine ⟨by linarith, ?_, ?_, hst, ?_⟩
  · rw [hcount, start_callCount]; simp
  · rw [hcount, start_callCount]; simp
  · intro rp2 r2 hp2
    obtain ⟨S, a, b, td, sol, hd, hs, hc, ht⟩ := pass_calls hp2
    exact ⟨S, a, b, td, sol, hd, hs, by rw [hc]; simp, by rw [hc]; simp, ht⟩

/-- The first pass on the sample problem with the KKT solver that reports times: the time of
the linear systems is `2 + 3`. -/
theorem timed_first_pass (cap : Nat) (tol : ℚ) :
    ∃ r1, pass timedEnv sampleProblem (sampleOptions cap tol)
        (start {} sampleProblem sampleState (sampleOptions cap tol)) = Except.ok r1 ∧
      r1.error = 1 / 4 ∧ r1.result.iterations = 1 ∧ r1.result.time_linear_systems = 5 := by
  simp [pass, compute_newton_step, start, ensure_initial_guess, ensure_feasible,
    ensure_dimensions, update_state, output_header, sampleOptions, sampleState, timedEnv,
    sampleProblem, kktDiagonal, zeros, ones, smul, vmax, selectPositive, sdiv, vadd, ediv,
    trmul, dot, emul, vneg, vsub, ssub, update_iterates, update_errors, output_state,
    fractionToTheBoundary, norminf, vsubs]
  norm_num [List.replicate]

/-- The theorem of C25 at the sample problem with the KKT solver that reports times: one
iteration, and a time of the linear systems of `5`, the sum over the log. -/
theorem solve_time_linear_systems_witness :
    ∃ r, solve timedEnv {} sampleProblem sampleState (sampleOptions 2 1000000) = Except.ok r ∧
      r.result.iterations = 1 ∧ r.result.time_linear_systems = 5 ∧
      kktTime timedEnv r.calls = 5 := by
  obtain ⟨r1, hp, herr, hit, ht⟩ := timed_first_pass 2 1000000
  have hc : ¬ continues (sampleOptions 2 1000000) r1 := by
    rintro ⟨h1, _⟩
    rw [herr] at h1
    norm_num [sampleOptions] at h1
  have hs := solve_of_first_pass hp hc
  have h := (solve_time_linear_systems timedEnv {} sampleProblem sampleState
    (sampleOptions 2 1000000) _ hs).1
  have hf : (finish timedEnv (sampleOptions 2 1000000) r1).result.time_linear_systems = 5 := by
    rw [(finish_calls timedEnv (sampleOptions 2 1000000) r1).2, ht]
  refine ⟨_, hs, by rw [(finish_result timedEnv (sampleOptions 2 1000000) r1).2.1, hit], hf, ?_⟩
  rw [← h, hf]

/-! ## The output options and the numerics -/

/-- Two runs that agree but for the log of the sink: one is the other with another log. -/
theorem eq_of_stripOutput {r r1 : Run} (h : stripOutput r = stripOutput r1) :
    r1 = { r with impl := { r.impl with outputter := r1.impl.outputter } } := by
  obtain ⟨st, res, ⟨dx, dy, dz, a, b, out⟩, ax, az, al, ef, eh, ec, er, cs⟩ := r
  obtain ⟨st1, res1, ⟨dx1, dy1, dz1, a1, b1, out1⟩, ax1, az1, al1, ef1, eh1, ec1, er1, cs1⟩ := r1
  simp only [stripOutput, Run.mk.injEq, Impl.mk.injEq] at h
  obtain ⟨h1, h2, ⟨h3, h4, h5, h6, h7, _⟩, h8, h9, h10, h11, h12, h13, h14, h15⟩ := h
  subst h1 h2 h3 h4 h5 h6 h7 h8 h9 h10 h11 h12 h13 h14 h15
  rfl

/-- A pass does not read the log of the sink nor, but to write on the sink, the output
options. -/
theorem pass_strip (env : Env) (problem : OptimumProblem) (options : OptimumOptions)
    (output : OutputOptions) {r r1 : Run} (h : stripOutput r = stripOutput r1) :
    stripOutcome (pass env problem options r) =
      stripOutcome (pass env problem { options with output := output } r1) := by
  rw [eq_of_stripOutput h]
  generalize r1.impl.outputter = log
  simp only [pass, compute_newton_step]
  cases hd : env.kkt.decompose
      { r.state with H := problem.objectiveHessian r.state.x r.state.g } with
  | none => simp [stripOutcome, stripOutput]
  | some td =>
    simp only []
    cases hs : env.kkt.solve
        { r.state with H := problem.objectiveHessian r.state.x r.state.g }
        (vneg (vsub (vsub r.state.g (trmul r.state.A r.state.y))
          (sdiv options.ipnewton.mu r.state.x))) (vneg r.state.h) with
    | none => simp [stripOutcome, stripOutput]
    | some sol =>
      simp only [stripOutcome, stripOutput, output_state, update_errors, update_state,
        update_iterates]
      by_cases hu : options.ipnewton.uniform_newton_step = true <;>
      by_cases ha : options.output.active = true <;>
      by_cases hb : output.active = true <;> simp [hu, ha, hb]

/-- Two outcomes that agree but for the log of the sink are two returns or two raises. -/
theorem stripOutcome_cases {u v : Except Run Run} (h : stripOutcome u = stripOutcome v) :
    (∃ r r1, u = Except.ok r ∧ v = Except.ok r1 ∧ stripOutput r = stripOutput r1) ∨
    (∃ e e1, u = Except.error e ∧ v = Except.error e1 ∧ stripOutput e = stripOutput e1) := by
  cases u with
  | ok r =>
    cases v with
    | ok r1 =>
      simp only [stripOutcome, Except.ok.injEq] at h
      exact Or.inl ⟨r, r1, rfl, rfl, h⟩
    | error e1 => simp [stripOutcome] at h
  | error e =>
    cases v with
    | ok r1 => simp [stripOutcome] at h
    | error e1 =>
      simp only [stripOutcome, Except.error.injEq] at h
      exact Or.inr ⟨e, e1, rfl, rfl, h⟩

/-- The condition of the loop does not read the sink nor the output options. -/
theorem continues_strip (options : OptimumOptions) (output : OutputOptions) {r r1 : Run}
    (h : stripOutput r = stripOutput r1) :
    continues options r ↔ continues { options with output := output } r1 := by
  rw [eq_of_stripOutput h]
  rfl

/-- The loop does not read the log of the sink nor, but to write on the sink, the output
options. -/
theorem iterate_strip (env : Env) (problem : OptimumProblem) (options : OptimumOptions)
    (output : OutputOptions) :
    ∀ (k : Nat) (r r1 : Run), options.max_iterations - r.result.iterations = k →
      stripOutput r = stripOutput r1 →
      stripOutcome (iterate env problem options r) =
        stripOutcome (iterate env problem { options with output := output } r1) := by
  intro k
  induction k using Nat.strong_induction_on with
  | _ k ih =>
    intro r r1 hk h
    rw [iterate_eq env problem options r, iterate_eq env problem _ r1]
    rcases stripOutcome_cases (pass_strip env problem options output h) with
      ⟨r2, r3, h2, h3, h23⟩ | ⟨e2, e3, h2, h3, h23⟩
    · rw [h2, h3]
      simp only []
      by_cases hc : continues options r2
      · rw [if_pos hc, if_pos ((continues_strip options output h23).mp hc)]
        have hit := (pass_counts h2).1
        have hlt := hc.2
        exact ih (options.max_iterations - r2.result.iterations) (by omega) r2 r3 rfl h23
      · rw [if_neg hc, if_neg (fun hc3 => hc ((continues_strip options output h23).mpr hc3))]
        simp only [stripOutcome, h23]
    · rw [h2, h3]
      simp only [stripOutcome, h23]

/-- The run with which the loop is entered, but for the log of the sink, does not depend on
the output options. -/
theorem start_strip (impl : Impl) (problem : OptimumProblem) (state : OptimumState)
    (options : OptimumOptions) (output : OutputOptions) :
    stripOutput (start impl problem state options) =
      stripOutput (start impl problem state { options with output := output }) := by
  simp only [start, output_header, stripOutput, ensure_initial_guess, ensure_feasible]
  by_cases ha : options.output.active = true <;>
  by_cases hb : output.active = true <;> simp [ha, hb]

/-- What follows the loop, but for the log of the sink, does not depend on the output
options. -/
theorem finish_strip (env : Env) (options : OptimumOptions) (output : OutputOptions)
    {r r1 : Run} (h : stripOutput r = stripOutput r1) :
    stripOutput (finish env options r) =
      stripOutput (finish env { options with output := output } r1) := by
  rw [eq_of_stripOutput h]
  simp only [finish, stripOutput]
  by_cases hc : r.result.iterations < options.max_iterations <;> simp [hc]

/-- The outcome of `solve`, but for the log of the sink, does not depend on the output
options. -/
theorem solve_strip (env : Env) (impl : Impl) (problem : OptimumProblem)
    (state : OptimumState) (options : OptimumOptions) (output : OutputOptions) :
    stripOutcome (solve env impl problem state options) =
      stripOutcome (solve env impl problem state { options with output := output }) := by
  unfold solve
  rcases stripOutcome_cases (iterate_strip env problem options output _ _ _ rfl
      (start_strip impl problem state options output)) with
    ⟨r2, r3, h2, h3, h23⟩ | ⟨e2, e3, h2, h3, h23⟩
  · rw [h2, h3]
    simp only [stripOutcome, finish_strip env options output h23]
  · rw [h2, h3]
    simp only [stripOutcome, h23]

/-- C21: two runs of `solve` that differ only in `options.output` end alike: when one
returns, the other returns the same state (`x`, `y`, `z`, `f`, `g`, `H`, `h`, `A`) and the
same result, so the same `iterations`, `error` and `succeeded`; when one raises, the other
raises, with the same state. -/
theorem solve_output_independent (env : Env) (impl : Impl) (problem : OptimumProblem)
    (state : OptimumState) (options : OptimumOptions) (output : OutputOptions) :
    (∀ r, solve env impl problem state options = Except.ok r →
      ∃ r1, solve env impl problem state { options with output := output } = Except.ok r1 ∧
        r1.state = r.state ∧ r1.result.iterations = r.result.iterations ∧
        r1.result.error = r.result.error ∧ r1.result.succeeded = r.result.succeeded ∧
        r1.result = r.result) ∧
    (∀ e, solve env impl problem state options = Except.error e →
      ∃ e1, solve env impl problem state { options with output := output } = Except.error e1 ∧
        e1.state = e.state) := by
  have key := solve_strip env impl problem state options output
  refine ⟨?_, ?_⟩
  · intro r hr
    rcases stripOutcome_cases key with ⟨r2, r3, h2, h3, h23⟩ | ⟨e2, e3, h2, h3, h23⟩
    · rw [hr] at h2
      injection h2 with h2
      subst h2
      have hs : r3.state = r.state := (congrArg Run.state h23).symm
      have hres : r3.result = r.result := (congrArg Run.result h23).symm
      exact ⟨r3, h3, hs, by rw [hres], by rw [hres], by rw [hres], hres⟩
    · rw [hr] at h2
      exact absurd h2 (by simp)
  · intro e he
    rcases stripOutcome_cases key with ⟨r2, r3, h2, h3, h23⟩ | ⟨e2, e3, h2, h3, h23⟩
    · rw [he] at h2
      exact absurd h2 (by simp)
    · rw [he] at h2
      injection h2 with h2
      subst h2
      exact ⟨e3, h3, (congrArg Run.state h23).symm⟩

/-! ## The end-to-end scenario -/

/-- A pass returns when the KKT solver answers, and moves the iterate by the step of the
answer, with the lengths of the step-length rule. -/
theorem pass_of_kkt {env : Env} {problem : OptimumProblem} {options : OptimumOptions}
    {r : Run} {td : ℚ} {sol : KktSolution}
    (hd : env.kkt.decompose
      { r.state with H := problem.objectiveHessian r.state.x r.state.g } = some td)
    (hs : env.kkt.solve { r.state with H := problem.objectiveHessian r.state.x r.state.g }
      (vneg (vsub (vsub r.state.g (trmul r.state.A r.state.y))
        (sdiv options.ipnewton.mu r.state.x))) (vneg r.state.h) = some sol) :
    ∃ r1, pass env problem options r = Except.ok r1 ∧
      r1.alphax = env.fractionToTheBoundary r.state.x sol.dx options.ipnewton.tau ∧
      r1.alphaz = env.fractionToTheBoundary r.state.z
        (vsub (ediv (ssub options.ipnewton.mu (emul r.state.z sol.dx)) r.state.x) r.state.z)
        options.ipnewton.tau ∧
      r1.state.x = vadd r.state.x (smul (min r1.alphax r1.alphaz) sol.dx) ∧
      r1.state.y = (if options.ipnewton.uniform_newton_step then
        vadd r.state.y (smul (min r1.alphax r1.alphaz) sol.dy) else vadd r.state.y sol.dy) ∧
      r1.state.z = vadd r.state.z (smul (if options.ipnewton.uniform_newton_step then
          min r1.alphax r1.alphaz else r1.alphaz)
        (vsub (ediv (ssub options.ipnewton.mu (emul r.state.z sol.dx)) r.state.x)
          r.state.z)) := by
  simp only [pass, compute_newton_step, hd, hs]
  refine ⟨_, rfl, ?_⟩
  simp only [output_state, update_errors, update_state, update_iterates]
  by_cases hu : options.ipnewton.uniform_newton_step = true <;>
  by_cases ha : options.output.active = true <;> simp [hu, ha]

/-- The sample KKT solver on a symmetric state of the sample problem. -/
theorem kktDiagonal_symmetric {S : OptimumState} {xv zv a0 b0 : ℚ} {a b : Vector}
    (hx : S.x = [xv, xv]) (hz : S.z = [zv, zv])
    (hH : S.H = { mode := HessianMode.Diagonal, diagonal := [2, 2] })
    (hA : S.A = [[1], [1]]) (hD : 2 + zv / xv ≠ 0) (ha : a = [a0, a0]) (hb : b = [b0]) :
    kktDiagonal.decompose S = some 0 ∧
    kktDiagonal.solve S a b = some
      { dx := [b0 / 2, b0 / 2], dy := [(b0 * (2 + zv / xv) - 2 * a0) / 2], time_solve := 0 } := by
  subst ha hb
  constructor
  · simp [kktDiagonal, hx, hz, hH, hA, vadd, ediv, trmul, dot, hD]
  · simp only [kktDiagonal, hx, hz, hH, hA, vadd, ediv, trmul, dot, smul]
    simp only [List.zipWith_cons_cons, List.zipWith_nil_right, List.map_cons, List.map_nil,
      List.sum_cons, List.sum_nil, List.headD_cons, mul_one, add_zero, Option.some.injEq,
      KktSolution.mk.injEq, List.cons.injEq, and_true, one_mul, one_div]
    refine ⟨⟨?_, ?_⟩, ?_⟩ <;> field_simp <;> ring

/-- The state with which the loop is entered on the sample problem from `x = (1, 1)`, for any
options whose floor `mux*mu` is at most one. -/
theorem scenario_start (impl : Impl) (o : OptimumOptions)
    (hmux : o.ipnewton.mux * o.ipnewton.mu ≤ 1) :
    (start impl sampleProblem sampleState o).state =
      { x := [1, 1], y := [0], z := [o.ipnewton.mu, o.ipnewton.mu], f := 2, g := [2, 2],
        h := [1], A := [[1], [1]] } := by
  have h1 : max (1 : ℚ) (o.ipnewton.mux * o.ipnewton.mu) = 1 := max_eq_left hmux
  simp only [start, ensure_initial_guess, ensure_feasible, ensure_dimensions, update_state,
    output_header]
  split <;>
  · simp [sampleState, sampleProblem, zeros, ones, smul, vmax, selectPositive, sdiv, emul,
      List.replicate, h1]
    norm_num

/-- The step-length rule allows the full step of a vector of two equal coefficients when
the step does not decrease them, or decreases them by at most `τ` times their value. -/
theorem fractionToTheBoundary_pair {v d tau : ℚ} (h : 0 ≤ d ∨ (0 < v ∧ -d ≤ tau * v)) :
    fractionToTheBoundary [v, v] [d, d] tau = 1 := by
  simp only [fractionToTheBoundary, List.zipWith_cons_cons, List.zipWith_nil_right,
    List.foldr_cons, List.foldr_nil]
  by_cases hd : d < 0
  · rcases h with h | ⟨hv, h⟩
    · exact absurd hd (not_lt.mpr h)
    · simp only [if_pos hd]
      have hb : 1 ≤ -tau * v / d := by
        rw [le_div_iff_of_neg hd]
        linarith
      rw [min_eq_right hb, min_eq_right hb]
  · simp [if_neg hd]

/-- A pass of the solver on the sample problem, from a symmetric iterate `x = (xv, xv)`,
`y = (yv)`, `z = (zv, zv)` whose full Newton step is allowed: the new iterate has
`x = (1/2, 1/2)` and `z = (z1, z1)` with `z1 = (mu - zv (1/2 - xv)) / xv`, and the error is
`|z1 / 2 - mu|`. -/
theorem symmetric_pass {options : OptimumOptions} {r : Run} {xv yv zv : ℚ}
    (hx : r.state.x = [xv, xv]) (hy : r.state.y = [yv]) (hz : r.state.z = [zv, zv])
    (hg : r.state.g = [2 * xv, 2 * xv]) (hh : r.state.h = [xv + xv - 1])
    (hA : r.state.A = [[1], [1]]) (hxv : 0 < xv) (hzv : 0 < zv)
    (hdx : 0 ≤ 1 / 2 - xv ∨ -(1 / 2 - xv) ≤ options.ipnewton.tau * xv)
    (hdz : 0 ≤ (options.ipnewton.mu - zv * (1 / 2 - xv)) / xv - zv ∨
      -((options.ipnewton.mu - zv * (1 / 2 - xv)) / xv - zv) ≤ options.ipnewton.tau * zv) :
    ∃ r1 yv1, pass sampleEnv sampleProblem options r = Except.ok r1 ∧
      r1.state.x = [1 / 2, 1 / 2] ∧ r1.state.y = [yv1] ∧
      r1.state.z = [(options.ipnewton.mu - zv * (1 / 2 - xv)) / xv,
        (options.ipnewton.mu - zv * (1 / 2 - xv)) / xv] ∧
      r1.error = |(options.ipnewton.mu - zv * (1 / 2 - xv)) / xv / 2 - options.ipnewton.mu| := by
  have hD : 2 + zv / xv ≠ 0 := by
    have : 0 < zv / xv := div_pos hzv hxv
    linarith
  have hb : vneg r.state.h = [-(xv + xv - 1)] := by simp [hh, vneg]
  have ha : vneg (vsub (vsub r.state.g (trmul r.state.A r.state.y))
      (sdiv options.ipnewton.mu r.state.x)) =
      [-(2 * xv - yv - options.ipnewton.mu / xv), -(2 * xv - yv - options.ipnewton.mu / xv)] := by
    simp [hg, hA, hy, hx, vneg, vsub, trmul, dot, sdiv]
  obtain ⟨hdec, hsol⟩ := @kktDiagonal_symmetric
    { r.state with H := sampleProblem.objectiveHessian r.state.x r.state.g } xv zv _ _ _ _
    hx hz (by simp [sampleProblem, hx]) hA hD ha hb
  obtain ⟨r1, hp, hax, haz, hx1, hy1, hz1⟩ := @pass_of_kkt sampleEnv sampleProblem options r _ _
    hdec hsol
  have hdxv : -(xv + xv - 1) / 2 = 1 / 2 - xv := by ring
  simp only [hdxv] at hax haz hx1 hy1 hz1
  have hdzl : vsub (ediv (ssub options.ipnewton.mu (emul r.state.z [1 / 2 - xv, 1 / 2 - xv]))
      r.state.x) r.state.z =
      [(options.ipnewton.mu - zv * (1 / 2 - xv)) / xv - zv,
        (options.ipnewton.mu - zv * (1 / 2 - xv)) / xv - zv] := by
    simp [hx, hz, vsub, ediv, ssub, emul]
  rw [hdzl] at haz hz1
  have hax1 : r1.alphax = 1 := by
    rw [hax, hx]
    exact fractionToTheBoundary_pair (hdx.imp id (fun h => ⟨hxv, h⟩))
  have haz1 : r1.alphaz = 1 := by
    rw [haz, hz]
    exact fractionToTheBoundary_pair (hdz.imp id (fun h => ⟨hzv, h⟩))
  have hx2 : r1.state.x = [1 / 2, 1 / 2] := by
    rw [hx1, hax1, haz1, hx]
    simp [vadd, smul]
  have hz2 : r1.state.z = [(options.ipnewton.mu - zv * (1 / 2 - xv)) / xv,
      (options.ipnewton.mu - zv * (1 / 2 - xv)) / xv] := by
    rw [hz1, hax1, haz1, hz]
    simp [vadd, smul]
  have hy2 : r1.state.y = [yv + (-(xv + xv - 1) * (2 + zv / xv) -
      2 * -(2 * xv - yv - options.ipnewton.mu / xv)) / 2] := by
    rw [hy1, hax1, haz1, hy]
    simp [vadd, smul]
  obtain ⟨⟨_, hg1, hh1, hA1⟩, hef, heh, hec, herr, _⟩ := pass_post hp
  rw [hx2] at hg1 hh1 hA1
  refine ⟨r1, _, hp, hx2, hy2, hz2, ?_⟩
  have hef0 : r1.errorf = 0 := by
    rw [hef, hg1, hA1, hy2, hz2]
    simp only [sampleProblem, smul, vsub, trmul, dot, norminf, List.map_cons, List.map_nil,
      List.zipWith_cons_cons, List.zipWith_nil_right, List.sum_cons, List.sum_nil,
      List.foldr_cons, List.foldr_nil]
    have : (2 : ℚ) * (1 / 2) - (1 * (yv + (-(xv + xv - 1) * (2 + zv / xv) -
        2 * -(2 * xv - yv - options.ipnewton.mu / xv)) / 2) + 0) -
        (options.ipnewton.mu - zv * (1 / 2 - xv)) / xv = 0 := by
      field_simp
      ring
    rw [this]
    simp
  have heh0 : r1.errorh = 0 := by
    rw [heh, hh1]
    norm_num [sampleProblem, norminf]
  have hec0 : r1.errorc =
      |(options.ipnewton.mu - zv * (1 / 2 - xv)) / xv / 2 - options.ipnewton.mu| := by
    rw [hec, hx2, hz2]
    simp only [vsubs, emul, norminf, List.map_cons, List.map_nil,
      List.zipWith_cons_cons, List.zipWith_nil_right, List.foldr_cons, List.foldr_nil]
    have : (1 : ℚ) / 2 * ((options.ipnewton.mu - zv * (1 / 2 - xv)) / xv) =
        (options.ipnewton.mu - zv * (1 / 2 - xv)) / xv / 2 := by ring
    rw [this]
    simp
  rw [herr, hef0, heh0, hec0]
  simp

/-- The evaluations of the sample problem at `x = (1/2, 1/2)`, in the form in which the
symmetric pass takes them. -/
theorem sample_evaluations_half {st : OptimumState} (hx : st.x = [1 / 2, 1 / 2])
    (hg : st.g = sampleProblem.objectiveGrad st.x) (hh : st.h = sampleProblem.constraint st.x)
    (hA : st.A = sampleProblem.constraintGrad st.x) :
    st.g = [2 * (1 / 2), 2 * (1 / 2)] ∧ st.h = [1 / 2 + 1 / 2 - 1] ∧ st.A = [[1], [1]] := by
  rw [hx] at hg hh hA
  refine ⟨?_, ?_, ?_⟩
  · rw [hg]; simp [sampleProblem, smul]
  · rw [hh]; norm_num [sampleProblem]
  · rw [hA]; simp [sampleProblem]

/-- The first pass of the scenario, from the cold start at `x = (1, 1)`: the iterate lands on
`x = (1/2, 1/2)` and `z = (3mu/2, 3mu/2)`, with error `mu/4`. -/
theorem scenario_first_pass (impl : Impl) (options : OptimumOptions)
    (hmu : 0 < options.ipnewton.mu) (hmux : options.ipnewton.mux * options.ipnewton.mu ≤ 1)
    (htau : 1 / 2 ≤ options.ipnewton.tau) :
    ∃ r1 yv, pass sampleEnv sampleProblem options
        (start impl sampleProblem sampleState options) = Except.ok r1 ∧
      r1.state.x = [1 / 2, 1 / 2] ∧ r1.state.y = [yv] ∧
      r1.state.z = [3 / 2 * options.ipnewton.mu, 3 / 2 * options.ipnewton.mu] ∧
      r1.error = options.ipnewton.mu / 4 := by
  have hst := scenario_start impl options hmux
  obtain ⟨r1, yv1, hp, hx1, hy1, hz1, he1⟩ := @symmetric_pass options
    (start impl sampleProblem sampleState options) 1 0 options.ipnewton.mu
    (by rw [hst]) (by rw [hst]) (by rw [hst]) (by rw [hst]; norm_num) (by rw [hst]; norm_num)
    (by rw [hst]) one_pos hmu (Or.inr (by linarith))
    (Or.inl (by
      have : (options.ipnewton.mu - options.ipnewton.mu * (1 / 2 - 1)) / 1 -
          options.ipnewton.mu = options.ipnewton.mu / 2 := by ring
      rw [this]
      linarith))
  have hzv : (options.ipnewton.mu - options.ipnewton.mu * (1 / 2 - 1)) / 1 =
      3 / 2 * options.ipnewton.mu := by ring
  rw [hzv] at hz1 he1
  refine ⟨r1, yv1, hp, hx1, hy1, hz1, ?_⟩
  rw [he1]
  have : 3 / 2 * options.ipnewton.mu / 2 - options.ipnewton.mu = -(options.ipnewton.mu / 4) := by
    ring
  rw [this, abs_neg, abs_of_pos (by linarith)]

/-- A pass of the scenario from `x = (1/2, 1/2)` and a positive `z = (zv, zv)` with
`zv ≤ 2mu`: the iterate stays at `x = (1/2, 1/2)`, `z` becomes `(2mu, 2mu)` and the error is
zero. -/
theorem scenario_centred_pass {options : OptimumOptions} {r : Run} {yv zv : ℚ}
    (hx : r.state.x = [1 / 2, 1 / 2]) (hy : r.state.y = [yv]) (hz : r.state.z = [zv, zv])
    (hg : r.state.g = sampleProblem.objectiveGrad r.state.x)
    (hh : r.state.h = sampleProblem.constraint r.state.x)
    (hA : r.state.A = sampleProblem.constraintGrad r.state.x)
    (hzv : 0 < zv) (hzm : zv ≤ 2 * options.ipnewton.mu) :
    ∃ r1 yv1, pass sampleEnv sampleProblem options r = Except.ok r1 ∧
      r1.state.x = [1 / 2, 1 / 2] ∧ r1.state.y = [yv1] ∧
      r1.state.z = [2 * options.ipnewton.mu, 2 * options.ipnewton.mu] ∧ r1.error = 0 := by
  obtain ⟨hg2, hh2, hA2⟩ := sample_evaluations_half hx hg hh hA
  have hdz : (options.ipnewton.mu - zv * (1 / 2 - 1 / 2)) / (1 / 2) =
      2 * options.ipnewton.mu := by ring
  obtain ⟨r1, yv1, hp, hx1, hy1, hz1, he1⟩ := @symmetric_pass options r (1 / 2) yv zv
    hx hy hz hg2 hh2 hA2 (by norm_num) hzv (Or.inl (by norm_num))
    (Or.inl (by rw [hdz]; linarith))
  rw [hdz] at hz1 he1
  refine ⟨r1, yv1, hp, hx1, hy1, hz1, ?_⟩
  rw [he1]
  have : 2 * options.ipnewton.mu / 2 - options.ipnewton.mu = 0 := by ring
  rw [this, abs_zero]

/-- When the loop continues after its first pass and stops after its second, `solve` returns
`finish` of the run of the second pass. -/
theorem solve_of_second_pass {env : Env} {impl : Impl} {problem : OptimumProblem}
    {state : OptimumState} {options : OptimumOptions} {r1 r2 : Run}
    (hp1 : pass env problem options (start impl problem state options) = Except.ok r1)
    (hc1 : continues options r1) (hp2 : pass env problem options r1 = Except.ok r2)
    (hc2 : ¬ continues options r2) :
    solve env impl problem state options = Except.ok (finish env options r2) := by
  unfold solve
  rw [iterate_eq, hp1]
  simp only [if_pos hc1]
  rw [iterate_eq, hp2]
  simp only [if_neg hc2]

/-- The cold start of the scenario: `solve` returns with `succeeded = true` and
`x = (1/2, 1/2)`, after one iteration when `mu/4` is within the tolerance and after two
otherwise; the returned `z` is `(zv, zv)` with `0 < zv ≤ 2mu`. -/
theorem scenario_cold (impl : Impl) (options : OptimumOptions)
    (hmu : 0 < options.ipnewton.mu) (hmux : options.ipnewton.mux * options.ipnewton.mu ≤ 1)
    (htau : 1 / 2 ≤ options.ipnewton.tau) (htol : 0 ≤ options.tolerance)
    (hcap : 3 ≤ options.max_iterations) :
    ∃ r yv zv, solve sampleEnv impl sampleProblem sampleState options = Except.ok r ∧
      r.result.succeeded = true ∧
      r.result.iterations = (if options.ipnewton.mu / 4 ≤ options.tolerance then 1 else 2) ∧
      r.state.x = [1 / 2, 1 / 2] ∧ r.state.y = [yv] ∧ r.state.z = [zv, zv] ∧
      0 < zv ∧ zv ≤ 2 * options.ipnewton.mu ∧ r.result.error ≤ options.tolerance := by
  obtain ⟨r1, yv1, hp1, hx1, hy1, hz1, he1⟩ := scenario_first_pass impl options hmu hmux htau
  have hit1 : r1.result.iterations = 1 := by
    rw [(pass_counts hp1).1, (start_counts impl sampleProblem sampleState options).1]
  have hsu1 : r1.result.succeeded = false := by
    rw [(pass_counts hp1).2, (start_counts impl sampleProblem sampleState options).2.1]
  by_cases hsmall : options.ipnewton.mu / 4 ≤ options.tolerance
  · have hc : ¬ continues options r1 := by
      rintro ⟨h1, _⟩
      rw [he1] at h1
      exact absurd hsmall (not_le.mpr h1)
    obtain ⟨hfs, hfi, hfe, hfsu⟩ := finish_result sampleEnv options r1
    refine ⟨_, yv1, 3 / 2 * options.ipnewton.mu, solve_of_first_pass hp1 hc, ?_, ?_,
      by rw [hfs, hx1], by rw [hfs, hy1], by rw [hfs, hz1], by linarith, by linarith, ?_⟩
    · rw [hfsu, hit1, hsu1]
      have : (1 : Nat) < options.max_iterations := by omega
      simp [this]
    · rw [hfi, hit1, if_pos hsmall]
    · rw [hfe, (pass_post hp1).2.2.2.2.2, he1]
      exact hsmall
  · have hc1 : continues options r1 := by
      refine ⟨?_, by rw [hit1]; omega⟩
      rw [he1]
      exact lt_of_not_ge hsmall
    obtain ⟨⟨_, hg1, hh1, hA1⟩, _⟩ := pass_post hp1
    obtain ⟨r2, yv2, hp2, hx2, hy2, hz2, he2⟩ := @scenario_centred_pass options r1 yv1
      (3 / 2 * options.ipnewton.mu) hx1 hy1 hz1 hg1 hh1 hA1 (by linarith) (by linarith)
    have hc2 : ¬ continues options r2 := by
      rintro ⟨h1, _⟩
      rw [he2] at h1
      exact absurd htol (not_le.mpr h1)
    have hit2 : r2.result.iterations = 2 := by rw [(pass_counts hp2).1, hit1]
    have hsu2 : r2.result.succeeded = false := by rw [(pass_counts hp2).2, hsu1]
    obtain ⟨hfs, hfi, hfe, hfsu⟩ := finish_result sampleEnv options r2
    refine ⟨_, yv2, 2 * options.ipnewton.mu, solve_of_second_pass hp1 hc1 hp2 hc2, ?_, ?_,
      by rw [hfs, hx2], by rw [hfs, hy2], by rw [hfs, hz2], by linarith, le_refl _, ?_⟩
    · rw [hfsu, hit2, hsu2]
      have : (2 : Nat) < options.max_iterations := by omega
      simp [this]
    · rw [hfi, hit2, if_neg hsmall]
    · rw [hfe, (pass_post hp2).2.2.2.2.2, he2]
      exact htol

/-- C22: on the problem `minimise x1² + x2²` subject to `x1 + x2 = 1`, from `x = (1, 1)` and
with the exact KKT solver, for every tolerance `≥ 0` (so for `1e-8`), every `mu > 0` with
`mux*mu ≤ 1`, every `tau ≥ 1/2`, both step policies and a cap of at least three iterations,
`solve` returns with `succeeded = true` after at most two iterations, fewer than 20, at
`x = (1/2, 1/2)`, so within the tolerance of `(0.5, 0.5)`, and with an error within the
tolerance. -/
theorem scenario_converges (impl : Impl) (options : OptimumOptions)
    (hmu : 0 < options.ipnewton.mu) (hmux : options.ipnewton.mux * options.ipnewton.mu ≤ 1)
    (htau : 1 / 2 ≤ options.ipnewton.tau) (htol : 0 ≤ options.tolerance)
    (hcap : 3 ≤ options.max_iterations) :
    ∃ r, solve sampleEnv impl sampleProblem sampleState options = Except.ok r ∧
      r.result.succeeded = true ∧ r.result.iterations ≤ 2 ∧ r.result.iterations < 20 ∧
      r.state.x = [1 / 2, 1 / 2] ∧ (∀ c ∈ r.state.x, |c - 1 / 2| ≤ options.tolerance) ∧
      r.result.error ≤ options.tolerance := by
  obtain ⟨r, yv, zv, hs, hsu, hit, hx, _, _, _, _, herr⟩ :=
    scenario_cold impl options hmu hmux htau htol hcap
  have hle : r.result.iterations ≤ 2 := by
    rw [hit]
    split <;> omega
  refine ⟨r, hs, hsu, hle, by omega, hx, ?_, herr⟩
  intro c hc
  rw [hx] at hc
  have hc2 : c = 1 / 2 := by simpa using hc
  rw [hc2, sub_self, abs_zero]
  exact htol

/-- The theorem of C22 at the options of the scenario: tolerance `1e-8`, `mu = mux = 1e-5`,
`tau = 0.99`, at most 100 iterations. -/
theorem scenario_converges_witness :
    ∃ r, solve sampleEnv {} sampleProblem sampleState (scenarioOptions (1 / 100000000)) =
        Except.ok r ∧
      r.result.succeeded = true ∧ r.result.iterations ≤ 2 ∧ r.result.iterations < 20 ∧
      r.state.x = [1 / 2, 1 / 2] ∧
      (∀ c ∈ r.state.x, |c - 1 / 2| ≤ (scenarioOptions (1 / 100000000)).tolerance) ∧
      r.result.error ≤ (scenarioOptions (1 / 100000000)).tolerance :=
  scenario_converges {} (scenarioOptions (1 / 100000000)) (by norm_num [scenarioOptions])
    (by norm_num [scenarioOptions]) (by norm_num [scenarioOptions])
    (by norm_num [scenarioOptions]) (by norm_num [scenarioOptions])

end OptimumSolverIpnewton

/-! ## The algebra of `ThermoScalar` -/

namespace ThermoScalar

/-- C37: for `r.val ≠ 0`, the quotient `l / r` is the product `l * (1.0 / r)`, in value and in
both derivatives. -/
theorem div_eq_mul_scalarDiv {K : Type} [Field K] (l r : ThermoScalar K) (hr : r.val ≠ 0) :
    div l r = mul l (scalarDiv 1 r) ∧
    (div l r).val = (mul l (scalarDiv 1 r)).val ∧
    (div l r).ddt = (mul l (scalarDiv 1 r)).ddt ∧
    (div l r).ddp = (mul l (scalarDiv 1 r)).ddp := by
  have h : div l r = mul l (scalarDiv 1 r) := by
    simp only [div, mul, scalarDiv, ThermoScalar.mk.injEq]
    refine ⟨?_, ?_, ?_⟩ <;> field_simp <;> ring
  exact ⟨h, by rw [h], by rw [h], by rw [h]⟩

/-- The theorem of C37 at `l = (6, 1, 2)` and `r = (3, 4, 5)`: both sides are
`(2, -7/3, -8/3)`. -/
theorem div_eq_mul_scalarDiv_witness :
    div (⟨6, 1, 2⟩ : ThermoScalar ℚ) ⟨3, 4, 5⟩ = mul ⟨6, 1, 2⟩ (scalarDiv 1 ⟨3, 4, 5⟩) ∧
    div (⟨6, 1, 2⟩ : ThermoScalar ℚ) ⟨3, 4, 5⟩ = ⟨2, -7 / 3, -8 / 3⟩ := by
  refine ⟨(div_eq_mul_scalarDiv ⟨6, 1, 2⟩ ⟨3, 4, 5⟩ (by norm_num)).1, ?_⟩
  simp only [div, ThermoScalar.mk.injEq]
  norm_num

/-- The value and the derivatives of the `k`-fold product, for `k ≥ 1`. -/
theorem product_succ {K : Type} [Field K] (a : ThermoScalar K) (k : Nat) :
    (product a (k + 1)).val = a.val ^ (k + 1) ∧
    (product a (k + 1)).ddt = (k + 1 : K) * a.val ^ k * a.ddt ∧
    (product a (k + 1)).ddp = (k + 1 : K) * a.val ^ k * a.ddp := by
  induction k with
  | zero => simp [product]
  | succ k ih =>
    obtain ⟨h1, h2, h3⟩ := ih
    have hunf : product a (k + 1 + 1) = mul (product a (k + 1)) a := rfl
    rw [hunf]
    simp only [mul, h1, h2, h3]
    refine ⟨by ring, ?_, ?_⟩
    · push_cast
      ring
    · push_cast
      ring

/-- C38: when `std::pow(x, k)` is `x^k` for natural `k`, for every `a` with `a.val ≠ 0` and
every natural `k ≥ 1`, `pow(a, k)` is the `k`-fold product `a * a * ... * a`, in value and in
both derivatives; for `a.val = 0` the derivatives of `pow` are quotients by zero. -/
theorem pow_eq_product {K : Type} [Field K] (stdPow : K → K → K)
    (hpow : ∀ (x : K) (k : Nat), stdPow x (k : K) = x ^ k)
    (a : ThermoScalar K) (k : Nat) (hk : 1 ≤ k) :
    (a.val ≠ 0 → pow stdPow a (k : K) = product a k) ∧
    (a.val = 0 → (pow stdPow a (k : K)).ddt = (k : K) * stdPow a.val (k : K) * a.ddt / 0 ∧
      (pow stdPow a (k : K)).ddp = (k : K) * stdPow a.val (k : K) * a.ddp / 0) := by
  refine ⟨?_, ?_⟩
  · intro ha
    obtain ⟨j, rfl⟩ : ∃ j, k = j + 1 := ⟨k - 1, by omega⟩
    obtain ⟨h1, h2, h3⟩ := product_succ a j
    have hval : (pow stdPow a ((j + 1 : Nat) : K)).val = (product a (j + 1)).val := by
      rw [h1]
      exact hpow a.val (j + 1)
    have hddt : (pow stdPow a ((j + 1 : Nat) : K)).ddt = (product a (j + 1)).ddt := by
      rw [h2]
      simp only [pow]
      rw [hpow a.val (j + 1)]
      push_cast
      field_simp
      ring
    have hddp : (pow stdPow a ((j + 1 : Nat) : K)).ddp = (product a (j + 1)).ddp := by
      rw [h3]
      simp only [pow]
      rw [hpow a.val (j + 1)]
      push_cast
      field_simp
      ring
    cases hp : pow stdPow a ((j + 1 : Nat) : K) with
    | mk v t p =>
      cases hq : product a (j + 1) with
      | mk v1 t1 p1 =>
        rw [hp, hq] at hval hddt hddp
        simp only at hval hddt hddp
        rw [hval, hddt, hddp]
  · intro ha
    simp only [pow, ha]
    exact ⟨trivial, trivial⟩

/-- The theorem of C38 at `a = (2, 3, 5)` and `k = 3`, with `x^k` for `std::pow`: `pow(a, 3)`
and `a * a * a` are `(8, 36, 60)`. -/
theorem pow_eq_product_witness :
    pow (fun (x y : ℚ) => x ^ y.num.toNat) (⟨2, 3, 5⟩ : ThermoScalar ℚ) 3 = product ⟨2, 3, 5⟩ 3 ∧
    product (⟨2, 3, 5⟩ : ThermoScalar ℚ) 3 = ⟨8, 36, 60⟩ := by
  have h := (pow_eq_product (fun (x y : ℚ) => x ^ y.num.toNat) (fun x k => by simp)
    (⟨2, 3, 5⟩ : ThermoScalar ℚ) 3 (by norm_num)).1 (by norm_num)
  refine ⟨by simpa using h, ?_⟩
  simp only [product, mul, ThermoScalar.mk.injEq]
  norm_num

/-- C39: when `std::log` and `std::exp` are mutually inverse (`log (exp x) = x`, and
`exp (log x) = x` for `x > 0`) and `exp` has no zero, `log(exp(a)) = a` for every `a`, and
`exp(log(a)) = a` for every `a` with `a.val > 0`, in value and in both derivatives. -/
theorem log_exp_inverse {K : Type} [LinearOrderedField K] (stdExp stdLog : K → K)
    (hle : ∀ x, stdLog (stdExp x) = x) (hne : ∀ x, stdExp x ≠ 0)
    (hel : ∀ x, 0 < x → stdExp (stdLog x) = x) (a : ThermoScalar K) :
    log stdLog (exp stdExp a) = a ∧ (0 < a.val → exp stdExp (log stdLog a) = a) := by
  obtain ⟨v, t, p⟩ := a
  refine ⟨?_, ?_⟩
  · simp only [log, exp, ThermoScalar.mk.injEq]
    refine ⟨hle v, ?_, ?_⟩
    · field_simp [hne v]
    · field_simp [hne v]
  · intro hv
    have hv0 : v ≠ 0 := ne_of_gt hv
    simp only [log, exp, ThermoScalar.mk.injEq]
    rw [hel v hv]
    refine ⟨rfl, ?_, ?_⟩
    · field_simp
    · field_simp

/-- The theorem of C39 over the real numbers, with the exponential and the logarithm of the
reals, at `a = (1, 2, 3)`. -/
theorem log_exp_inverse_witness :
    log Real.log (exp Real.exp (⟨1, 2, 3⟩ : ThermoScalar ℝ)) = ⟨1, 2, 3⟩ ∧
    exp Real.exp (log Real.log (⟨1, 2, 3⟩ : ThermoScalar ℝ)) = ⟨1, 2, 3⟩ := by
  have h := log_exp_inverse Real.exp Real.log Real.log_exp Real.exp_ne_zero
    (fun x hx => Real.exp_log hx) (⟨1, 2, 3⟩ : ThermoScalar ℝ)
  exact ⟨h.1, h.2 (by norm_num)⟩

end ThermoScalar

/-! ## The index methods of `Interface` -/

namespace Interface

/-- The search loop returns an index at most `size`, before which no name matches, and at
which the name matches when it is below `size`. -/
theorem indexOfName_spec (name : Nat → String) (query : String) (size : Nat) :
    ∀ (remaining i : Nat), i + remaining = size → (∀ j, j < i → name j ≠ query) →
      indexOfName name query size remaining i ≤ size ∧
      (∀ j, j < indexOfName name query size remaining i → name j ≠ query) ∧
      (indexOfName name query size remaining i < size →
        name (indexOfName name query size remaining i) = query) := by
  intro remaining
  induction remaining with
  | zero =>
    intro i hi hbefore
    simp only [indexOfName]
    refine ⟨le_refl _, ?_, fun h => absurd h (lt_irrefl _)⟩
    intro j hj
    exact hbefore j (by omega)
  | succ k ih =>
    intro i hi hbefore
    simp only [indexOfName]
    by_cases hm : name i = query
    · rw [if_pos hm]
      exact ⟨by omega, hbefore, fun _ => hm⟩
    · rw [if_neg hm]
      refine ih (i + 1) (by omega) ?_
      intro j hj
      rcases Nat.lt_succ_iff_lt_or_eq.mp hj with h | h
      · exact hbefore j h
      · rw [h]; exact hm

/-- The search loop from index zero: the smallest index whose name matches, when there is
one below `size`, and `size` when there is none. -/
theorem indexOfName_least (name : Nat → String) (query : String) (size : Nat) :
    ((∃ i, i < size ∧ name i = query) →
      indexOfName name query size size 0 < size ∧
      name (indexOfName name query size size 0) = query ∧
      ∀ j, j < indexOfName name query size size 0 → name j ≠ query) ∧
    ((∀ i, i < size → name i ≠ query) → indexOfName name query size size 0 = size) := by
  obtain ⟨hle, hbefore, hat⟩ := indexOfName_spec name query size size 0 (by omega)
    (fun j hj => absurd hj (Nat.not_lt_zero j))
  refine ⟨?_, ?_⟩
  · rintro ⟨i, hi, hq⟩
    have hlt : indexOfName name query size size 0 < size := by
      by_contra hge
      exact hbefore i (by omega) hq
    exact ⟨hlt, hat hlt, hbefore⟩
  · intro hnone
    by_contra hne
    have hlt : indexOfName name query size size 0 < size := by omega
    exact hnone _ hlt (hat hlt)

/-- C36: each of `indexElement`, `indexSpecies` and `indexPhase` returns the smallest index
whose name is the queried name when there is one, and the number of elements, of species or
of phases when no name matches. -/
theorem index_by_name_spec (I : Interface) (query : String) :
    (((∃ i, i < I.numElements ∧ I.elementName i = query) →
        I.indexElement query < I.numElements ∧ I.elementName (I.indexElement query) = query ∧
        ∀ j, j < I.indexElement query → I.elementName j ≠ query) ∧
      ((∀ i, i < I.numElements → I.elementName i ≠ query) →
        I.indexElement query = I.numElements)) ∧
    (((∃ i, i < I.numSpecies ∧ I.speciesName i = query) →
        I.indexSpecies query < I.numSpecies ∧ I.speciesName (I.indexSpecies query) = query ∧
        ∀ j, j < I.indexSpecies query → I.speciesName j ≠ query) ∧
      ((∀ i, i < I.numSpecies → I.speciesName i ≠ query) →
        I.indexSpecies query = I.numSpecies)) ∧
    (((∃ i, i < I.numPhases ∧ I.phaseName i = query) →
        I.indexPhase query < I.numPhases ∧ I.phaseName (I.indexPhase query) = query ∧
        ∀ j, j < I.indexPhase query → I.phaseName j ≠ query) ∧
      ((∀ i, i < I.numPhases → I.phaseName i ≠ query) →
        I.indexPhase query = I.numPhases)) :=
  ⟨indexOfName_least I.elementName query I.numElements,
    indexOfName_least I.speciesName query I.numSpecies,
    indexOfName_least I.phaseName query I.numPhases⟩

/-- The theorem of C36 at the sample interface, where the species 2, 3 and 4 share the name
`O2`: the index of `O2` is 2, the smallest, and the index of a name that no species has is
the number of species, 5. -/
theorem index_by_name_spec_witness :
    sampleInterface.indexSpecies "O2" = 2 ∧ sampleInterface.indexSpecies "CO2" = 5 ∧
    sampleInterface.indexElement "O" = 1 ∧ sampleInterface.indexPhase "Solid" = 3 ∧
    (((∃ i, i < sampleInterface.numSpecies ∧ sampleInterface.speciesName i = "O2") →
        sampleInterface.indexSpecies "O2" < sampleInterface.numSpecies ∧
        sampleInterface.speciesName (sampleInterface.indexSpecies "O2") = "O2" ∧
        ∀ j, j < sampleInterface.indexSpecies "O2" → sampleInterface.speciesName j ≠ "O2") ∧
      ((∀ i, i < sampleInterface.numSpecies → sampleInterface.speciesName i ≠ "O2") →
        sampleInterface.indexSpecies "O2" = sampleInterface.numSpecies)) :=
  ⟨by decide, by decide, by decide, by decide, (index_by_name_spec sampleInterface "O2").2.1⟩

/-- The species before phase `i + 1` are those before phase `i` and those of phase `i`. -/
theorem speciesBefore_succ (I : Interface) (i : Nat) :
    I.speciesBefore (i + 1) = I.speciesBefore i + I.numSpeciesInPhase i := by
  simp [speciesBefore, List.range_succ, List.foldl_append]

/-- The number of species before a phase grows with the phase. -/
theorem speciesBefore_mono (I : Interface) {i j : Nat} (h : i ≤ j) :
    I.speciesBefore i ≤ I.speciesBefore j := by
  induction j with
  | zero =>
    have : i = 0 := by omega
    rw [this]
  | succ j ih =>
    rcases Nat.lt_succ_iff_lt_or_eq.mp (Nat.lt_succ_of_le h) with hlt | heq
    · rw [speciesBefore_succ]
      exact le_trans (ih (by omega)) (Nat.le_add_right _ _)
    · rw [heq]

/-- The loop of `indexPhaseWithSpecies`, entered at phase `i` with the species before `i`
counted and not above `s`: when `s` is below the number of all species, which an `unsigned`
holds, it returns a phase `p < numPhases` with
`speciesBefore p ≤ s < speciesBefore (p + 1)`. -/
theorem indexPhaseWithSpeciesLoop_spec (I : Interface) (s : Nat)
    (hrep : I.speciesBefore I.numPhases < 2 ^ 32) (hs : s < I.speciesBefore I.numPhases) :
    ∀ (remaining i : Nat), i + remaining = I.numPhases → I.speciesBefore i ≤ s →
      indexPhaseWithSpeciesLoop I s remaining i (I.speciesBefore i) < I.numPhases ∧
      I.speciesBefore (indexPhaseWithSpeciesLoop I s remaining i (I.speciesBefore i)) ≤ s ∧
      s < I.speciesBefore
        (indexPhaseWithSpeciesLoop I s remaining i (I.speciesBefore i) + 1) := by
  intro remaining
  induction remaining with
  | zero =>
    intro i hi hle
    have : i = I.numPhases := by omega
    rw [this] at hle
    omega
  | succ k ih =>
    intro i hi hle
    have hbound : I.speciesBefore (i + 1) < 2 ^ 32 :=
      lt_of_le_of_lt (speciesBefore_mono I (by omega)) hrep
    have hwrap : (I.speciesBefore i + I.numSpeciesInPhase i) % 2 ^ 32 =
        I.speciesBefore (i + 1) := by
      rw [← speciesBefore_succ]
      exact Nat.mod_eq_of_lt hbound
    simp only [indexPhaseWithSpeciesLoop]
    rw [hwrap]
    by_cases hgt : I.speciesBefore (i + 1) > s
    · rw [if_pos hgt]
      exact ⟨by omega, hle, hgt⟩
    · rw [if_neg hgt]
      exact ih (i + 1) (by omega) (by omega)

/-- The method `indexPhaseWithSpecies` on a species index below the number of species,
when the species are those of the phases. -/
theorem indexPhaseWithSpecies_returns (I : Interface) (hrep : I.numSpecies < 2 ^ 32)
    (hsum : I.numSpecies = I.speciesBefore I.numPhases) (s : Nat) (hs : s < I.numSpecies) :
    ∃ p, I.indexPhaseWithSpecies s = Except.ok p ∧ p < I.numPhases ∧
      I.speciesBefore p ≤ s ∧ s < I.speciesBefore (p + 1) := by
  have h := indexPhaseWithSpeciesLoop_spec I s (by omega) (by omega) I.numPhases 0 (by omega)
    (by simp [speciesBefore])
  have h0 : I.speciesBefore 0 = 0 := by simp [speciesBefore]
  rw [h0] at h
  refine ⟨indexPhaseWithSpeciesLoop I s I.numPhases 0 0, ?_, h⟩
  simp [indexPhaseWithSpecies, Assert, hs]

/-- The method `indexFirstSpeciesInPhase` on a phase index below the number of phases. -/
theorem indexFirstSpeciesInPhase_returns (I : Interface) (p : Nat) (hp : p < I.numPhases) :
    I.indexFirstSpeciesInPhase p = Except.ok (I.speciesBefore p) := by
  simp [indexFirstSpeciesInPhase, Assert, hp, speciesBefore]

/-- C35: for an interface whose number of species is the sum of the numbers of species of
its phases, the phase that `indexPhaseWithSpecies` returns for a species index `s` below
`numSpecies` is a valid phase index `p`, with
`indexFirstSpeciesInPhase p ≤ s < indexFirstSpeciesInPhase p + numSpeciesInPhase p`; and
`indexPhaseWithSpecies` at the first species of a non-empty phase returns that phase. -/
theorem indexPhaseWithSpecies_spec (I : Interface) (hrep : I.numSpecies < 2 ^ 32)
    (hsum : I.numSpecies = I.speciesBefore I.numPhases) :
    (∀ s, s < I.numSpecies →
      ∃ p f, I.indexPhaseWithSpecies s = Except.ok p ∧ p < I.numPhases ∧
        I.indexFirstSpeciesInPhase p = Except.ok f ∧
        f ≤ s ∧ s < f + I.numSpeciesInPhase p) ∧
    (∀ p, p < I.numPhases → 0 < I.numSpeciesInPhase p →
      ∃ f, I.indexFirstSpeciesInPhase p = Except.ok f ∧
        I.indexPhaseWithSpecies f = Except.ok p) := by
  refine ⟨?_, ?_⟩
  · intro s hs
    obtain ⟨p, hret, hp, hlo, hhi⟩ := indexPhaseWithSpecies_returns I hrep hsum s hs
    rw [speciesBefore_succ] at hhi
    exact ⟨p, I.speciesBefore p, hret, hp, indexFirstSpeciesInPhase_returns I p hp, hlo, hhi⟩
  · intro p hp hpos
    refine ⟨I.speciesBefore p, indexFirstSpeciesInPhase_returns I p hp, ?_⟩
    have hnext : I.speciesBefore p < I.speciesBefore (p + 1) := by
      rw [speciesBefore_succ]; omega
    have hall : I.speciesBefore (p + 1) ≤ I.speciesBefore I.numPhases :=
      speciesBefore_mono I (by omega)
    obtain ⟨q, hret, hq, hlo, hhi⟩ :=
      indexPhaseWithSpecies_returns I hrep hsum (I.speciesBefore p) (by omega)
    have hqp : q = p := by
      rcases Nat.lt_trichotomy q p with hlt | heq | hgt
      · have hm : I.speciesBefore (q + 1) ≤ I.speciesBefore p :=
          speciesBefore_mono I (by omega)
        omega
      · exact heq
      · have hm : I.speciesBefore (p + 1) ≤ I.speciesBefore q :=
          speciesBefore_mono I (by omega)
        omega
    rw [hret, hqp]

/-- The sample interface, with phases of 2, 0 and 3 species: the species 0 to 4 lie in the
phases 0, 0, 2, 2, 2, and the first species of the non-empty phases 0 and 2 give back
their phase. -/
theorem indexPhaseWithSpecies_spec_witness :
    sampleInterface.numSpecies < 2 ^ 32 ∧
    sampleInterface.numSpecies = sampleInterface.speciesBefore sampleInterface.numPhases ∧
    ((∀ s, s < sampleInterface.numSpecies →
      ∃ p f, sampleInterface.indexPhaseWithSpecies s = Except.ok p ∧
        p < sampleInterface.numPhases ∧
        sampleInterface.indexFirstSpeciesInPhase p = Except.ok f ∧
        f ≤ s ∧ s < f + sampleInterface.numSpeciesInPhase p) ∧
    (∀ p, p < sampleInterface.numPhases → 0 < sampleInterface.numSpeciesInPhase p →
      ∃ f, sampleInterface.indexFirstSpeciesInPhase p = Except.ok f ∧
        sampleInterface.indexPhaseWithSpecies f = Except.ok p)) :=
  ⟨by decide, by decide, indexPhaseWithSpecies_spec sampleInterface (by decide) (by decide)⟩

end Interface

/-! ## The amounts of a chemical state -/

namespace ChemicalState

/-- C34 (divergence): from the state constructed for a system of three species, whose
amounts are all zero, `setSpeciesAmounts(const Vector&)` with the values `(-1, 2, 3)` and
`setSpeciesAmounts(const Vector&, const Indices&)` with the value `-1` at index `0` both
return normally and leave the negative amount `-1` in the state, while
`setSpeciesAmounts(double)` and `setSpeciesAmount(Index, double)` raise on `-1`. -/
theorem setSpeciesAmounts_negative :
    (∀ v ∈ (ofSystem sampleChemicalState.system).n, 0 ≤ v) ∧
    (∃ s1, setSpeciesAmounts (ofSystem sampleChemicalState.system) [-1, 2, 3] = Except.ok s1 ∧
      s1.n = [-1, 2, 3] ∧ ∃ v ∈ s1.n, v < 0) ∧
    (∃ s1, setSpeciesAmountsAt (ofSystem sampleChemicalState.system) [-1] [0] = Except.ok s1 ∧
      s1.n = [-1, 0, 0] ∧ ∃ v ∈ s1.n, v < 0) ∧
    setSpeciesAmountsValue (ofSystem sampleChemicalState.system) (-1) =
      Except.error (ofSystem sampleChemicalState.system) ∧
    setSpeciesAmount (ofSystem sampleChemicalState.system) 0 (-1) =
      Except.error (ofSystem sampleChemicalState.system) := by
  refine ⟨?_, ?_, ?_, ?_, ?_⟩
  · simp [ofSystem, sampleChemicalState, zeros]
  · refine ⟨{ ofSystem sampleChemicalState.system with n := [-1, 2, 3] }, ?_, rfl, ?_⟩
    · simp [setSpeciesAmounts, Assert, ofSystem, sampleChemicalState]
    · exact ⟨-1, by simp, by norm_num⟩
  · refine ⟨{ ofSystem sampleChemicalState.system with n := [-1, 0, 0] }, ?_, rfl, ?_⟩
    · simp [setSpeciesAmountsAt, Assert, assignRows, ofSystem, sampleChemicalState, zeros]
    · exact ⟨-1, by simp, by norm_num⟩
  · norm_num [setSpeciesAmountsValue, Assert]
  · norm_num [setSpeciesAmount, Assert]

end ChemicalState

/-! ## The initialization step, applied twice -/

namespace OptimumSolverIpnewton

/-- A state whose vectors have the declared sizes goes unchanged through
`ensure_dimensions`. -/
theorem ensure_dimensions_of_length (problem : OptimumProblem) (state : OptimumState)
    (hx : state.x.length = problem.numVariables) (hy : state.y.length = problem.numConstraints)
    (hz : state.z.length = problem.numVariables) :
    ensure_dimensions problem state = state := by
  simp [ensure_dimensions, hx, hy, hz]

/-- Combining twice with the same right operand, for a combination that absorbs it. -/
theorem zipWith_absorb (f : ℚ → ℚ → ℚ) (hf : ∀ c d, f (f c d) d = f c d) (u w : Vector) :
    List.zipWith f (List.zipWith f u w) w = List.zipWith f u w := by
  induction u generalizing w with
  | nil => simp
  | cons c u ih =>
    cases w with
    | nil => simp
    | cons d w => simp only [List.zipWith_cons_cons, hf, ih]

/-- The reset of a coefficient of `z`, applied twice against the same coefficient of `x`. -/
theorem reset_absorb (mu c d : ℚ) :
    (if (if c > 0 then c else mu / d) > 0 then (if c > 0 then c else mu / d) else mu / d) =
      (if c > 0 then c else mu / d) := by
  by_cases hc : c > 0
  · simp [hc]
  · simp only [if_neg hc, ite_self]

/-- C33: the initialization step of `solve` is idempotent: on a state that went through it,
for the same problem and options, it changes nothing, so `x`, `y` and `z` are unchanged. -/
theorem ensure_initial_guess_idem (problem : OptimumProblem) (options : OptimumOptions)
    (state : OptimumState) :
    ensure_initial_guess problem options (ensure_initial_guess problem options state) =
      ensure_initial_guess problem options state ∧
    (ensure_initial_guess problem options (ensure_initial_guess problem options state)).x =
      (ensure_initial_guess problem options state).x ∧
    (ensure_initial_guess problem options (ensure_initial_guess problem options state)).y =
      (ensure_initial_guess problem options state).y ∧
    (ensure_initial_guess problem options (ensure_initial_guess problem options state)).z =
      (ensure_initial_guess problem options state).z := by
  have key : ensure_initial_guess problem options (ensure_initial_guess problem options state) =
      ensure_initial_guess problem options state := by
    obtain ⟨hx, hy, hz⟩ := ensure_dimensions_length problem state
    obtain ⟨hx1, hz1, hzl⟩ := ensure_initial_guess_sizes problem options state
    have hy1 : (ensure_initial_guess problem options state).y.length =
        problem.numConstraints := hy
    have hxv : (ensure_initial_guess problem options state).x =
        (ensure_dimensions problem state).x.map
          (fun c => max c (options.ipnewton.mux * options.ipnewton.mu)) := by
      simp only [ensure_initial_guess, ensure_feasible]
      rw [vmax_floor _ _ _ hx]
    have hxx : vmax (ensure_initial_guess problem options state).x
        (smul (options.ipnewton.mux * options.ipnewton.mu) (ones problem.numVariables)) =
        (ensure_initial_guess problem options state).x := by
      rw [vmax_floor _ _ _ hx1, hxv, List.map_map]
      apply List.map_congr_left
      intro c _
      simp
    have hzz : selectPositive (ensure_initial_guess problem options state).z
        (ensure_initial_guess problem options state).z
        (sdiv options.ipnewton.mu (ensure_initial_guess problem options state).x) =
        (ensure_initial_guess problem options state).z := by
      rw [selectPositive_self, sdiv, List.zipWith_map_right]
      have habs := zipWith_absorb
        (fun zi xi => if zi > 0 then zi else options.ipnewton.mu / xi)
        (fun c d => reset_absorb options.ipnewton.mu c d)
        (ensure_dimensions problem state).z (ensure_initial_guess problem options state).x
      rw [← hz1] at habs
      exact habs
    have hdim := ensure_dimensions_of_length problem
      (ensure_initial_guess problem options state) hx1 hy1 hzl
    show ensure_feasible problem options
      (ensure_dimensions problem (ensure_initial_guess problem options state)) = _
    rw [hdim]
    simp only [ensure_feasible]
    rw [hxx, hzz]
  exact ⟨key, by rw [key], by rw [key], by rw [key]⟩

/-! ## The Hessian that `solve` returns -/

/-- A visited run is the run of a pass entered with the run of the start or with a visited
run. -/
theorem Visited.entering {env : Env} {problem : OptimumProblem} {options : OptimumOptions}
    {r0 r : Run} (hv : Visited env problem options r0 r) :
    ∃ rp, (rp = r0 ∨ Visited env problem options r0 rp) ∧
      pass env problem options rp = Except.ok r := by
  cases hv with
  | first h1 => exact ⟨_, Or.inl rfl, h1⟩
  | next hv1 _ h2 => exact ⟨_, Or.inr hv1, h2⟩

/-- The Hessian at the end of a pass that returns is the one that `compute_newton_step`
stored: the Hessian of the problem at the `x` and the `g` with which the pass was entered. -/
theorem pass_hessian {env : Env} {problem : OptimumProblem} {options : OptimumOptions}
    {rp r1 : Run} (h : pass env problem options rp = Except.ok r1) :
    r1.state.H = problem.objectiveHessian rp.state.x rp.state.g := by
  obtain ⟨r2, h2, rfl⟩ := pass_ok h
  have hst := (compute_newton_step_returns h2).1
  have hk := (update_iterates_keeps env options r2).2.2.2
  have htail : (output_state options (update_errors options (update_state problem
      (update_iterates env options r2)))).state.H = (update_iterates env options r2).state.H := by
    generalize update_iterates env options r2 = r3
    unfold output_state update_errors update_state
    split <;> simp
  rw [htail, hk, hst]

/-- C32: whenever `solve` returns, `state.H` is the Hessian that `objectiveHessian` gave at
the `x` and the `g` with which the last pass was entered (`g` being the gradient at that
`x`), the iterate held before the last step, while `f`, `g`, `h`, `A` are the evaluations
of the problem at the returned `x`. -/
theorem solve_hessian_previous (env : Env) (impl : Impl) (problem : OptimumProblem)
    (state : OptimumState) (options : OptimumOptions) (r : Run)
    (h : solve env impl problem state options = Except.ok r) :
    ∃ rp r1, (rp = start impl problem state options ∨
        Visited env problem options (start impl problem state options) rp) ∧
      pass env problem options rp = Except.ok r1 ∧ r = finish env options r1 ∧
      r.state.H = problem.objectiveHessian rp.state.x rp.state.g ∧
      rp.state.g = problem.objectiveGrad rp.state.x ∧
      r.state.f = problem.objective r.state.x ∧
      r.state.g = problem.objectiveGrad r.state.x ∧
      r.state.h = problem.constraint r.state.x ∧
      r.state.A = problem.constraintGrad r.state.x := by
  obtain ⟨_, r1, _, hr, hv⟩ := solve_returns h
  obtain ⟨rp, hrp, hp⟩ := hv.entering
  subst hr
  have hst := (finish_result env options r1).1
  obtain ⟨hf, hg, hh, hA⟩ := (pass_post hp).1
  refine ⟨rp, r1, hrp, hp, rfl, ?_, (entering_cached hrp).2.1, ?_, ?_, ?_, ?_⟩
  · rw [hst]; exact pass_hessian hp
  · rw [hst]; exact hf
  · rw [hst]; exact hg
  · rw [hst]; exact hh
  · rw [hst]; exact hA

/-- The first pass on the cubic problem, from `x = (1, 1)`: the iterate lands on
`x = (1/2, 1/2)` with error `1/4`, and the Hessian of the state is the one at `(1, 1)`. -/
theorem cubic_first_pass (cap : Nat) (tol : ℚ) :
    ∃ r1, pass sampleEnv cubicProblem (sampleOptions cap tol)
        (start {} cubicProblem sampleState (sampleOptions cap tol)) = Except.ok r1 ∧
      r1.state.x = [1 / 2, 1 / 2] ∧
      r1.state.H = { mode := HessianMode.Diagonal, diagonal := [2, 2] } ∧
      r1.error = 1 / 4 ∧ r1.result.iterations = 1 := by
  simp [pass, compute_newton_step, start, ensure_initial_guess, ensure_feasible,
    ensure_dimensions, update_state, output_header, sampleOptions, sampleState, sampleEnv,
    cubicProblem, kktDiagonal, zeros, ones, smul, vmax, selectPositive, sdiv, vadd, ediv,
    trmul, dot, emul, vneg, vsub, ssub, update_iterates, update_errors, output_state,
    fractionToTheBoundary, norminf, vsubs]
  norm_num [List.replicate]

/-- The theorem of C32 at the cubic problem, whose Hessian `diag(2x)` depends on `x`: from
`x = (1, 1)` with tolerance `1e6`, `solve` returns `x = (1/2, 1/2)` with the Hessian
`diag(2, 2)` of the start, while the Hessian at the returned `x` is `diag(1, 1)`. -/
theorem solve_hessian_previous_witness :
    ∃ r, solve sampleEnv {} cubicProblem sampleState (sampleOptions 2 1000000) = Except.ok r ∧
      r.state.x = [1 / 2, 1 / 2] ∧
      r.state.H = { mode := HessianMode.Diagonal, diagonal := [2, 2] } ∧
      cubicProblem.objectiveHessian r.state.x r.state.g =
        { mode := HessianMode.Diagonal, diagonal := [1, 1] } ∧
      ∃ rp r1, (rp = start {} cubicProblem sampleState (sampleOptions 2 1000000) ∨
          Visited sampleEnv cubicProblem (sampleOptions 2 1000000)
            (start {} cubicProblem sampleState (sampleOptions 2 1000000)) rp) ∧
        pass sampleEnv cubicProblem (sampleOptions 2 1000000) rp = Except.ok r1 ∧
        r = finish sampleEnv (sampleOptions 2 1000000) r1 ∧
        r.state.H = cubicProblem.objectiveHessian rp.state.x rp.state.g ∧
        rp.state.g = cubicProblem.objectiveGrad rp.state.x ∧
        r.state.f = cubicProblem.objective r.state.x ∧
        r.state.g = cubicProblem.objectiveGrad r.state.x ∧
        r.state.h = cubicProblem.constraint r.state.x ∧
        r.state.A = cubicProblem.constraintGrad r.state.x := by
  obtain ⟨r1, hp, hx, hH, herr, hit⟩ := cubic_first_pass 2 1000000
  have hc : ¬ continues (sampleOptions 2 1000000) r1 := by
    rintro ⟨h1, _⟩
    rw [herr] at h1
    simp only [sampleOptions] at h1
    norm_num at h1
  have hs := solve_of_first_pass hp hc
  have hst := (finish_result sampleEnv (sampleOptions 2 1000000) r1).1
  refine ⟨finish sampleEnv (sampleOptions 2 1000000) r1, hs, ?_, ?_, ?_,
    solve_hessian_previous sampleEnv {} cubicProblem sampleState (sampleOptions 2 1000000)
      _ hs⟩
  · rw [hst]; exact hx
  · rw [hst]; exact hH
  · rw [hst, hx]
    norm_num [cubicProblem]

/-! ## The scratch vectors of the solver -/

/-- A pass does not read what the scratch vectors hold when it is entered: with other
contents, a pass that returns returns the same run, and a pass that raises raises a run
that differs in the scratch vectors only. -/
theorem pass_scratch (env : Env) (problem : OptimumProblem) (options : OptimumOptions)
    (r : Run) (dx dy dz a b : Vector) :
    (∀ r1, pass env problem options r = Except.ok r1 →
      pass env problem options
        { r with impl := { r.impl with dx := dx, dy := dy, dz := dz, a := a, b := b } } =
          Except.ok r1) ∧
    (∀ e, pass env problem options r = Except.error e →
      ∃ e1, pass env problem options
        { r with impl := { r.impl with dx := dx, dy := dy, dz := dz, a := a, b := b } } =
          Except.error e1 ∧ stripScratch e1 = stripScratch e) := by
  simp only [pass, compute_newton_step]
  cases hd : env.kkt.decompose
      { r.state with H := problem.objectiveHessian r.state.x r.state.g } with
  | none => simp [stripScratch]
  | some td =>
    simp only []
    cases hs : env.kkt.solve
        { r.state with H := problem.objectiveHessian r.state.x r.state.g }
        (vneg (vsub (vsub r.state.g (trmul r.state.A r.state.y))
          (sdiv options.ipnewton.mu r.state.x))) (vneg r.state.h) with
    | none => simp [stripScratch]
    | some sol =>
      simp only [output_state, update_errors, update_state, update_iterates]
      by_cases hu : options.ipnewton.uniform_newton_step = true <;>
      by_cases ha : options.output.active = true <;> simp [hu, ha]

/-- The run with which the loop is entered keeps the scratch vectors of the solver. -/
theorem start_scratch (impl : Impl) (problem : OptimumProblem) (state : OptimumState)
    (options : OptimumOptions) (dx dy dz a b : Vector) :
    start { impl with dx := dx, dy := dy, dz := dz, a := a, b := b } problem state options =
      { start impl problem state options with
        impl := { (start impl problem state options).impl with
          dx := dx, dy := dy, dz := dz, a := a, b := b } } := by
  simp only [start, output_header, update_state]
  by_cases ha : options.output.active = true <;> simp [ha]

/-- C31: the outcome of `solve` does not depend on what the scratch vectors `dx`, `dy`,
`dz`, `a`, `b` of the solver hold before the call, the KKT solve writing the whole of `dx`
and `dy`: with other contents, a `solve` that returns returns the same run, so the same
state and the same `result.iterations`, `result.error` and `result.succeeded`, and a `solve`
that raises raises with the same state and result. -/
theorem solve_scratch_independent (env : Env) (impl : Impl) (dx dy dz a b : Vector)
    (problem : OptimumProblem) (state : OptimumState) (options : OptimumOptions) :
    (∀ r, solve env impl problem state options = Except.ok r →
      ∃ r1, solve env { impl with dx := dx, dy := dy, dz := dz, a := a, b := b }
          problem state options = Except.ok r1 ∧
        r1.state = r.state ∧ r1.result.iterations = r.result.iterations ∧
        r1.result.error = r.result.error ∧ r1.result.succeeded = r.result.succeeded ∧
        r1 = r) ∧
    (∀ e, solve env impl problem state options = Except.error e →
      ∃ e1, solve env { impl with dx := dx, dy := dy, dz := dz, a := a, b := b }
          problem state options = Except.error e1 ∧
        e1.state = e.state ∧ e1.result = e.result ∧ stripScratch e1 = stripScratch e) := by
  obtain ⟨hok, herr⟩ := pass_scratch env problem options (start impl problem state options)
    dx dy dz a b
  rw [← start_scratch] at hok herr
  cases hp : pass env problem options (start impl problem state options) with
  | ok r1 =>
    have hsame : solve env { impl with dx := dx, dy := dy, dz := dz, a := a, b := b }
        problem state options = solve env impl problem state options := by
      unfold solve
      rw [iterate_eq env problem options (start impl problem state options),
        iterate_eq env problem options
          (start { impl with dx := dx, dy := dy, dz := dz, a := a, b := b }
            problem state options), hok r1 hp, hp]
    rw [hsame]
    refine ⟨fun r hr => ⟨r, hr, rfl, rfl, rfl, rfl, rfl⟩, fun e he => ⟨e, he, rfl, rfl, rfl⟩⟩
  | error e0 =>
    have hsolve : solve env impl problem state options = Except.error e0 := by
      unfold solve
      rw [iterate_eq, hp]
    obtain ⟨e1, hp1, hstrip⟩ := herr e0 hp
    have hsolve1 : solve env { impl with dx := dx, dy := dy, dz := dz, a := a, b := b }
        problem state options = Except.error e1 := by
      unfold solve
      rw [iterate_eq, hp1]
    rw [hsolve, hsolve1]
    refine ⟨fun r hr => absurd hr (by simp), fun e he => ?_⟩
    injection he with he
    subst he
    have hstate : (stripScratch e1).state = (stripScratch e0).state := by rw [hstrip]
    have hresult : (stripScratch e1).result = (stripScratch e0).result := by rw [hstrip]
    exact ⟨e1, rfl, hstate, hresult, hstrip⟩

/-- The theorem of C31 at the sample problem: a fresh solver and a solver whose scratch
vectors hold other values, of other sizes, return the same run. -/
theorem solve_scratch_independent_witness :
    ∃ r, solve sampleEnv {} sampleProblem sampleState (sampleOptions 2 1000000) =
        Except.ok r ∧
      ∃ r1, solve sampleEnv
          { ({} : Impl) with dx := [7], dy := [8, 9], dz := [], a := [1, 2, 3], b := [4] }
          sampleProblem sampleState (sampleOptions 2 1000000) = Except.ok r1 ∧
        r1.state = r.state ∧ r1.result.iterations = r.result.iterations ∧
        r1.result.error = r.result.error ∧ r1.result.succeeded = r.result.succeeded ∧
        r1 = r := by
  obtain ⟨r1, _, _, hs, _⟩ := sample_solve 2 1000000 (Or.inl (by norm_num))
  exact ⟨_, hs, (solve_scratch_independent sampleEnv {} [7] [8, 9] [] [1, 2, 3] [4]
    sampleProblem sampleState (sampleOptions 2 1000000)).1 _ hs⟩

end OptimumSolverIpnewton

end Reaktor
